import Mathlib

/-!
# BigInteger (base 10^9 limbs): a shallow embedding of `big_integer.hpp`

A `BigInteger` object is its private member `repres : std::vector<Integer>`, modelled as a
`List Nat` with the least-significant limb first.  `Integer` is `unsigned long long`; every
machine operation of the source is modelled on `Nat` with an explicit reduction modulo `2^64`
(`wadd`, `wsub`, `wmul`), so the wrap-around the source relies on for borrow detection is part of
the model.  Loops that walk iterators are recursive functions over the limbs they walk.
A member function that may throw returns an `Outcome`: the receiver's limbs when control leaves
the function together with the exception that left it, if any.
-/

namespace BigInteger

/-! ## Constants and machine words -/

/-- Source: `static constexpr const Integer RADIX = 1000000000ull` -/
def RADIX : Nat := 1000000000

/-- Source: `static constexpr const Integer HALF_OF_RADIX = 500000000ull` -/
def HALF_OF_RADIX : Nat := 500000000

/-- Number of values of `unsigned long long`. -/
def WORD : Nat := 18446744073709551616

/-- Unsigned 64-bit addition. -/
def wadd (a b : Nat) : Nat := (a + b) % WORD

/-- Unsigned 64-bit subtraction (wraps around below zero). -/
def wsub (a b : Nat) : Nat := (a + WORD - b) % WORD

/-- Unsigned 64-bit multiplication. -/
def wmul (a b : Nat) : Nat := (a * b) % WORD

/-- The exceptions thrown by the class. -/
inductive Exn where
  | range_error
  | overflow_error
  deriving DecidableEq

/-- State of the receiver when a compound operator returns or throws. -/
structure Outcome where
  repres : List Nat
  exn : Option Exn
  deriving DecidableEq

/-- Normal return of a compound operator. -/
def Outcome.ok (r : List Nat) : Outcome := ⟨r, none⟩

/-- A compound operator left by `throw e` with the receiver holding `r`. -/
def Outcome.thrown (e : Exn) (r : List Nat) : Outcome := ⟨r, some e⟩

/-- What a value-returning operator (`a - b`, `a / b`) yields: the copy `res` on normal return,
the exception otherwise (the copy is destroyed during unwinding). -/
def Outcome.toExcept (o : Outcome) : Except Exn (List Nat) :=
  match o.exn with
  | none => Except.ok o.repres
  | some e => Except.error e

/-! ## Specification-side notions -/

/-- The number denoted by a limb sequence, least-significant limb first. -/
def value : List Nat → Nat
  | [] => 0
  | x :: xs => x + RADIX * value xs

/-- Canonical form: every limb below `RADIX`, and the most-significant limb, if any, non-zero. -/
def canonical (l : List Nat) : Prop :=
  (∀ x ∈ l, x < RADIX) ∧ l.getLast? ≠ some 0

instance (l : List Nat) : Decidable (canonical l) := by
  unfold canonical; exact inferInstance

/-! ## Private helpers of the class -/

/-- Source: `Integer BigInteger::get(size_type idx) const` -/
def get (repres : List Nat) (idx : Nat) : Nat :=
  if idx ≥ repres.length then 0 else repres.getD idx 0

/-- Source: `if (!repres.back()) repres.pop_back();` -/
def popBackIfZero (repres : List Nat) : List Nat :=
  if repres.getLast? = some 0 then repres.dropLast else repres

/-- The carry loop of `operator+=(const Integer &)`: returns the limbs and the final carry. -/
def addIntLoop : List Nat → Nat → List Nat × Nat
  | [], carry => ([], carry)
  | x :: xs, carry =>
    let y := wadd x carry
    if y ≥ RADIX then
      let r := addIntLoop xs 1
      ((y % RADIX) :: r.1, r.2)
    else (y :: xs, 0)

/-- Source: `BigInteger &BigInteger::operator+=(const Integer &obj)` -/
def addAssignInt (repres : List Nat) (obj : Nat) : List Nat :=
  if obj = 0 then repres
  else
    let r1 := match repres with
      | [] => [obj]
      | x :: xs => wadd x obj :: xs
    let r2 := addIntLoop r1 0
    if r2.2 ≠ 0 then r2.1 ++ [1] else r2.1

/-- The borrow loop of `operator-=(const Integer &)`. -/
def subIntLoop : List Nat → Nat → List Nat × Nat
  | [], carry => ([], carry)
  | x :: xs, carry =>
    let y := wsub x carry
    if y ≥ RADIX then
      let r := subIntLoop xs 1
      (wadd y RADIX :: r.1, r.2)
    else (y :: xs, 0)

/-- Source: `BigInteger &BigInteger::operator-=(const Integer &obj)` -/
def subAssignInt (repres : List Nat) (obj : Nat) : Outcome :=
  if obj = 0 then Outcome.ok repres
  else
    match repres with
    | [] => Outcome.thrown Exn.range_error repres
    | x :: xs =>
      if xs.length = 0 ∧ x < obj then Outcome.thrown Exn.range_error repres
      else Outcome.ok (popBackIfZero (subIntLoop (wsub x obj :: xs) 0).1)

/-- The loop of `operator*=(const Integer &)`: returns the limbs and the final carry. -/
def mulIntLoop (obj : Nat) : List Nat → Nat → List Nat × Nat
  | [], carry => ([], carry)
  | x :: xs, carry =>
    let t := wadd (wmul x obj) carry
    let r := mulIntLoop obj xs (t / RADIX)
    ((t % RADIX) :: r.1, r.2)

/-- Source: `BigInteger &BigInteger::operator*=(const Integer &obj)` -/
def mulAssignInt (repres : List Nat) (obj : Nat) : List Nat :=
  if repres.isEmpty then repres
  else if obj = 0 then []
  else
    let r := mulIntLoop obj repres 0
    if r.2 ≠ 0 then r.1 ++ [r.2] else r.1

/-- The loop of `operator/=(const Integer &)` over the reverse iterators: the limbs arrive
most-significant first and the new limbs are returned in the same order. -/
def divIntLoop (obj : Nat) : List Nat → Nat → List Nat
  | [], _ => []
  | x :: xs, remainder =>
    let r := wadd (wmul remainder RADIX) x
    (r / obj) :: divIntLoop obj xs (r % obj)

/-- Source: `BigInteger &BigInteger::operator/=(const Integer &obj)` -/
def divAssignInt (repres : List Nat) (obj : Nat) : Outcome :=
  if obj = 0 then Outcome.thrown Exn.overflow_error repres
  else if repres.isEmpty ∨ obj = 1 then Outcome.ok repres
  else
    match repres with
    | [x] => Outcome.ok [x / obj]
    | _ => Outcome.ok (popBackIfZero (divIntLoop obj repres.reverse 0).reverse)

/-- The loop of the converting constructors `BigInteger::BigInteger(const T &obj)` and
`BigInteger::BigInteger(T &&obj)` on a non-negative native value: the limbs pushed by
`while (temp) { push_back(temp % RADIX); temp /= RADIX; }`. -/
def ofNative : Nat → Nat → List Nat
  | 0, _ => []
  | fuel + 1, temp => if temp = 0 then [] else (temp % RADIX) :: ofNative fuel (temp / RADIX)

/-! ## Comparison -/

/-- Source: `std::mismatch` over two ranges the first of which is not longer than the second: the first
pair of differing elements, `none` when the first range is exhausted. -/
def mismatch : List Nat → List Nat → Option (Nat × Nat)
  | x :: xs, y :: ys => if x = y then mismatch xs ys else some (x, y)
  | _, _ => none

/-- Source: `bool BigInteger::operator<(const BigInteger &obj) const noexcept` -/
def lt (repres obj : List Nat) : Bool :=
  if repres.length > obj.length then false
  else if repres.length < obj.length then true
  else
    match mismatch repres.reverse obj.reverse with
    | some (x, y) => decide (x < y)
    | none => false

/-- Source: `bool BigInteger::operator==(const BigInteger &obj) const noexcept`:
`return this->repres == obj.repres;` -/
def eq (repres obj : List Nat) : Bool := decide (repres = obj)

/-! ## Addition and subtraction -/

/-- First loop of `operator+=(const BigInteger &)`, over the receiver's limbs: returns the new
limbs, the limbs of `obj` not yet consumed and the carry. -/
def addLoop1 : List Nat → List Nat → Nat → List Nat × List Nat × Nat
  | [], op, carry => ([], op, carry)
  | x :: xs, o :: os, carry =>
    let y := wadd x (wadd o carry)
    if y ≥ RADIX then
      let r := addLoop1 xs os 1
      ((y % RADIX) :: r.1, r.2)
    else
      let r := addLoop1 xs os 0
      (y :: r.1, r.2)
  | x :: xs, [], carry =>
    if carry ≠ 0 then
      let y := wadd x carry
      if y ≥ RADIX then
        let r := addLoop1 xs [] 1
        ((y % RADIX) :: r.1, r.2)
      else
        let r := addLoop1 xs [] 0
        (y :: r.1, r.2)
    else (x :: xs, [], carry)

/-- Second loop of `operator+=(const BigInteger &)`: the limbs pushed for the rest of `obj`. -/
def addLoop2 : List Nat → Nat → List Nat × Nat
  | [], carry => ([], carry)
  | o :: os, carry =>
    let y := wadd o carry
    if y ≥ RADIX then
      let r := addLoop2 os 1
      ((y % RADIX) :: r.1, r.2)
    else
      let r := addLoop2 os 0
      (y :: r.1, r.2)

/-- Source: `BigInteger &BigInteger::operator+=(const BigInteger &obj)` -/
def addAssign (repres obj : List Nat) : List Nat :=
  match obj with
  | [] => repres
  | [o] => addAssignInt repres o
  | _ =>
    let r := addLoop1 repres obj 0
    let r2 := addLoop2 r.2.1 r.2.2
    if r2.2 ≠ 0 then r.1 ++ r2.1 ++ [1] else r.1 ++ r2.1

/-- The tail of one iteration of the loop of `operator-=(const BigInteger &)`: given the limb after
the subtraction, the limb stored, the carry and the new `all_zero` (`none` is `end`). -/
def subFix (y : Nat) (i : Nat) (all_zero : Option Nat) : Nat × Nat × Option Nat :=
  let c := if y ≥ RADIX then 1 else 0
  let z := if y ≥ RADIX then wadd y RADIX else y
  let az := if z ≠ 0 then none else if all_zero = none then some i else all_zero
  (z, c, az)

/-- The loop of `operator-=(const BigInteger &)`; `i` is the position of `it`.  Returns the limbs,
the final carry and `all_zero`. -/
def subLoop : List Nat → List Nat → Nat → Nat → Option Nat → List Nat × Nat × Option Nat
  | [], _, carry, _, all_zero => ([], carry, all_zero)
  | x :: xs, o :: os, carry, i, all_zero =>
    let s := subFix (wsub x (wadd o carry)) i all_zero
    let r := subLoop xs os s.2.1 (i + 1) s.2.2
    (s.1 :: r.1, r.2)
  | x :: xs, [], carry, i, all_zero =>
    if carry ≠ 0 then
      let s := subFix (wsub x carry) i all_zero
      let r := subLoop xs [] s.2.1 (i + 1) s.2.2
      (s.1 :: r.1, r.2)
    else (x :: xs, carry, none)

/-- Source: `BigInteger &BigInteger::operator-=(const BigInteger &obj)` -/
def subAssign (repres obj : List Nat) : Outcome :=
  match obj with
  | [] => Outcome.ok repres
  | [o] => subAssignInt repres o
  | _ =>
    if repres.length < obj.length then Outcome.thrown Exn.range_error repres
    else
      let r := subLoop repres obj 0 0 none
      if r.2.1 ≠ 0 then Outcome.thrown Exn.range_error r.1
      else
        match r.2.2 with
        | some k => Outcome.ok (r.1.take k)
        | none => Outcome.ok r.1

/-- Source: `BigInteger &BigInteger::operator++()` -/
def inc (repres : List Nat) : List Nat := addAssignInt repres 1

/-- Source: `BigInteger &BigInteger::operator--()` -/
def dec (repres : List Nat) : Outcome := subAssignInt repres 1

/-- Source: `BigInteger BigInteger::operator+(const BigInteger &obj) const` -/
def add (repres obj : List Nat) : List Nat := addAssign repres obj

/-- Source: `BigInteger BigInteger::operator-(const BigInteger &obj) const` -/
def sub (repres obj : List Nat) : Except Exn (List Nat) := (subAssign repres obj).toExcept

/-! ## Multiplication -/

/-- Inner loop of `operator*(const BigInteger &)` for one limb `bj` of `obj`, followed by the
flush of the carry: `res` is the result vector from `local_res_it` on. -/
def mulInner (bj : Nat) : List Nat → List Nat → Nat → List Nat
  | [], [], _ => []
  | [], r :: rs, carry => if carry ≠ 0 then wadd r carry :: rs else r :: rs
  | _ :: _, [], _ => []
  | ai :: as, r :: rs, carry =>
    let t := wadd r (wadd (wmul bj ai) carry)
    (t % RADIX) :: mulInner bj as rs (t / RADIX)

/-- Outer loop of `operator*(const BigInteger &)`: `res` is the result vector from `res_it` on. -/
def mulOuter (repres : List Nat) : List Nat → List Nat → List Nat
  | [], res => res
  | bj :: bs, res =>
    match (if bj = 0 then res else mulInner bj repres res 0) with
    | [] => []
    | r :: rs => r :: mulOuter repres bs rs

/-- Source: `BigInteger BigInteger::operator*(const BigInteger &obj) const` -/
def mul (repres obj : List Nat) : List Nat :=
  if repres.isEmpty ∨ obj.isEmpty then []
  else
    match obj with
    | [o] => mulAssignInt repres o
    | _ => popBackIfZero (mulOuter repres obj (List.replicate (repres.length + obj.length) 0))

/-- Source: `BigInteger &BigInteger::operator*=(const BigInteger &obj)` -/
def mulAssign (repres obj : List Nat) : List Nat := mul repres obj

/-! ## Division -/

/-- Source: `const BigInteger radix(RADIX);` -/
def radix : List Nat := ofNative RADIX RADIX

/-- The correction loop
`while ((r < RADIX) && ((q == RADIX) || (q * v_n__2 > RADIX * r + u_n__2))) { --q; r += v_n__1; }`.
With `q = 0` the condition is false, which is the first equation. -/
def corrLoop (v1 v2 u2 : Nat) : Nat → Nat → Nat × Nat
  | 0, r => (0, r)
  | q + 1, r =>
    if r < RADIX ∧ (q + 1 = RADIX ∨ wmul (q + 1) v2 > wadd (wmul RADIX r) u2) then
      corrLoop v1 v2 u2 q (wadd r v1)
    else (q + 1, r)

/-- One iteration of the loop of `operator/=(const BigInteger &)`: from the remainder and the
next limb of the dividend to the quotient limb stored and the new remainder. -/
def divStep (v : List Nat) (remainder : List Nat) (u : Nat) : Except Exn (Nat × List Nat) :=
  let n := v.length
  let v_n__1 := v.getLastD 0
  let v_n__2 := v.reverse.getD 1 0
  let rem1 := addAssignInt (mulAssign remainder radix) u
  let u_n := get rem1 n
  let u_n__1 := get rem1 (n - 1)
  let u_n__2 := get rem1 (n - 2)
  let t := wadd (wmul u_n RADIX) u_n__1
  let q_approxim := (corrLoop v_n__1 v_n__2 u_n__2 (t / v_n__1) (t % v_n__1)).1
  let sub0 := mulAssignInt v q_approxim
  if lt rem1 (mulAssignInt v q_approxim) then
    let s := subAssign sub0 v
    match s.exn with
    | some e => Except.error e
    | none =>
      let r := subAssign rem1 s.repres
      match r.exn with
      | some e => Except.error e
      | none => Except.ok (wsub q_approxim 1, r.repres)
  else
    let r := subAssign rem1 sub0
    match r.exn with
    | some e => Except.error e
    | none => Except.ok (q_approxim, r.repres)

/-- Loop state of `operator/=(const BigInteger &)`: the remainder, the limbs of `q` written so far
(most-significant first), the distance of `zero_it` from `q.repres.crbegin()` and
`is_find_non_zero`. -/
structure DivState where
  remainder : List Nat
  digits : List Nat
  zero_it : Nat
  is_find_non_zero : Bool

/-- The loop of `operator/=(const BigInteger &)` over the limbs of the dividend read through `i_it`
(most-significant first), one for each limb of `q`. -/
def divLoop (v : List Nat) : List Nat → DivState → Except Exn DivState
  | [], st => Except.ok st
  | u :: us, st =>
    match divStep v st.remainder u with
    | Except.error e => Except.error e
    | Except.ok (d, r) =>
      divLoop v us
        { remainder := r
          digits := st.digits ++ [d]
          zero_it := if d ≠ 0 then st.zero_it else if st.is_find_non_zero then st.zero_it
                     else st.zero_it + 1
          is_find_non_zero := if d ≠ 0 then true else st.is_find_non_zero }

/-- The second half of `operator/=(const BigInteger &)`, from `BigInteger q, remainder, sub;` to
the end: `this1` is the receiver and `v` the divisor after the normalization, `qsize` the size
given to `q.repres`.  The remainder starts as the `v.size() - 1` leading limbs of the receiver; the
loop writes the limbs of `q` from the most-significant one; the leading zero limbs counted by
`zero_it` are cut off. -/
def divDigits (this1 v : List Nat) (qsize : Nat) : Outcome :=
  let rs := this1.reverse
  let st0 : DivState :=
    { remainder := (rs.take (v.length - 1)).reverse
      digits := []
      zero_it := 0
      is_find_non_zero := false }
  match divLoop v ((rs.drop (v.length - 1)).take qsize) st0 with
  | Except.error e => Outcome.thrown e this1
  | Except.ok st =>
    let q := st.digits.reverse
    Outcome.ok (if st.zero_it ≠ 0 then q.take (q.length - st.zero_it) else q)

/-- Source: `BigInteger &BigInteger::operator/=(const BigInteger &obj)` -/
def divAssign (repres obj : List Nat) : Outcome :=
  if obj.isEmpty then Outcome.thrown Exn.overflow_error repres
  else if repres.length < obj.length ∨
      (repres.length = obj.length ∧ repres.getLastD 0 < obj.getLastD 0) then Outcome.ok []
  else
    match obj with
    | [o] => divAssignInt repres o
    | _ =>
      let norm := RADIX / (wadd (obj.getLastD 0) 1)
      let scale := decide (obj.getLastD 0 < HALF_OF_RADIX)
      let this1 := if scale then mulAssignInt repres norm else repres
      let v := if scale then mulAssignInt obj norm else obj
      divDigits this1 v (this1.length - obj.length + 1)

/-- Source: `BigInteger BigInteger::operator/(const BigInteger &obj) const` -/
def div (repres obj : List Nat) : Except Exn (List Nat) := (divAssign repres obj).toExcept

/-! ## Comparison, construction and text, exponentiation -/

/-- Source: `bool BigInteger::operator<=(const BigInteger &obj) const noexcept` -/
def le (repres obj : List Nat) : Bool :=
  if repres.length > obj.length then false
  else if repres.length < obj.length then true
  else
    match mismatch repres.reverse obj.reverse with
    | some (x, y) => decide (x < y)
    | none => true

/-- Source: `bool BigInteger::operator>=(const BigInteger &obj) const noexcept` -/
def ge (repres obj : List Nat) : Bool :=
  if repres.length > obj.length then true
  else if repres.length < obj.length then false
  else
    match mismatch repres.reverse obj.reverse with
    | some (x, y) => decide (x > y)
    | none => true

/-- Source: `bool BigInteger::operator>(const BigInteger &obj) const noexcept` -/
def gt (repres obj : List Nat) : Bool :=
  if repres.length > obj.length then true
  else if repres.length < obj.length then false
  else
    match mismatch repres.reverse obj.reverse with
    | some (x, y) => decide (x > y)
    | none => false

/-- The converting constructor `BigInteger::BigInteger(const T &obj)` on a native integer `obj`
(taken when the argument is a const lvalue): `if (obj < 0) throw std::range_error(...)`, then the
loop `while (temp) { push_back(temp % RADIX); temp /= RADIX; }`, which on a non-negative value
runs at most once per unit of the value. -/
def ofConstRef (obj : Int) : Except Exn (List Nat) :=
  if obj < 0 then Except.error Exn.range_error
  else Except.ok (ofNative obj.toNat obj.toNat)

/-- Conversion of an `unsigned long long` to a 32-bit `int` (modular). -/
def toInt32 (u : Nat) : Int :=
  if u % 4294967296 < 2147483648 then (u % 4294967296 : Nat) else (u % 4294967296 : Nat) - 4294967296

/-- The loop of the forwarding constructor `BigInteger::BigInteger(T &&obj)` with `T = int`
(32 bits): in `temp % RADIX` and `temp /= RADIX` the `int` is converted to `unsigned long long`
(modulo `2^64`), and the quotient is converted back to `int`. -/
def forwardLoopInt : Nat → Int → List Nat
  | 0, _ => []
  | fuel + 1, temp =>
    if temp = 0 then []
    else
      (Int.toNat (temp % 18446744073709551616) % RADIX) ::
        forwardLoopInt fuel (toInt32 (Int.toNat (temp % 18446744073709551616) / RADIX))

/-- The converting constructor `BigInteger::BigInteger(T &&obj)` on an `int` (taken when the
argument is an rvalue or a non-const lvalue, as in `BigInteger(-5)`): there is no test of the
sign.  From a negative `int` the loop ends after four limbs at most, from a non-negative one after
two. -/
def ofForwardInt (obj : Int) : Except Exn (List Nat) :=
  Except.ok (forwardLoopInt 4 obj)

/-- The converting constructors on a value of an unsigned native type (no value is negative, so
the test of the first one never fires): the limbs pushed by the loop. -/
def ofUnsigned (obj : Nat) : Except Exn (List Nat) :=
  Except.ok (ofNative obj obj)

/-- The standard `operator<<(unsigned long long)`: the decimal text of the number. -/
def putNative (x : Nat) : List Char := Nat.toDigits 10 x

/-- Source: `stream << std::setfill('0') << std::setw(BigInteger::DIGITS) << *it;` -/
def putPadded (x : Nat) : List Char :=
  List.replicate (9 - (Nat.toDigits 10 x).length) '0' ++ Nat.toDigits 10 x

/-- The loop of `operator<<` over the limbs after the most-significant one. -/
def renderRest : List Nat → List Char
  | [] => []
  | x :: xs => putPadded x ++ renderRest xs

/-- Source: `std::ostream &operator<<(std::ostream &stream, const BigInteger &obj)`: the
characters written. -/
def render (repres : List Nat) : List Char :=
  match repres.reverse with
  | [] => ['0']
  | top :: rest => putNative top ++ renderRest rest

/-- The loop of `operator>>` over the characters of the token from the last to the first:
`done` are the limbs below `repres.back()`, `cur` is `repres.back()`. -/
def parseLoop : List Char → List Nat → Nat → Nat → List Nat
  | [], done, cur, _ => done ++ [cur]
  | c :: cs, done, cur, digit =>
    if digit ≥ RADIX then
      parseLoop cs (done ++ [cur]) (wadd 0 (wmul (wsub c.toNat 48) 1)) (wmul 1 10)
    else
      parseLoop cs done (wadd cur (wmul (wsub c.toNat 48) digit)) (wmul digit 10)

/-- The loop `while (it != end && !*it) ++it;` over the reverse iterators. -/
def skipZeros : List Nat → List Nat
  | [] => []
  | x :: xs => if x = 0 then skipZeros xs else x :: xs

/-- Source: `std::istream &operator>>(std::istream &stream, BigInteger &obj)` on an object holding
`prev` and the token `buffer`: the limbs `obj` holds afterwards. -/
def parse (prev : List Nat) (buffer : List Char) : List Nat :=
  let resized := prev.take 1 ++ List.replicate (1 - prev.length) 0
  let start := resized.dropLast ++ [0]
  let r := parseLoop buffer.reverse start.dropLast (start.getLastD 0) 1
  (skipZeros r.reverse).reverse

/-- State of the loop of `power_eq`. -/
structure PowState where
  increm : List Nat
  base : List Nat
  residue : List Nat
  deriving DecidableEq

/-- The body of the `do ... while` loop of `power_eq`: the state after it, and the exception if
`--residue` or `residue /= 2u` threw. -/
def powBody (st : PowState) : PowState × Option Exn :=
  if st.residue.getLastD 0 % 2 = 1 then
    ({ increm := mulAssign st.increm st.base, base := st.base,
       residue := (dec st.residue).repres }, (dec st.residue).exn)
  else
    ({ increm := st.increm, base := mulAssign st.base st.base,
       residue := (divAssignInt st.residue 2).repres }, (divAssignInt st.residue 2).exn)

/-- The `do ... while (residue > one)` loop of `power_eq`, run for at most `fuel` iterations:
`none` when the fuel is used up before the loop ends, otherwise the state in which the loop was
left and the exception that left it, if any. -/
def powLoop : Nat → PowState → Option (PowState × Option Exn)
  | 0, _ => none
  | fuel + 1, st =>
    match (powBody st).2 with
    | some e => some ((powBody st).1, some e)
    | none =>
      if gt (powBody st).1.residue (ofNative 1 1) then powLoop fuel (powBody st).1
      else some ((powBody st).1, none)

/-- Source: `BigInteger &power_eq(BigInteger &base, const BigInteger &exp)` with the loop run for
at most `fuel` iterations: `none` when the fuel is used up, otherwise what `base` holds when the
function returns or throws. -/
def power_eq (fuel : Nat) (base exp : List Nat) : Option Outcome :=
  if base.isEmpty then
    if exp.isEmpty then some (Outcome.thrown Exn.range_error base)
    else some (Outcome.ok base)
  else if eq base (ofNative 1 1) then some (Outcome.ok base)
  else if exp.isEmpty then some (Outcome.ok (ofNative 1 1))
  else if eq exp (ofNative 1 1) then some (Outcome.ok base)
  else
    match powLoop fuel { increm := ofNative 1 1, base := base, residue := exp } with
    | none => none
    | some (st, some e) => some (Outcome.thrown e st.base)
    | some (st, none) => some (Outcome.ok (mulAssign st.base st.increm))

/-- Source: `BigInteger power(const BigInteger &base, const BigInteger &exp)` -/
def power (fuel : Nat) (base exp : List Nat) : Option (Except Exn (List Nat)) :=
  match power_eq fuel base exp with
  | none => none
  | some o => some o.toExcept

/-! ## The estimates of the division loop; the multiplications in exact arithmetic -/

/-- The first estimate of the quotient limb in an iteration of the loop of
`operator/=(const BigInteger &)`: `Integer q_approxim((u_n * RADIX + u_n__1) / v_n__1)`, on the
divisor `v` and the window `remainder` (after `remainder *= radix; remainder += *i_it;`). -/
def q_approxim_first (v remainder : List Nat) : Nat :=
  wadd (wmul (get remainder v.length) RADIX) (get remainder (v.length - 1)) / v.getLastD 0

/-- The remainder `r_approxim((u_n * RADIX + u_n__1) % v_n__1)` of the first estimate. -/
def r_approxim_first (v remainder : List Nat) : Nat :=
  wadd (wmul (get remainder v.length) RADIX) (get remainder (v.length - 1)) % v.getLastD 0

/-- The estimate `q_approxim` after the correction loop of the same iteration. -/
def q_approxim_corrected (v remainder : List Nat) : Nat :=
  (corrLoop (v.getLastD 0) (v.reverse.getD 1 0) (get remainder (v.length - 2))
    (q_approxim_first v remainder) (r_approxim_first v remainder)).1

/-- The loop of `operator*=(const Integer &)` in the arithmetic of the natural numbers, with no
reduction modulo `2^64`. -/
def mulIntLoopExact (obj : Nat) : List Nat → Nat → List Nat × Nat
  | [], carry => ([], carry)
  | x :: xs, carry =>
    let t := x * obj + carry
    let r := mulIntLoopExact obj xs (t / RADIX)
    ((t % RADIX) :: r.1, r.2)

/-- The values `limb * obj + carry` that the loop of `operator*=(const Integer &)` holds in
`*i_it` before `carry = *i_it / RADIX; *i_it %= RADIX;`, one for each limb, as natural numbers. -/
def mulIntAcc (obj : Nat) : List Nat → Nat → List Nat
  | [], _ => []
  | x :: xs, carry => (x * obj + carry) :: mulIntAcc obj xs ((x * obj + carry) / RADIX)

/-- The private `operator*=(const Integer &)` in the arithmetic of the natural numbers. -/
def mulAssignIntExact (repres : List Nat) (obj : Nat) : List Nat :=
  if repres.isEmpty then repres
  else if obj = 0 then []
  else
    let r := mulIntLoopExact obj repres 0
    if r.2 ≠ 0 then r.1 ++ [r.2] else r.1

/-- The inner loop of `operator*(const BigInteger &)` and the flush of its carry in the
arithmetic of the natural numbers. -/
def mulInnerExact (bj : Nat) : List Nat → List Nat → Nat → List Nat
  | [], [], _ => []
  | [], r :: rs, carry => if carry ≠ 0 then (r + carry) :: rs else r :: rs
  | _ :: _, [], _ => []
  | ai :: as, r :: rs, carry =>
    let t := r + (bj * ai + carry)
    (t % RADIX) :: mulInnerExact bj as rs (t / RADIX)

/-- The values `result[i + j] + (first[i] * second[j] + carry)` that the inner loop of
`operator*(const BigInteger &)` holds in `*local_res_it` before
`carry = *local_res_it / RADIX; *local_res_it %= RADIX;`, and the value stored by the flush of
the carry, as natural numbers. -/
def mulInnerAcc (bj : Nat) : List Nat → List Nat → Nat → List Nat
  | [], [], _ => []
  | [], r :: _, carry => if carry ≠ 0 then [r + carry] else []
  | _ :: _, [], _ => []
  | ai :: as, r :: rs, carry =>
    (r + (bj * ai + carry)) :: mulInnerAcc bj as rs ((r + (bj * ai + carry)) / RADIX)

/-- The outer loop of `operator*(const BigInteger &)` in the arithmetic of the natural
numbers. -/
def mulOuterExact (repres : List Nat) : List Nat → List Nat → List Nat
  | [], res => res
  | bj :: bs, res =>
    match (if bj = 0 then res else mulInnerExact bj repres res 0) with
    | [] => []
    | r :: rs => r :: mulOuterExact repres bs rs

/-- The values of `mulInnerAcc` over all the rounds of the outer loop. -/
def mulOuterAcc (repres : List Nat) : List Nat → List Nat → List Nat
  | [], _ => []
  | bj :: bs, res =>
    (if bj = 0 then [] else mulInnerAcc bj repres res 0) ++
      match (if bj = 0 then res else mulInnerExact bj repres res 0) with
      | [] => []
      | _ :: rs => mulOuterAcc repres bs rs

/-- The public `operator*(const BigInteger &)` in the arithmetic of the natural numbers. -/
def mulExact (repres obj : List Nat) : List Nat :=
  if repres.isEmpty ∨ obj.isEmpty then []
  else
    match obj with
    | [o] => mulAssignIntExact repres o
    | _ =>
      popBackIfZero (mulOuterExact repres obj (List.replicate (repres.length + obj.length) 0))

/-- The accumulator values of a call of `operator*(const BigInteger &)`. -/
def mulAcc (repres obj : List Nat) : List Nat :=
  if repres.isEmpty ∨ obj.isEmpty then []
  else
    match obj with
    | [o] => if o = 0 then [] else mulIntAcc o repres 0
    | _ => mulOuterAcc repres obj (List.replicate (repres.length + obj.length) 0)

/-! ## Notions used by the proofs -/

/-- Every limb is below `RADIX`. -/
def bounded (l : List Nat) : Prop := ∀ x ∈ l, x < RADIX

/-- The limb sequence without its most-significant zero limbs. -/
def stripZ : List Nat → List Nat
  | [] => []
  | x :: xs => if stripZ xs = [] ∧ x = 0 then [] else x :: stripZ xs

/-- What `repres.resize(all_zero - repres.begin())` under `if (all_zero != end)` leaves. -/
def finish (l : List Nat) (all_zero : Option Nat) : List Nat :=
  match all_zero with
  | some k => l.take k
  | none => l

/-- The meaning of `all_zero` after the limbs `pre` have been written: it marks where the
trailing zero limbs of `pre` start. -/
def azInv (pre : List Nat) (all_zero : Option Nat) : Prop :=
  match all_zero with
  | some k => k ≤ pre.length ∧ pre.take k = stripZ pre
  | none => stripZ pre = pre

/-- The meaning of `zero_it` and `is_find_non_zero` once the limbs `ds` of `q` (most-significant
first) have been written: `zero_it` counts the leading zero limbs. -/
def zeroInv (ds : List Nat) (zero_it : Nat) (found : Bool) : Prop :=
  ∃ rest, ds = List.replicate zero_it 0 ++ rest ∧
    (if found then rest ≠ [] ∧ rest.head? ≠ some 0 else rest = [])

/-- The decimal digits of `n`, least-significant first, produced with at most `fuel` digits. -/
def decRev : Nat → Nat → List Char
  | 0, _ => []
  | fuel + 1, n => Nat.digitChar (n % 10) :: (if n / 10 = 0 then [] else decRev fuel (n / 10))

/-- The last `k` decimal digits of `m`, most-significant first, zeros included. -/
def padDigits : Nat → Nat → List Char
  | 0, _ => []
  | k + 1, m => padDigits k (m / 10) ++ [Nat.digitChar (m % 10)]

/-- The number a string of decimal digits denotes, read from its last character. -/
def denoteLE : List Char → Nat
  | [] => 0
  | c :: cs => (c.toNat - 48) + 10 * denoteLE cs

/-- The number a string of decimal digits denotes in base 10. -/
def denote (s : List Char) : Nat := s.foldl (fun acc c => acc * 10 + (c.toNat - 48)) 0

/-- The characters `'0'` to `'9'`. -/
def isDigit (c : Char) : Prop := 48 ≤ c.toNat ∧ c.toNat ≤ 57

instance (c : Char) : Decidable (isDigit c) := by
  unfold isDigit; infer_instance

/-- What is claimed of an accumulator value: it is at most `RADIX * RADIX + RADIX`, fits in 64
bits, and leaves a carry below `RADIX`. -/
def accOk (t : Nat) : Prop := t ≤ RADIX * RADIX + RADIX ∧ t < WORD ∧ t / RADIX < RADIX

instance (l : List Nat) : Decidable (bounded l) := by
  unfold bounded; infer_instance

/-! # Theorems -/

/-! ## Machine words -/

theorem wadd_eq {a b : Nat} (h : a + b < WORD) : wadd a b = a + b := by
  unfold wadd; exact Nat.mod_eq_of_lt h

theorem wmul_eq {a b : Nat} (h : a * b < WORD) : wmul a b = a * b := by
  unfold wmul; exact Nat.mod_eq_of_lt h

theorem wsub_eq {a b : Nat} (h : b ≤ a) (ha : a < WORD) : wsub a b = a - b := by
  unfold wsub
  have : a + WORD - b = (a - b) + WORD := by omega
  rw [this, Nat.add_mod_right]
  exact Nat.mod_eq_of_lt (by omega)

theorem wsub_wrap {a b : Nat} (h : a < b) (hb : b ≤ WORD) : wsub a b = a + WORD - b := by
  unfold wsub
  exact Nat.mod_eq_of_lt (by omega)

theorem RADIX_pos : 0 < RADIX := by unfold RADIX; omega

theorem RADIX_sq_lt_WORD : RADIX * RADIX < WORD := by unfold RADIX WORD; omega

theorem mod_RADIX_of_ge {x : Nat} (h1 : RADIX ≤ x) (h2 : x < 2 * RADIX) :
    x % RADIX = x - RADIX := by
  unfold RADIX at *; omega

/-! ## Values of limb sequences -/

theorem bounded_nil : bounded [] := by intro x hx; cases hx

theorem bounded_cons {x : Nat} {l : List Nat} : bounded (x :: l) ↔ x < RADIX ∧ bounded l := by
  unfold bounded; simp

theorem bounded_append {a b : List Nat} : bounded (a ++ b) ↔ bounded a ∧ bounded b := by
  unfold bounded
  constructor
  · intro h
    exact ⟨fun x hx => h x (List.mem_append.2 (Or.inl hx)),
      fun x hx => h x (List.mem_append.2 (Or.inr hx))⟩
  · rintro ⟨h1, h2⟩ x hx
    rcases List.mem_append.1 hx with h | h
    · exact h1 x h
    · exact h2 x h

theorem canonical_bounded {l : List Nat} (h : canonical l) : bounded l := h.1

@[simp] theorem value_nil : value [] = 0 := rfl

@[simp] theorem value_cons (x : Nat) (l : List Nat) : value (x :: l) = x + RADIX * value l := rfl

theorem value_append (a b : List Nat) :
    value (a ++ b) = value a + RADIX ^ a.length * value b := by
  induction a with
  | nil => simp
  | cons x xs ih =>
    simp only [List.cons_append, value_cons, ih, List.length_cons, pow_succ]
    ring

theorem value_lt_pow {l : List Nat} (h : bounded l) : value l < RADIX ^ l.length := by
  induction l with
  | nil => simp
  | cons x xs ih =>
    rw [bounded_cons] at h
    have h2 := ih h.2
    simp only [value_cons, List.length_cons, pow_succ]
    have : RADIX * value xs + RADIX ≤ RADIX * RADIX ^ xs.length := by
      have : value xs + 1 ≤ RADIX ^ xs.length := h2
      calc RADIX * value xs + RADIX = RADIX * (value xs + 1) := by ring
        _ ≤ RADIX * RADIX ^ xs.length := Nat.mul_le_mul_left _ this
    have h1 := h.1
    rw [Nat.mul_comm (RADIX ^ xs.length) RADIX]
    omega

theorem getLast?_cons_cons (x y : Nat) (l : List Nat) :
    (x :: y :: l).getLast? = (y :: l).getLast? := by
  simp [List.getLast?_cons_cons]

theorem value_ge_pow {l : List Nat} (hne : l ≠ []) (hl : l.getLast? ≠ some 0) :
    RADIX ^ (l.length - 1) ≤ value l := by
  induction l with
  | nil => exact absurd rfl hne
  | cons x xs ih =>
    cases xs with
    | nil =>
      simp at hl
      simp
      omega
    | cons y ys =>
      rw [getLast?_cons_cons] at hl
      have h := ih (by simp) hl
      simp only [List.length_cons, Nat.add_sub_cancel] at h ⊢
      rw [value_cons, pow_succ, Nat.mul_comm]
      have : RADIX * RADIX ^ ys.length ≤ RADIX * value (y :: ys) := Nat.mul_le_mul_left _ h
      omega

theorem canonical_nil : canonical [] := by
  unfold canonical; simp

theorem canonical_of_value_ge {l : List Nat} (hb : bounded l)
    (h : l ≠ [] → RADIX ^ (l.length - 1) ≤ value l) : canonical l := by
  refine ⟨hb, ?_⟩
  intro hl
  have hne : l ≠ [] := by
    intro h0; rw [h0] at hl; simp at hl
  obtain ⟨m, hm⟩ : ∃ m, l = m ++ [0] := by
    refine ⟨l.dropLast, ?_⟩
    have := List.dropLast_append_getLast? 0 (by simpa using hl)
    exact this.symm
  have hge := h hne
  rw [hm] at hge hb
  rw [value_append] at hge
  simp at hge
  have := value_lt_pow (bounded_append.1 hb).1
  omega

theorem value_eq_zero_of_canonical {l : List Nat} (h : canonical l) (hv : value l = 0) : l = [] := by
  by_contra hne
  have := value_ge_pow hne h.2
  have hp : 0 < RADIX ^ (l.length - 1) := Nat.pos_pow_of_pos _ RADIX_pos
  omega

theorem canonical_tail {x : Nat} {l : List Nat} (h : canonical (x :: l)) : canonical l := by
  refine ⟨(bounded_cons.1 h.1).2, ?_⟩
  cases l with
  | nil => simp
  | cons y ys =>
    have := h.2
    rwa [getLast?_cons_cons] at this

/-- Canonical limb sequences are determined by their value. -/
theorem canonical_ext : ∀ {a b : List Nat}, canonical a → canonical b → value a = value b → a = b
  | [], b, _, hb, h => (value_eq_zero_of_canonical hb (by simpa using h.symm)).symm
  | a, [], ha, _, h => value_eq_zero_of_canonical ha (by simpa using h)
  | x :: xs, y :: ys, ha, hb, h => by
    have hx := (bounded_cons.1 ha.1).1
    have hy := (bounded_cons.1 hb.1).1
    simp only [value_cons] at h
    have h1 : x = y := by
      have e1 : (x + RADIX * value xs) % RADIX = x := by
        rw [Nat.add_mul_mod_self_left]; exact Nat.mod_eq_of_lt hx
      have e2 : (y + RADIX * value ys) % RADIX = y := by
        rw [Nat.add_mul_mod_self_left]; exact Nat.mod_eq_of_lt hy
      rw [h] at e1
      omega
    have h2 : value xs = value ys := by
      subst h1
      have : RADIX * value xs = RADIX * value ys := by omega
      exact Nat.eq_of_mul_eq_mul_left RADIX_pos this
    rw [h1, canonical_ext (canonical_tail ha) (canonical_tail hb) h2]

theorem length_le_of_value_lt {a b : List Nat} (ha : canonical a) (hb : bounded b)
    (h : value a ≤ value b) : a.length ≤ b.length := by
  by_contra hlt
  have hne : a ≠ [] := by intro h0; rw [h0] at hlt; simp at hlt
  have h1 := value_ge_pow hne ha.2
  have h2 := value_lt_pow hb
  have : RADIX ^ b.length ≤ RADIX ^ (a.length - 1) :=
    Nat.pow_le_pow_right RADIX_pos (by omega)
  omega

/-! ## `operator+=(const Integer &)` -/

theorem addIntLoop_spec : ∀ (xs : List Nat) (c : Nat), c ≤ 1 → bounded xs →
    bounded (addIntLoop xs c).1 ∧ (addIntLoop xs c).1.length = xs.length ∧
    (addIntLoop xs c).2 ≤ 1 ∧
    value (addIntLoop xs c).1 + RADIX ^ xs.length * (addIntLoop xs c).2 = value xs + c
  | [], c, hc, _ => by simp [addIntLoop, bounded_nil, hc]
  | x :: xs, c, hc, hb => by
    have hx := (bounded_cons.1 hb).1
    have hxs := (bounded_cons.1 hb).2
    have hR : RADIX = 1000000000 := rfl
    have hW : WORD = 18446744073709551616 := rfl
    have hy : wadd x c = x + c := wadd_eq (by omega)
    obtain ⟨ih1, ih2, ih3, ih4⟩ := addIntLoop_spec xs 1 (le_refl 1) hxs
    unfold addIntLoop
    simp only [hy]
    by_cases hge : x + c ≥ RADIX
    · have hmod : (x + c) % RADIX = 0 := by
        have : x + c = RADIX := by omega
        rw [this]; exact Nat.mod_self _
      simp only [hge, if_true, hmod]
      refine ⟨bounded_cons.2 ⟨RADIX_pos, ih1⟩, by simp [ih2], ih3, ?_⟩
      simp only [value_cons, List.length_cons, pow_succ]
      have : x + c = RADIX := by omega
      have e : RADIX * value (addIntLoop xs 1).1 + RADIX ^ xs.length * RADIX * (addIntLoop xs 1).2
          = RADIX * (value (addIntLoop xs 1).1 + RADIX ^ xs.length * (addIntLoop xs 1).2) := by ring
      rw [Nat.zero_add, e, ih4]
      have : x + c = RADIX := by omega
      calc RADIX * (value xs + 1) = RADIX * value xs + RADIX := by ring
        _ = x + RADIX * value xs + c := by omega
    · simp only [hge, if_false]
      refine ⟨bounded_cons.2 ⟨by omega, hxs⟩, by simp, by omega, ?_⟩
      simp only [value_cons, Nat.mul_zero, Nat.add_zero]
      omega

/-- The loop of `operator+=(const Integer &)` started on a first limb that may have left the limb
range. -/
theorem addIntLoop_head (x : Nat) (xs : List Nat) (hx : x < 2 * RADIX) (hxs : bounded xs) :
    bounded (addIntLoop (x :: xs) 0).1 ∧ (addIntLoop (x :: xs) 0).1.length = xs.length + 1 ∧
    (addIntLoop (x :: xs) 0).2 ≤ 1 ∧
    value (addIntLoop (x :: xs) 0).1 + RADIX ^ (xs.length + 1) * (addIntLoop (x :: xs) 0).2
      = x + RADIX * value xs := by
  have hR : RADIX = 1000000000 := rfl
  have hW : WORD = 18446744073709551616 := rfl
  have hy : wadd x 0 = x := wadd_eq (by omega)
  obtain ⟨ih1, ih2, ih3, ih4⟩ := addIntLoop_spec xs 1 (le_refl 1) hxs
  unfold addIntLoop
  simp only [hy]
  by_cases hge : x ≥ RADIX
  · simp only [hge, if_true]
    refine ⟨bounded_cons.2 ⟨Nat.mod_lt _ RADIX_pos, ih1⟩, by simp [ih2], ih3, ?_⟩
    simp only [value_cons, pow_succ]
    have e : RADIX * value (addIntLoop xs 1).1 + RADIX ^ xs.length * RADIX * (addIntLoop xs 1).2
        = RADIX * (value (addIntLoop xs 1).1 + RADIX ^ xs.length * (addIntLoop xs 1).2) := by ring
    rw [Nat.add_assoc, e, ih4]
    have : x % RADIX = x - RADIX := mod_RADIX_of_ge hge hx
    calc x % RADIX + RADIX * (value xs + 1) = x % RADIX + RADIX + RADIX * value xs := by ring
      _ = x + RADIX * value xs := by omega
  · simp only [hge, if_false]
    refine ⟨bounded_cons.2 ⟨by omega, hxs⟩, by simp, by omega, ?_⟩
    simp only [value_cons, Nat.mul_zero, Nat.add_zero]

theorem getLast?_append_singleton (l : List Nat) (x : Nat) : (l ++ [x]).getLast? = some x := by
  simp

theorem canonical_append_one {l : List Nat} (h : bounded l) : canonical (l ++ [1]) := by
  refine ⟨bounded_append.2 ⟨h, ?_⟩, ?_⟩
  · intro x hx; simp at hx; rw [hx]; unfold RADIX; omega
  · rw [getLast?_append_singleton]; simp

theorem addAssignInt_spec (a : List Nat) (obj : Nat) (ha : bounded a) (ho : obj < RADIX) :
    bounded (addAssignInt a obj) ∧ value (addAssignInt a obj) = value a + obj ∧
    (canonical a → canonical (addAssignInt a obj)) := by
  have hR : RADIX = 1000000000 := rfl
  have hW : WORD = 18446744073709551616 := rfl
  unfold addAssignInt
  by_cases h0 : obj = 0
  · simp [h0, ha]
  · simp only [h0, if_false]
    cases a with
    | nil =>
      have hy : wadd obj 0 = obj := wadd_eq (by omega)
      have hlt : ¬ obj ≥ RADIX := by omega
      simp only [addIntLoop, hy, hlt, if_false]
      refine ⟨?_, by simp, ?_⟩
      · simpa [bounded] using ho
      · intro _
        refine ⟨by simpa [bounded] using ho, by simpa using h0⟩
    | cons x xs =>
      have hx := (bounded_cons.1 ha).1
      have hxs := (bounded_cons.1 ha).2
      have hw : wadd x obj = x + obj := wadd_eq (by omega)
      simp only [hw]
      obtain ⟨s1, s2, s3, s4⟩ := addIntLoop_head (x + obj) xs (by omega) hxs
      by_cases hc : (addIntLoop ((x + obj) :: xs) 0).2 = 0
      · simp only [hc, ne_eq, not_true_eq_false, if_false]
        rw [hc] at s4
        refine ⟨s1, ?_, ?_⟩
        · simp only [value_cons]; omega
        · intro hcan
          apply canonical_of_value_ge s1
          intro _
          rw [s2]
          have := value_ge_pow (by simp) hcan.2
          simp only [List.length_cons, value_cons] at this
          simp only [Nat.add_sub_cancel] at this ⊢
          omega
      · have hc1 : (addIntLoop ((x + obj) :: xs) 0).2 = 1 := by omega
        simp only [hc, ne_eq, not_false_eq_true, if_true]
        rw [hc1] at s4
        refine ⟨bounded_append.2 ⟨s1, by intro y hy; simp at hy; omega⟩, ?_, ?_⟩
        · rw [value_append, s2]; simp only [value_cons, value_nil]; omega
        · intro _; exact canonical_append_one s1

/-! ## `operator+=(const BigInteger &)` -/

theorem addLoop1_spec : ∀ (xs os : List Nat) (c : Nat), c ≤ 1 → bounded xs → bounded os →
    bounded (addLoop1 xs os c).1 ∧ (addLoop1 xs os c).1.length = xs.length ∧
    bounded (addLoop1 xs os c).2.1 ∧ (addLoop1 xs os c).2.1.length = os.length - xs.length ∧
    (addLoop1 xs os c).2.2 ≤ 1 ∧
    value (addLoop1 xs os c).1 +
        RADIX ^ xs.length * (value (addLoop1 xs os c).2.1 + (addLoop1 xs os c).2.2)
      = value xs + value os + c
  | [], os, c, hc, _, ho => by
    simp [addLoop1, bounded_nil, hc, ho]
  | x :: xs, o :: os, c, hc, hb, ho => by
    have hx := (bounded_cons.1 hb).1
    have hxs := (bounded_cons.1 hb).2
    have hoo := (bounded_cons.1 ho).1
    have hos := (bounded_cons.1 ho).2
    have hR : RADIX = 1000000000 := rfl
    have hW : WORD = 18446744073709551616 := rfl
    have h1 : wadd o c = o + c := wadd_eq (by omega)
    have hy : wadd x (wadd o c) = x + (o + c) := by rw [h1]; exact wadd_eq (by omega)
    unfold addLoop1
    simp only [hy]
    by_cases hge : x + (o + c) ≥ RADIX
    · obtain ⟨i1, i2, i3, i4, i5, i6⟩ := addLoop1_spec xs os 1 (le_refl 1) hxs hos
      simp only [hge, if_true]
      refine ⟨bounded_cons.2 ⟨Nat.mod_lt _ RADIX_pos, i1⟩, by simp [i2], i3, by simp [i4], i5, ?_⟩
      simp only [value_cons, List.length_cons, pow_succ]
      have hm : (x + (o + c)) % RADIX = x + (o + c) - RADIX := mod_RADIX_of_ge hge (by omega)
      have e : RADIX ^ xs.length * RADIX * (value (addLoop1 xs os 1).2.1 + (addLoop1 xs os 1).2.2)
          = RADIX * (RADIX ^ xs.length * (value (addLoop1 xs os 1).2.1 + (addLoop1 xs os 1).2.2)) := by
        ring
      rw [e, hm]
      have e2 : RADIX * (value (addLoop1 xs os 1).1 +
          RADIX ^ xs.length * (value (addLoop1 xs os 1).2.1 + (addLoop1 xs os 1).2.2))
          = RADIX * (value xs + value os + 1) := by rw [i6]
      rw [Nat.mul_add] at e2
      have e3 : RADIX * (value xs + value os + 1) = RADIX * value xs + RADIX * value os + RADIX := by
        ring
      omega
    · obtain ⟨i1, i2, i3, i4, i5, i6⟩ := addLoop1_spec xs os 0 (Nat.zero_le 1) hxs hos
      simp only [hge, if_false]
      refine ⟨bounded_cons.2 ⟨by omega, i1⟩, by simp [i2], i3, by simp [i4], i5, ?_⟩
      simp only [value_cons, List.length_cons, pow_succ]
      have e : RADIX ^ xs.length * RADIX * (value (addLoop1 xs os 0).2.1 + (addLoop1 xs os 0).2.2)
          = RADIX * (RADIX ^ xs.length * (value (addLoop1 xs os 0).2.1 + (addLoop1 xs os 0).2.2)) := by
        ring
      rw [e]
      have e2 : RADIX * (value (addLoop1 xs os 0).1 +
          RADIX ^ xs.length * (value (addLoop1 xs os 0).2.1 + (addLoop1 xs os 0).2.2))
          = RADIX * (value xs + value os + 0) := by rw [i6]
      rw [Nat.mul_add] at e2
      have e3 : RADIX * (value xs + value os + 0) = RADIX * value xs + RADIX * value os := by
        ring
      omega
  | x :: xs, [], c, hc, hb, ho => by
    have hx := (bounded_cons.1 hb).1
    have hxs := (bounded_cons.1 hb).2
    have hR : RADIX = 1000000000 := rfl
    have hW : WORD = 18446744073709551616 := rfl
    have hy : wadd x c = x + c := wadd_eq (by omega)
    unfold addLoop1
    by_cases hc0 : c = 0
    · subst hc0
      simp only [ne_eq, not_true_eq_false, if_false]
      refine ⟨hb, by simp, bounded_nil, by simp, by omega, ?_⟩
      simp
    · have hc1 : c = 1 := by omega
      subst hc1
      simp only [ne_eq, hc0, not_false_eq_true, if_true, hy]
      by_cases hge : x + 1 ≥ RADIX
      · obtain ⟨i1, i2, i3, i4, i5, i6⟩ := addLoop1_spec xs [] 1 (le_refl 1) hxs bounded_nil
        simp only [hge, if_true]
        refine ⟨bounded_cons.2 ⟨Nat.mod_lt _ RADIX_pos, i1⟩, by simp [i2], i3, by simp [i4], i5, ?_⟩
        simp only [value_cons, List.length_cons, pow_succ, value_nil] at i6 ⊢
        have hm : (x + 1) % RADIX = x + 1 - RADIX := mod_RADIX_of_ge hge (by omega)
        have e : RADIX ^ xs.length * RADIX *
            (value (addLoop1 xs [] 1).2.1 + (addLoop1 xs [] 1).2.2)
            = RADIX * (RADIX ^ xs.length *
              (value (addLoop1 xs [] 1).2.1 + (addLoop1 xs [] 1).2.2)) := by
          ring
        rw [e, hm]
        have e2 : RADIX * (value (addLoop1 xs [] 1).1 +
            RADIX ^ xs.length * (value (addLoop1 xs [] 1).2.1 + (addLoop1 xs [] 1).2.2))
            = RADIX * (value xs + 0 + 1) := by rw [i6]
        rw [Nat.mul_add] at e2
        have e3 : RADIX * (value xs + 0 + 1) = RADIX * value xs + RADIX := by ring
        omega
      · obtain ⟨i1, i2, i3, i4, i5, i6⟩ := addLoop1_spec xs [] 0 (Nat.zero_le 1) hxs bounded_nil
        simp only [hge, if_false]
        refine ⟨bounded_cons.2 ⟨by omega, i1⟩, by simp [i2], i3, by simp [i4], i5, ?_⟩
        simp only [value_cons, List.length_cons, pow_succ, value_nil] at i6 ⊢
        have e : RADIX ^ xs.length * RADIX *
            (value (addLoop1 xs [] 0).2.1 + (addLoop1 xs [] 0).2.2)
            = RADIX * (RADIX ^ xs.length *
              (value (addLoop1 xs [] 0).2.1 + (addLoop1 xs [] 0).2.2)) := by
          ring
        rw [e]
        have e2 : RADIX * (value (addLoop1 xs [] 0).1 +
            RADIX ^ xs.length * (value (addLoop1 xs [] 0).2.1 + (addLoop1 xs [] 0).2.2))
            = RADIX * (value xs + 0 + 0) := by rw [i6]
        rw [Nat.mul_add] at e2
        have e3 : RADIX * (value xs + 0 + 0) = RADIX * value xs := by ring
        omega

theorem addLoop2_spec : ∀ (os : List Nat) (c : Nat), c ≤ 1 → bounded os →
    bounded (addLoop2 os c).1 ∧ (addLoop2 os c).1.length = os.length ∧ (addLoop2 os c).2 ≤ 1 ∧
    value (addLoop2 os c).1 + RADIX ^ os.length * (addLoop2 os c).2 = value os + c
  | [], c, hc, _ => by simp [addLoop2, bounded_nil, hc]
  | o :: os, c, hc, ho => by
    have hoo := (bounded_cons.1 ho).1
    have hos := (bounded_cons.1 ho).2
    have hR : RADIX = 1000000000 := rfl
    have hW : WORD = 18446744073709551616 := rfl
    have hy : wadd o c = o + c := wadd_eq (by omega)
    unfold addLoop2
    simp only [hy]
    by_cases hge : o + c ≥ RADIX
    · obtain ⟨i1, i2, i3, i4⟩ := addLoop2_spec os 1 (le_refl 1) hos
      simp only [hge, if_true]
      refine ⟨bounded_cons.2 ⟨Nat.mod_lt _ RADIX_pos, i1⟩, by simp [i2], i3, ?_⟩
      simp only [value_cons, List.length_cons, pow_succ]
      have hm : (o + c) % RADIX = o + c - RADIX := mod_RADIX_of_ge hge (by omega)
      have e : RADIX ^ os.length * RADIX * (addLoop2 os 1).2
          = RADIX * (RADIX ^ os.length * (addLoop2 os 1).2) := by ring
      rw [e, hm]
      have e2 : RADIX * (value (addLoop2 os 1).1 + RADIX ^ os.length * (addLoop2 os 1).2)
          = RADIX * (value os + 1) := by rw [i4]
      rw [Nat.mul_add] at e2
      have e3 : RADIX * (value os + 1) = RADIX * value os + RADIX := by ring
      omega
    · obtain ⟨i1, i2, i3, i4⟩ := addLoop2_spec os 0 (Nat.zero_le 1) hos
      simp only [hge, if_false]
      refine ⟨bounded_cons.2 ⟨by omega, i1⟩, by simp [i2], i3, ?_⟩
      simp only [value_cons, List.length_cons, pow_succ]
      have e : RADIX ^ os.length * RADIX * (addLoop2 os 0).2
          = RADIX * (RADIX ^ os.length * (addLoop2 os 0).2) := by ring
      rw [e]
      have e2 : RADIX * (value (addLoop2 os 0).1 + RADIX ^ os.length * (addLoop2 os 0).2)
          = RADIX * (value os + 0) := by rw [i4]
      rw [Nat.mul_add, Nat.add_zero] at e2
      omega

theorem bounded_of_canonical_singleton {o : Nat} (h : canonical [o]) : o < RADIX ∧ o ≠ 0 := by
  refine ⟨h.1 o (by simp), ?_⟩
  intro h0
  apply h.2
  simp [h0]

theorem pow_le_value_add {a b : List Nat} (ha : canonical a) (hb : canonical b)
    (hne : a ≠ [] ∨ b ≠ []) : RADIX ^ (max a.length b.length - 1) ≤ value a + value b := by
  rcases Nat.le_total a.length b.length with h | h
  · have hbne : b ≠ [] := by
      rcases hne with h1 | h1
      · intro h0; rw [h0] at h; simp at h; exact h1 h
      · exact h1
    rw [Nat.max_eq_right h]
    have := value_ge_pow hbne hb.2
    omega
  · have hane : a ≠ [] := by
      rcases hne with h1 | h1
      · exact h1
      · intro h0; rw [h0] at h; simp at h; exact h1 h
    rw [Nat.max_eq_left h]
    have := value_ge_pow hane ha.2
    omega

/-- Multi-limb addition on bounded limbs: the value is the sum, and canonical operands give a
canonical result. -/
theorem addAssign_spec (a b : List Nat) (ha : bounded a) (hb : bounded b) :
    bounded (addAssign a b) ∧ value (addAssign a b) = value a + value b ∧
    (canonical a → canonical b → canonical (addAssign a b)) := by
  cases b with
  | nil => exact ⟨by simpa [addAssign] using ha, by simp [addAssign], fun h _ => by simpa [addAssign] using h⟩
  | cons o os =>
    cases os with
    | nil =>
      have ho := (bounded_cons.1 hb).1
      obtain ⟨s1, s2, s3⟩ := addAssignInt_spec a o ha ho
      simp only [addAssign]
      refine ⟨s1, by simpa using s2, fun h _ => s3 h⟩
    | cons p ps =>
      simp only [addAssign]
      obtain ⟨i1, i2, i3, i4, i5, i6⟩ := addLoop1_spec a (o :: p :: ps) 0 (Nat.zero_le 1) ha hb
      obtain ⟨j1, j2, j3, j4⟩ := addLoop2_spec (addLoop1 a (o :: p :: ps) 0).2.1
        (addLoop1 a (o :: p :: ps) 0).2.2 i5 i3
      have hval : value ((addLoop1 a (o :: p :: ps) 0).1 ++
          (addLoop2 (addLoop1 a (o :: p :: ps) 0).2.1 (addLoop1 a (o :: p :: ps) 0).2.2).1) +
          RADIX ^ (a.length + ((o :: p :: ps).length - a.length)) *
            (addLoop2 (addLoop1 a (o :: p :: ps) 0).2.1 (addLoop1 a (o :: p :: ps) 0).2.2).2
          = value a + value (o :: p :: ps) := by
        rw [value_append, i2, pow_add, ← i4, ← Nat.add_zero (value a + value (o :: p :: ps)), ← i6,
          ← j4]
        ring
      have hlen : ((addLoop1 a (o :: p :: ps) 0).1 ++
          (addLoop2 (addLoop1 a (o :: p :: ps) 0).2.1 (addLoop1 a (o :: p :: ps) 0).2.2).1).length
          = a.length + ((o :: p :: ps).length - a.length) := by
        rw [List.length_append, i2, j2, i4]
      have hbd := bounded_append.2 ⟨i1, j1⟩
      by_cases hc : (addLoop2 (addLoop1 a (o :: p :: ps) 0).2.1
          (addLoop1 a (o :: p :: ps) 0).2.2).2 = 0
      · simp only [hc, ne_eq, not_true_eq_false, if_false]
        rw [hc] at hval
        refine ⟨hbd, by simpa using hval, ?_⟩
        intro hca hcb
        apply canonical_of_value_ge hbd
        intro _
        rw [hlen]
        have h1 := pow_le_value_add hca hcb (Or.inr (by simp))
        have h2 : a.length + ((o :: p :: ps).length - a.length)
            = max a.length (o :: p :: ps).length := by omega
        rw [h2]
        simp only [Nat.mul_zero, Nat.add_zero] at hval
        rw [hval]
        exact h1
      · have hc1 : (addLoop2 (addLoop1 a (o :: p :: ps) 0).2.1
            (addLoop1 a (o :: p :: ps) 0).2.2).2 = 1 := by omega
        simp only [hc, ne_eq, not_false_eq_true, if_true]
        rw [hc1] at hval
        refine ⟨bounded_append.2 ⟨hbd, by intro y hy; simp at hy; rw [hy]; unfold RADIX; omega⟩,
          ?_, fun _ _ => canonical_append_one hbd⟩
        rw [value_append, hlen]
        simpa using hval

/-! ## Borrow arithmetic on machine words -/

/-- A limb minus at most `RADIX`, as the source computes and repairs it: either no borrow, or a
wrapped word that is at least `RADIX` and returns into the limb range after `+= RADIX`. -/
theorem borrow_step {x s : Nat} (hx : x < RADIX) (hs : s ≤ RADIX) :
    (s ≤ x ∧ wsub x s = x - s ∧ wsub x s < RADIX) ∨
    (x < s ∧ wsub x s ≥ RADIX ∧ wadd (wsub x s) RADIX + s = x + RADIX ∧
      wadd (wsub x s) RADIX < RADIX) := by
  have hR : RADIX = 1000000000 := rfl
  have hW : WORD = 18446744073709551616 := rfl
  by_cases h : s ≤ x
  · left
    have := wsub_eq h (by omega : x < WORD)
    exact ⟨h, this, by omega⟩
  · right
    have h1 := wsub_wrap (by omega : x < s) (by omega : s ≤ WORD)
    have h2 : wadd (wsub x s) RADIX = x + RADIX - s := by
      unfold wadd
      rw [h1]
      have : x + WORD - s + RADIX = (x + RADIX - s) + WORD := by omega
      rw [this, Nat.add_mod_right]
      exact Nat.mod_eq_of_lt (by omega)
    exact ⟨by omega, by omega, by omega, by omega⟩

/-! ## Trailing zero limbs -/

theorem value_stripZ : ∀ l : List Nat, value (stripZ l) = value l
  | [] => rfl
  | x :: xs => by
    unfold stripZ
    by_cases h : stripZ xs = [] ∧ x = 0
    · have := value_stripZ xs
      rw [h.1] at this
      simp only [h, and_self, if_true, value_cons, value_nil]
      simp only [value_nil] at this
      rw [← this]
      simp
    · simp only [h, if_false, value_cons, value_stripZ xs]

theorem bounded_stripZ : ∀ {l : List Nat}, bounded l → bounded (stripZ l)
  | [], _ => bounded_nil
  | x :: xs, h => by
    unfold stripZ
    by_cases h1 : stripZ xs = [] ∧ x = 0
    · simp only [h1, and_self, if_true]; exact bounded_nil
    · simp only [h1, if_false]
      exact bounded_cons.2 ⟨(bounded_cons.1 h).1, bounded_stripZ (bounded_cons.1 h).2⟩

theorem getLast?_stripZ : ∀ l : List Nat, (stripZ l).getLast? ≠ some 0
  | [] => by simp [stripZ]
  | x :: xs => by
    unfold stripZ
    by_cases h1 : stripZ xs = [] ∧ x = 0
    · simp only [h1, and_self, if_true]; simp
    · simp only [h1, if_false]
      have ih := getLast?_stripZ xs
      cases hs : stripZ xs with
      | nil =>
        rw [hs] at h1
        simp only [true_and] at h1
        simpa using h1
      | cons y ys =>
        rw [hs] at ih
        rw [getLast?_cons_cons]
        exact ih

theorem canonical_stripZ {l : List Nat} (h : bounded l) : canonical (stripZ l) :=
  ⟨bounded_stripZ h, getLast?_stripZ l⟩

theorem stripZ_eq_self : ∀ {l : List Nat}, l.getLast? ≠ some 0 → stripZ l = l
  | [], _ => rfl
  | [x], h => by
    have : x ≠ 0 := by simpa using h
    simp [stripZ, this]
  | x :: y :: ys, h => by
    rw [getLast?_cons_cons] at h
    have ih := stripZ_eq_self h
    unfold stripZ
    rw [ih]
    simp

theorem stripZ_append_zero : ∀ l : List Nat, stripZ (l ++ [0]) = stripZ l
  | [] => by simp [stripZ]
  | x :: xs => by
    have ih := stripZ_append_zero xs
    simp only [List.cons_append]
    unfold stripZ
    rw [ih]

theorem stripZ_append_of_getLast : ∀ (pre : List Nat) {l : List Nat}, l ≠ [] →
    l.getLast? ≠ some 0 → stripZ (pre ++ l) = pre ++ l := by
  intro pre l hne hl
  apply stripZ_eq_self
  cases l with
  | nil => exact absurd rfl hne
  | cons y ys =>
    rw [List.getLast?_append_of_ne_nil _ (by simp)]
    exact hl

/-- A bounded sequence holding a canonical one's value with at most one limb more is repaired by
`popBackIfZero`. -/
theorem popBackIfZero_spec {l : List Nat} (hb : bounded l)
    (h : 2 ≤ l.length → RADIX ^ (l.length - 2) ≤ value l) :
    canonical (popBackIfZero l) ∧ value (popBackIfZero l) = value l := by
  unfold popBackIfZero
  by_cases hl : l.getLast? = some 0
  · simp only [hl, if_true]
    have hm : l = l.dropLast ++ [0] := (List.dropLast_append_getLast? 0 (by simpa using hl)).symm
    have hbd : bounded l.dropLast := by
      rw [hm] at hb; exact (bounded_append.1 hb).1
    have hv : value l.dropLast = value l := by
      conv_rhs => rw [hm]
      rw [value_append]; simp
    refine ⟨canonical_of_value_ge hbd ?_, hv⟩
    intro hne
    have hlen : l.dropLast.length = l.length - 1 := by simp
    have h2 : 2 ≤ l.length := by
      have : l.dropLast.length ≠ 0 := fun h0 => hne (List.length_eq_zero.1 h0)
      omega
    rw [hv, hlen]
    have := h h2
    have e : l.length - 1 - 1 = l.length - 2 := by omega
    rw [e]; exact this
  · simp only [hl, if_false]
    exact ⟨⟨hb, hl⟩, trivial⟩

/-! ## `operator-=(const Integer &)` -/

theorem subIntLoop_spec : ∀ (xs : List Nat) (c : Nat), c ≤ 1 → bounded xs →
    bounded (subIntLoop xs c).1 ∧ (subIntLoop xs c).1.length = xs.length ∧
    (subIntLoop xs c).2 ≤ 1 ∧
    value (subIntLoop xs c).1 + c = value xs + RADIX ^ xs.length * (subIntLoop xs c).2
  | [], c, hc, _ => by simp [subIntLoop, bounded_nil, hc]
  | x :: xs, c, hc, hb => by
    have hx := (bounded_cons.1 hb).1
    have hxs := (bounded_cons.1 hb).2
    have hR : RADIX = 1000000000 := rfl
    obtain ⟨i1, i2, i3, i4⟩ := subIntLoop_spec xs 1 (le_refl 1) hxs
    simp only [subIntLoop]
    rcases borrow_step hx (by omega : c ≤ RADIX) with ⟨h1, h2, h3⟩ | ⟨h1, h2, h3, h4⟩
    · have hlt : ¬ wsub x c ≥ RADIX := by omega
      simp only [hlt, if_false]
      refine ⟨bounded_cons.2 ⟨h3, hxs⟩, by simp, by omega, ?_⟩
      simp only [value_cons, Nat.mul_zero, Nat.add_zero]
      omega
    · simp only [h2, if_true]
      refine ⟨bounded_cons.2 ⟨h4, i1⟩, by simp [i2], i3, ?_⟩
      simp only [value_cons, List.length_cons, pow_succ]
      have e : RADIX ^ xs.length * RADIX * (subIntLoop xs 1).2
          = RADIX * (RADIX ^ xs.length * (subIntLoop xs 1).2) := by ring
      rw [e]
      have e2 : RADIX * (value (subIntLoop xs 1).1 + 1)
          = RADIX * (value xs + RADIX ^ xs.length * (subIntLoop xs 1).2) := by rw [i4]
      rw [Nat.mul_add, Nat.mul_add, Nat.mul_one] at e2
      omega

/-- The loop of `operator-=(const Integer &)` entered after `repres.front() -= obj`. -/
theorem subIntLoop_head (x obj : Nat) (xs : List Nat) (hx : x < RADIX) (ho : obj < RADIX)
    (hxs : bounded xs) :
    bounded (subIntLoop (wsub x obj :: xs) 0).1 ∧
    (subIntLoop (wsub x obj :: xs) 0).1.length = xs.length + 1 ∧
    (subIntLoop (wsub x obj :: xs) 0).2 ≤ 1 ∧
    value (subIntLoop (wsub x obj :: xs) 0).1 + obj
      = x + RADIX * value xs + RADIX ^ (xs.length + 1) * (subIntLoop (wsub x obj :: xs) 0).2 := by
  have hR : RADIX = 1000000000 := rfl
  have hW : WORD = 18446744073709551616 := rfl
  obtain ⟨i1, i2, i3, i4⟩ := subIntLoop_spec xs 1 (le_refl 1) hxs
  have hw : wsub x obj < WORD := by unfold wsub; exact Nat.mod_lt _ (by omega)
  have h0 : wsub (wsub x obj) 0 = wsub x obj := by
    rw [wsub_eq (Nat.zero_le _) hw, Nat.sub_zero]
  simp only [subIntLoop, h0]
  rcases borrow_step hx (by omega : obj ≤ RADIX) with ⟨h1, h2, h3⟩ | ⟨h1, h2, h3, h4⟩
  · have hlt : ¬ wsub x obj ≥ RADIX := by omega
    simp only [hlt, if_false]
    refine ⟨bounded_cons.2 ⟨h3, hxs⟩, by simp, by omega, ?_⟩
    simp only [value_cons, Nat.mul_zero, Nat.add_zero]
    omega
  · simp only [h2, if_true]
    refine ⟨bounded_cons.2 ⟨h4, i1⟩, by simp [i2], i3, ?_⟩
    simp only [value_cons, pow_succ]
    have e : RADIX ^ xs.length * RADIX * (subIntLoop xs 1).2
        = RADIX * (RADIX ^ xs.length * (subIntLoop xs 1).2) := by ring
    rw [e]
    have e2 : RADIX * (value (subIntLoop xs 1).1 + 1)
        = RADIX * (value xs + RADIX ^ xs.length * (subIntLoop xs 1).2) := by rw [i4]
    rw [Nat.mul_add, Nat.mul_add, Nat.mul_one] at e2
    omega

theorem pow_succ_sub_ge (k : Nat) : RADIX ^ k + RADIX ≤ RADIX ^ (k + 1) + 1 := by
  have h1 : 1 ≤ RADIX ^ k := Nat.one_le_pow _ _ RADIX_pos
  have h2 : RADIX ^ (k + 1) = RADIX ^ k * RADIX := pow_succ _ _
  obtain ⟨a, ha⟩ := Nat.exists_eq_add_of_le h1
  obtain ⟨r, hr⟩ := Nat.exists_eq_add_of_le (show 1 ≤ RADIX from RADIX_pos)
  rw [h2, ha, hr]
  have : (1 + a) * (1 + r) = 1 + a + r + a * r := by ring
  omega

/-- The private single-limb subtraction: throws without touching the receiver exactly when the
receiver is smaller, and is exact and canonical otherwise. -/
theorem subAssignInt_spec (a : List Nat) (obj : Nat) (ha : canonical a) (ho : obj < RADIX) :
    (value a < obj → subAssignInt a obj = Outcome.thrown Exn.range_error a) ∧
    (obj ≤ value a → ∃ r, subAssignInt a obj = Outcome.ok r ∧ canonical r ∧
      value r = value a - obj) := by
  have hR : RADIX = 1000000000 := rfl
  unfold subAssignInt
  by_cases h0 : obj = 0
  · subst h0
    simp only [if_true]
    exact ⟨fun h => absurd h (Nat.not_lt_zero _), fun _ => ⟨a, rfl, ha, rfl⟩⟩
  · simp only [h0, if_false]
    cases a with
    | nil =>
      simp only [value_nil]
      exact ⟨fun _ => trivial, fun h => absurd h (by omega)⟩
    | cons x xs =>
      have hx := (bounded_cons.1 ha.1).1
      have hxs := (bounded_cons.1 ha.1).2
      by_cases hc : xs.length = 0 ∧ x < obj
      · simp only [hc, and_self, if_true]
        have hnil : xs = [] := List.length_eq_zero.1 hc.1
        subst hnil
        simp only [value_cons, value_nil, Nat.mul_zero, Nat.add_zero]
        exact ⟨fun _ => trivial, fun h => absurd h (by omega)⟩
      · simp only [hc, if_false]
        have hge : obj ≤ value (x :: xs) := by
          by_cases hl : xs.length = 0
          · have hnil : xs = [] := List.length_eq_zero.1 hl
            subst hnil
            simp only [value_cons, value_nil, Nat.mul_zero, Nat.add_zero]
            have : ¬ x < obj := fun h => hc ⟨hl, h⟩
            omega
          · have h1 := value_ge_pow (by simp) ha.2
            simp only [List.length_cons, Nat.add_sub_cancel] at h1
            have h2 : RADIX ^ 1 ≤ RADIX ^ xs.length :=
              Nat.pow_le_pow_right RADIX_pos (by omega)
            rw [pow_one] at h2
            omega
        refine ⟨fun h => absurd h (by omega), fun _ => ?_⟩
        obtain ⟨s1, s2, s3, s4⟩ := subIntLoop_head x obj xs hx ho hxs
        have hlt := value_lt_pow s1
        rw [s2] at hlt
        simp only [value_cons] at hge
        have hz : (subIntLoop (wsub x obj :: xs) 0).2 = 0 := by
          by_contra hne
          have h1 : (subIntLoop (wsub x obj :: xs) 0).2 = 1 := by omega
          rw [h1] at s4
          omega
        rw [hz] at s4
        have hval : value (subIntLoop (wsub x obj :: xs) 0).1 = x + RADIX * value xs - obj := by
          omega
        have hp := popBackIfZero_spec s1 (by
          intro h2
          rw [s2, hval]
          have h1 := value_ge_pow (by simp) ha.2
          simp only [List.length_cons, Nat.add_sub_cancel, value_cons] at h1
          rw [s2] at h2
          obtain ⟨k, hk⟩ : ∃ k, xs.length = k + 1 := ⟨xs.length - 1, by omega⟩
          rw [hk] at h1 ⊢
          have h3 := pow_succ_sub_ge k
          have e : k + 1 + 1 - 2 = k := by omega
          rw [e]
          omega)
        exact ⟨_, rfl, hp.1, by rw [hp.2, hval]; rfl⟩

/-! ## `operator-=(const BigInteger &)` -/

theorem subFix_spec {x s : Nat} (hx : x < RADIX) (hs : s ≤ RADIX) (i : Nat) (az : Option Nat) :
    (subFix (wsub x s) i az).1 < RADIX ∧ (subFix (wsub x s) i az).2.1 ≤ 1 ∧
    (subFix (wsub x s) i az).1 + s = x + RADIX * (subFix (wsub x s) i az).2.1 := by
  simp only [subFix]
  rcases borrow_step hx hs with ⟨h1, h2, h3⟩ | ⟨h1, h2, h3, h4⟩
  · have hlt : ¬ wsub x s ≥ RADIX := by omega
    simp only [hlt, if_false]
    omega
  · simp only [h2, if_true]
    omega

theorem subFix_az (y i : Nat) (az : Option Nat) :
    (subFix y i az).2.2 =
      if (subFix y i az).1 ≠ 0 then none else if az = none then some i else az := by
  simp only [subFix]

theorem subLoop_spec : ∀ (xs os : List Nat) (c i : Nat) (az : Option Nat), c ≤ 1 → bounded xs →
    bounded os → os.length ≤ xs.length →
    bounded (subLoop xs os c i az).1 ∧ (subLoop xs os c i az).1.length = xs.length ∧
    (subLoop xs os c i az).2.1 ≤ 1 ∧
    value (subLoop xs os c i az).1 + value os + c
      = value xs + RADIX ^ xs.length * (subLoop xs os c i az).2.1
  | [], os, c, i, az, hc, _, _, hl => by
    have : os = [] := List.length_eq_zero.1 (by simpa using hl)
    subst this
    simp [subLoop, bounded_nil, hc]
  | x :: xs, o :: os, c, i, az, hc, hb, ho, hl => by
    have hx := (bounded_cons.1 hb).1
    have hxs := (bounded_cons.1 hb).2
    have hoo := (bounded_cons.1 ho).1
    have hos := (bounded_cons.1 ho).2
    have hR : RADIX = 1000000000 := rfl
    have hW : WORD = 18446744073709551616 := rfl
    have h1 : wadd o c = o + c := wadd_eq (by omega)
    obtain ⟨f1, f2, f3⟩ := subFix_spec hx (by omega : o + c ≤ RADIX) i az
    obtain ⟨i1, i2, i3, i4⟩ := subLoop_spec xs os (subFix (wsub x (o + c)) i az).2.1 (i + 1)
      (subFix (wsub x (o + c)) i az).2.2 f2 hxs hos (by simpa using hl)
    simp only [subLoop, h1]
    refine ⟨bounded_cons.2 ⟨f1, i1⟩, by simp [i2], i3, ?_⟩
    simp only [value_cons, List.length_cons, pow_succ]
    generalize (subLoop xs os (subFix (wsub x (o + c)) i az).2.1 (i + 1)
      (subFix (wsub x (o + c)) i az).2.2) = r at i4 ⊢
    generalize (subFix (wsub x (o + c)) i az) = s at f3 i4 ⊢
    have e : RADIX ^ xs.length * RADIX * r.2.1 = RADIX * (RADIX ^ xs.length * r.2.1) := by ring
    rw [e]
    have e2 : RADIX * (value r.1 + value os + s.2.1)
        = RADIX * (value xs + RADIX ^ xs.length * r.2.1) := by rw [i4]
    simp only [Nat.mul_add] at e2
    omega
  | x :: xs, [], c, i, az, hc, hb, _, _ => by
    have hx := (bounded_cons.1 hb).1
    have hxs := (bounded_cons.1 hb).2
    have hR : RADIX = 1000000000 := rfl
    by_cases hc0 : c = 0
    · subst hc0
      simp only [subLoop, ne_eq, not_true_eq_false, if_false]
      refine ⟨hb, by simp, by omega, by simp⟩
    · obtain ⟨f1, f2, f3⟩ := subFix_spec hx (by omega : c ≤ RADIX) i az
      obtain ⟨i1, i2, i3, i4⟩ := subLoop_spec xs [] (subFix (wsub x c) i az).2.1 (i + 1)
        (subFix (wsub x c) i az).2.2 f2 hxs bounded_nil (by simp)
      simp only [subLoop, ne_eq, hc0, not_false_eq_true, if_true]
      refine ⟨bounded_cons.2 ⟨f1, i1⟩, by simp [i2], i3, ?_⟩
      simp only [value_cons, List.length_cons, pow_succ, value_nil, Nat.add_zero] at i4 ⊢
      generalize (subLoop xs [] (subFix (wsub x c) i az).2.1 (i + 1)
        (subFix (wsub x c) i az).2.2) = r at i4 ⊢
      generalize (subFix (wsub x c) i az) = s at f3 i4 ⊢
      have e : RADIX ^ xs.length * RADIX * r.2.1 = RADIX * (RADIX ^ xs.length * r.2.1) := by ring
      rw [e]
      have e2 : RADIX * (value r.1 + s.2.1)
          = RADIX * (value xs + RADIX ^ xs.length * r.2.1) := by rw [i4]
      simp only [Nat.mul_add] at e2
      omega

theorem azInv_step (pre : List Nat) (az : Option Nat) (z : Nat) (h : azInv pre az) :
    azInv (pre ++ [z]) (if z ≠ 0 then none else if az = none then some pre.length else az) := by
  by_cases hz : z = 0
  · subst hz
    simp only [ne_eq, not_true_eq_false, if_false]
    cases az with
    | none =>
      simp only [if_true]
      simp only [azInv] at h ⊢
      refine ⟨by simp, ?_⟩
      rw [stripZ_append_zero, h]
      simp
    | some k =>
      simp only [azInv] at h ⊢
      have hne : ¬ (some k = (none : Option Nat)) := by simp
      simp only [hne, if_false]
      refine ⟨by simp; omega, ?_⟩
      rw [stripZ_append_zero, ← h.2]
      exact List.take_append_of_le_length h.1
  · simp only [ne_eq, hz, not_false_eq_true, if_true]
    simp only [azInv]
    exact stripZ_append_of_getLast pre (by simp) (by simpa using hz)

theorem getLast?_tail_ne {x : Nat} {xs : List Nat} (h : (x :: xs).getLast? ≠ some 0) :
    xs.getLast? ≠ some 0 := by
  cases xs with
  | nil => simp
  | cons y ys => rwa [getLast?_cons_cons] at h

theorem subLoop_trim : ∀ (xs os : List Nat) (c i : Nat) (az : Option Nat) (pre : List Nat),
    pre.length = i → azInv pre az → xs.getLast? ≠ some 0 →
    finish (pre ++ (subLoop xs os c i az).1) (subLoop xs os c i az).2.2
      = stripZ (pre ++ (subLoop xs os c i az).1)
  | [], os, c, i, az, pre, _, hinv, _ => by
    simp only [subLoop, List.append_nil]
    cases az with
    | none => simp only [azInv] at hinv; simp only [finish]; exact hinv.symm
    | some k => simp only [azInv] at hinv; simp only [finish]; exact hinv.2
  | x :: xs, o :: os, c, i, az, pre, hlen, hinv, hlast => by
    simp only [subLoop]
    have hstep := azInv_step pre az (subFix (wsub x (wadd o c)) i az).1 hinv
    rw [hlen, ← subFix_az] at hstep
    have ih := subLoop_trim xs os (subFix (wsub x (wadd o c)) i az).2.1 (i + 1)
      (subFix (wsub x (wadd o c)) i az).2.2 (pre ++ [(subFix (wsub x (wadd o c)) i az).1])
      (by simp [hlen]) hstep (getLast?_tail_ne hlast)
    simpa [List.append_assoc] using ih
  | x :: xs, [], c, i, az, pre, hlen, hinv, hlast => by
    by_cases hc0 : c = 0
    · subst hc0
      simp only [subLoop, ne_eq, not_true_eq_false, if_false, finish]
      exact (stripZ_append_of_getLast pre (by simp) hlast).symm
    · simp only [subLoop, ne_eq, hc0, not_false_eq_true, if_true]
      have hstep := azInv_step pre az (subFix (wsub x c) i az).1 hinv
      rw [hlen, ← subFix_az] at hstep
      have ih := subLoop_trim xs [] (subFix (wsub x c) i az).2.1 (i + 1)
        (subFix (wsub x c) i az).2.2 (pre ++ [(subFix (wsub x c) i az).1])
        (by simp [hlen]) hstep (getLast?_tail_ne hlast)
      simpa [List.append_assoc] using ih

/-- The multi-limb path of `operator-=(const BigInteger &)` (the subtrahend has at least two
limbs and the receiver is not shorter): the limb-wise pass, and what each exit leaves. -/
theorem subAssign_multi (a : List Nat) (o p : Nat) (ps : List Nat) (ha : canonical a)
    (hb : bounded (o :: p :: ps)) (hl : (o :: p :: ps).length ≤ a.length) :
    (value a < value (o :: p :: ps) →
      (subAssign a (o :: p :: ps)).exn = some Exn.range_error ∧
      bounded (subAssign a (o :: p :: ps)).repres ∧
      (subAssign a (o :: p :: ps)).repres.length = a.length ∧
      value (subAssign a (o :: p :: ps)).repres + value (o :: p :: ps)
        = value a + RADIX ^ a.length) ∧
    (value (o :: p :: ps) ≤ value a →
      ∃ r, subAssign a (o :: p :: ps) = Outcome.ok r ∧ canonical r ∧
        value r = value a - value (o :: p :: ps)) := by
  obtain ⟨s1, s2, s3, s4⟩ := subLoop_spec a (o :: p :: ps) 0 0 none (Nat.zero_le 1) ha.1 hb hl
  have htrim := subLoop_trim a (o :: p :: ps) 0 0 none [] rfl (by simp [azInv, stripZ]) ha.2
  simp only [List.nil_append] at htrim
  have hlt := value_lt_pow s1
  rw [s2] at hlt
  have hnot : ¬ a.length < (o :: p :: ps).length := by omega
  simp only [subAssign, hnot, if_false]
  by_cases hc : (subLoop a (o :: p :: ps) 0 0 none).2.1 = 0
  · rw [hc] at s4
    simp only [Nat.add_zero, Nat.mul_zero] at s4
    simp only [hc, ne_eq, not_true_eq_false, if_false]
    refine ⟨fun h => absurd h (by omega), fun _ => ?_⟩
    refine ⟨stripZ (subLoop a (o :: p :: ps) 0 0 none).1, ?_, canonical_stripZ s1,
      by rw [value_stripZ]; omega⟩
    rw [← htrim]
    cases (subLoop a (o :: p :: ps) 0 0 none).2.2 <;> simp [finish]
  · have hc1 : (subLoop a (o :: p :: ps) 0 0 none).2.1 = 1 := by omega
    rw [hc1] at s4
    simp only [Nat.add_zero, Nat.mul_one] at s4
    simp only [hc, ne_eq, not_false_eq_true, if_true]
    refine ⟨fun _ => ⟨rfl, s1, s2, s4⟩, fun h => absurd h (by omega)⟩

theorem value_lt_of_length_lt {a b : List Nat} (ha : bounded a) (hb : canonical b)
    (h : a.length < b.length) : value a < value b := by
  have h1 := value_lt_pow ha
  have hne : b ≠ [] := by intro h0; rw [h0] at h; simp at h
  have h2 := value_ge_pow hne hb.2
  have : RADIX ^ a.length ≤ RADIX ^ (b.length - 1) := Nat.pow_le_pow_right RADIX_pos (by omega)
  omega

/-- Subtraction of canonical operands: it throws `range_error` exactly when the receiver is the
smaller one, and otherwise returns the canonical limbs of the difference. -/
theorem subAssign_spec (a b : List Nat) (ha : canonical a) (hb : canonical b) :
    (value a < value b → (subAssign a b).exn = some Exn.range_error) ∧
    (value b ≤ value a → ∃ r, subAssign a b = Outcome.ok r ∧ canonical r ∧
      value r = value a - value b) := by
  cases b with
  | nil =>
    simp only [subAssign, value_nil]
    exact ⟨fun h => absurd h (Nat.not_lt_zero _), fun _ => ⟨a, rfl, ha, rfl⟩⟩
  | cons o os =>
    cases os with
    | nil =>
      obtain ⟨h1, h2⟩ := subAssignInt_spec a o ha (bounded_of_canonical_singleton hb).1
      simp only [subAssign, value_cons, value_nil, Nat.mul_zero, Nat.add_zero]
      exact ⟨fun h => by rw [h1 h]; rfl, h2⟩
    | cons p ps =>
      by_cases hl : a.length < (o :: p :: ps).length
      · have hv := value_lt_of_length_lt ha.1 hb hl
        simp only [subAssign, hl, if_true]
        exact ⟨fun _ => rfl, fun h => absurd h (by omega)⟩
      · obtain ⟨h1, h2⟩ := subAssign_multi a o p ps ha hb.1 (by omega)
        exact ⟨fun h => (h1 h).1, h2⟩

/-- When `operator-=(const BigInteger &)` throws: the receiver is untouched if the subtrahend has
one limb or the receiver has fewer limbs; otherwise the throw follows the limb-wise pass, which
has overwritten the receiver with the limbs of `value a + RADIX ^ a.length - value b`. -/
theorem subAssign_thrown_state (a b : List Nat) (ha : canonical a) (hb : canonical b)
    (h : value a < value b) :
    (subAssign a b).exn = some Exn.range_error ∧
    ((b.length ≤ 1 ∨ a.length < b.length) → (subAssign a b).repres = a) ∧
    ((2 ≤ b.length ∧ b.length ≤ a.length) →
      bounded (subAssign a b).repres ∧ (subAssign a b).repres.length = a.length ∧
      value (subAssign a b).repres + value b = value a + RADIX ^ a.length ∧
      (subAssign a b).repres ≠ a) := by
  refine ⟨(subAssign_spec a b ha hb).1 h, ?_, ?_⟩
  · intro hcase
    cases b with
    | nil => simp [subAssign, Outcome.ok]
    | cons o os =>
      cases os with
      | nil =>
        obtain ⟨h1, _⟩ := subAssignInt_spec a o ha (bounded_of_canonical_singleton hb).1
        simp only [subAssign]
        rw [h1 (by simpa using h)]
        rfl
      | cons p ps =>
        have hl : a.length < (o :: p :: ps).length := by
          rcases hcase with h1 | h1
          · simp at h1
          · exact h1
        simp only [subAssign, hl, if_true]
        rfl
  · rintro ⟨h2, hl⟩
    cases b with
    | nil => simp at h2
    | cons o os =>
      cases os with
      | nil => simp at h2
      | cons p ps =>
        obtain ⟨_, t1, t2, t3⟩ := (subAssign_multi a o p ps ha hb.1 hl).1 h
        refine ⟨t1, t2, t3, ?_⟩
        intro heq
        rw [heq] at t3
        have hblt := value_lt_pow hb.1
        have : RADIX ^ (o :: p :: ps).length ≤ RADIX ^ a.length :=
          Nat.pow_le_pow_right RADIX_pos hl
        omega

/-! ## `operator*=(const Integer &)` -/

theorem radix_eq : radix = [0, 1] := by
  simp [radix, ofNative, RADIX]

theorem mulIntLoop_spec (obj : Nat) (h0 : 0 < obj) (hobj : obj ≤ RADIX) :
    ∀ (xs : List Nat) (c : Nat), c < obj → bounded xs →
    bounded (mulIntLoop obj xs c).1 ∧ (mulIntLoop obj xs c).1.length = xs.length ∧
    (mulIntLoop obj xs c).2 < obj ∧
    value (mulIntLoop obj xs c).1 + RADIX ^ xs.length * (mulIntLoop obj xs c).2
      = value xs * obj + c
  | [], c, hc, _ => by simp [mulIntLoop, bounded_nil, hc]
  | x :: xs, c, hc, hb => by
    have hx := (bounded_cons.1 hb).1
    have hxs := (bounded_cons.1 hb).2
    have hxo : x * obj + c < obj * RADIX := by
      have : (x + 1) * obj ≤ RADIX * obj := Nat.mul_le_mul_right _ hx
      have e : (x + 1) * obj = x * obj + obj := by ring
      rw [Nat.mul_comm obj RADIX]
      omega
    have hsq : obj * RADIX ≤ RADIX * RADIX := Nat.mul_le_mul_right _ hobj
    have hW := RADIX_sq_lt_WORD
    have h1 : wmul x obj = x * obj := wmul_eq (by omega)
    have ht : wadd (wmul x obj) c = x * obj + c := by rw [h1]; exact wadd_eq (by omega)
    have hq : (x * obj + c) / RADIX < obj := (Nat.div_lt_iff_lt_mul RADIX_pos).2 hxo
    obtain ⟨i1, i2, i3, i4⟩ := mulIntLoop_spec obj h0 hobj xs ((x * obj + c) / RADIX) hq hxs
    simp only [mulIntLoop, ht]
    refine ⟨bounded_cons.2 ⟨Nat.mod_lt _ RADIX_pos, i1⟩, by simp [i2], i3, ?_⟩
    simp only [value_cons, List.length_cons, pow_succ]
    have hdm : (x * obj + c) % RADIX + RADIX * ((x * obj + c) / RADIX) = x * obj + c :=
      Nat.mod_add_div _ _
    generalize mulIntLoop obj xs ((x * obj + c) / RADIX) = r at i4 ⊢
    calc (x * obj + c) % RADIX + RADIX * value r.1 + RADIX ^ xs.length * RADIX * r.2
        = (x * obj + c) % RADIX + RADIX * (value r.1 + RADIX ^ xs.length * r.2) := by ring
      _ = (x * obj + c) % RADIX + RADIX * (value xs * obj + (x * obj + c) / RADIX) := by rw [i4]
      _ = ((x * obj + c) % RADIX + RADIX * ((x * obj + c) / RADIX)) + RADIX * value xs * obj := by
        ring
      _ = (x * obj + c) + RADIX * value xs * obj := by rw [hdm]
      _ = (x + RADIX * value xs) * obj + c := by ring

theorem getLast?_append_ne_zero (l : List Nat) {c : Nat} (hc : c ≠ 0) :
    (l ++ [c]).getLast? ≠ some 0 := by
  rw [getLast?_append_singleton]; simpa using hc

/-- The private single-limb multiplication is exact and keeps limbs bounded; on a canonical
receiver the result is canonical. -/
theorem mulAssignInt_spec (a : List Nat) (obj : Nat) (ha : bounded a) (hobj : obj ≤ RADIX) :
    bounded (mulAssignInt a obj) ∧ value (mulAssignInt a obj) = value a * obj ∧
    (mulAssignInt a obj).length ≤ a.length + 1 ∧
    (canonical a → canonical (mulAssignInt a obj)) := by
  cases a with
  | nil => simp [mulAssignInt, bounded_nil, canonical_nil]
  | cons x xs =>
    by_cases h0 : obj = 0
    · subst h0
      simp [mulAssignInt, bounded_nil, canonical_nil]
    · obtain ⟨i1, i2, i3, i4⟩ := mulIntLoop_spec obj (Nat.pos_of_ne_zero h0) hobj (x :: xs) 0
        (Nat.pos_of_ne_zero h0) ha
      simp only [mulAssignInt, List.isEmpty_cons, Bool.false_eq_true, if_false, h0]
      by_cases hc : (mulIntLoop obj (x :: xs) 0).2 = 0
      · rw [hc] at i4
        simp only [Nat.mul_zero, Nat.add_zero] at i4
        simp only [hc, ne_eq, not_true_eq_false, if_false]
        refine ⟨i1, i4, by rw [i2]; omega, ?_⟩
        intro hcan
        apply canonical_of_value_ge i1
        intro _
        rw [i2, i4]
        have h1 := value_ge_pow (by simp) hcan.2
        have h2 : value (x :: xs) * 1 ≤ value (x :: xs) * obj :=
          Nat.mul_le_mul_left _ (Nat.pos_of_ne_zero h0)
        omega
      · simp only [hc, ne_eq, not_false_eq_true, if_true]
        have hbd : bounded ((mulIntLoop obj (x :: xs) 0).1 ++ [(mulIntLoop obj (x :: xs) 0).2]) :=
          bounded_append.2 ⟨i1, by intro y hy; simp at hy; omega⟩
        refine ⟨hbd, ?_, by simp [i2], fun _ => ⟨hbd, getLast?_append_ne_zero _ hc⟩⟩
        rw [value_append, i2]
        simpa using i4

/-! ## `operator*(const BigInteger &)` -/

theorem mul_limb_bound {l ai bj c : Nat} (hl : l < RADIX) (ha : ai < RADIX) (hb : bj < RADIX)
    (hc : c < RADIX) : l + (bj * ai + c) < RADIX * RADIX := by
  have h1 : bj * ai ≤ (RADIX - 1) * (RADIX - 1) :=
    Nat.mul_le_mul (by omega) (by omega)
  have h2 : (RADIX - 1) * (RADIX - 1) + 2 * RADIX ≤ RADIX * RADIX + 1 := by
    unfold RADIX; decide
  omega

/-- One pass of the inner loop and the flush of its carry, started on `lo` (the limbs already
accumulated at these positions) followed by a zero limb. -/
theorem mulInner_spec (bj : Nat) (hbj : bj < RADIX) (zs : List Nat) :
    ∀ (as lo : List Nat) (c : Nat), lo.length = as.length → bounded as → bounded lo →
    c < RADIX →
    ∃ (lo2 : List Nat) (c2 : Nat), mulInner bj as (lo ++ 0 :: zs) c = lo2 ++ c2 :: zs ∧
      lo2.length = as.length ∧ bounded lo2 ∧ c2 < RADIX ∧
      value lo2 + RADIX ^ as.length * c2 = value lo + bj * value as + c
  | [], lo, c, hlen, _, _, hc => by
    have : lo = [] := List.length_eq_zero.1 (by simpa using hlen)
    subst this
    have hW : WORD = 18446744073709551616 := rfl
    have hR : RADIX = 1000000000 := rfl
    have hw : wadd 0 c = c := by rw [wadd_eq (by omega)]; omega
    refine ⟨[], c, ?_, rfl, bounded_nil, hc, by simp⟩
    by_cases h0 : c = 0
    · subst h0; simp [mulInner]
    · simp [mulInner, h0, hw]
  | ai :: as, [], c, hlen, _, _, _ => by simp at hlen
  | ai :: as, l :: lo, c, hlen, ha, hlo, hc => by
    have hai := (bounded_cons.1 ha).1
    have has := (bounded_cons.1 ha).2
    have hl := (bounded_cons.1 hlo).1
    have hlo2 := (bounded_cons.1 hlo).2
    have hbound := mul_limb_bound hl hai hbj hc
    have hW := RADIX_sq_lt_WORD
    have h1 : wmul bj ai = bj * ai := wmul_eq (by omega)
    have h2 : wadd (wmul bj ai) c = bj * ai + c := by rw [h1]; exact wadd_eq (by omega)
    have ht : wadd l (wadd (wmul bj ai) c) = l + (bj * ai + c) := by
      rw [h2]; exact wadd_eq (by omega)
    have hq : (l + (bj * ai + c)) / RADIX < RADIX := (Nat.div_lt_iff_lt_mul RADIX_pos).2 hbound
    obtain ⟨lo3, c3, e1, e2, e3, e4, e5⟩ := mulInner_spec bj hbj zs as lo
      ((l + (bj * ai + c)) / RADIX) (by simpa using hlen) has hlo2 hq
    refine ⟨(l + (bj * ai + c)) % RADIX :: lo3, c3, ?_, by simp [e2],
      bounded_cons.2 ⟨Nat.mod_lt _ RADIX_pos, e3⟩, e4, ?_⟩
    · rw [List.cons_append]
      simp only [mulInner, ht]
      rw [e1]
      rfl
    · simp only [value_cons, List.length_cons, pow_succ]
      have hdm : (l + (bj * ai + c)) % RADIX + RADIX * ((l + (bj * ai + c)) / RADIX)
          = l + (bj * ai + c) := Nat.mod_add_div _ _
      calc (l + (bj * ai + c)) % RADIX + RADIX * value lo3 + RADIX ^ as.length * RADIX * c3
          = (l + (bj * ai + c)) % RADIX + RADIX * (value lo3 + RADIX ^ as.length * c3) := by ring
        _ = (l + (bj * ai + c)) % RADIX
            + RADIX * (value lo + bj * value as + (l + (bj * ai + c)) / RADIX) := by rw [e5]
        _ = ((l + (bj * ai + c)) % RADIX + RADIX * ((l + (bj * ai + c)) / RADIX))
            + RADIX * (value lo + bj * value as) := by ring
        _ = (l + (bj * ai + c)) + RADIX * (value lo + bj * value as) := by rw [hdm]
        _ = l + RADIX * value lo + bj * (ai + RADIX * value as) + c := by ring

theorem exists_cons_of_length_succ {m : List Nat} {n : Nat} (h : m.length = n + 1) :
    ∃ x xs, m = x :: xs ∧ xs.length = n := by
  cases m with
  | nil => simp at h
  | cons x xs => exact ⟨x, xs, rfl, by simpa using h⟩

theorem mulOuter_spec (a : List Nat) (ha : bounded a) :
    ∀ (bs lo zs : List Nat), lo.length = a.length → bounded lo → bounded bs →
    zs.length = bs.length → (∀ z ∈ zs, z = 0) →
    bounded (mulOuter a bs (lo ++ zs)) ∧
    (mulOuter a bs (lo ++ zs)).length = a.length + bs.length ∧
    value (mulOuter a bs (lo ++ zs)) = value lo + value a * value bs
  | [], lo, zs, hlen, hlo, _, hz, _ => by
    have : zs = [] := List.length_eq_zero.1 (by simpa using hz)
    subst this
    simp [mulOuter, hlo, hlen]
  | bj :: bs, lo, [], _, _, _, hz, _ => by simp at hz
  | bj :: bs, lo, z :: zs, hlen, hlo, hb, hz, hzero => by
    have hbj := (bounded_cons.1 hb).1
    have hbs := (bounded_cons.1 hb).2
    have hz0 : z = 0 := hzero z (by simp)
    subst hz0
    have hzs : ∀ z ∈ zs, z = 0 := fun z hz => hzero z (by simp [hz])
    -- the limbs at the current positions after this pass
    obtain ⟨m, hm1, hm2, hm3, hm4⟩ : ∃ m : List Nat,
        (if bj = 0 then lo ++ 0 :: zs else mulInner bj a (lo ++ 0 :: zs) 0) = m ++ zs ∧
        m.length = a.length + 1 ∧ bounded m ∧ value m = value lo + bj * value a := by
      by_cases h0 : bj = 0
      · subst h0
        refine ⟨lo ++ [0], by simp, by simp [hlen], ?_, ?_⟩
        · exact bounded_append.2 ⟨hlo, by intro y hy; simp at hy; rw [hy]; exact RADIX_pos⟩
        · rw [value_append]; simp
      · obtain ⟨lo2, c2, e1, e2, e3, e4, e5⟩ := mulInner_spec bj hbj zs a lo 0 hlen ha hlo
          RADIX_pos
        refine ⟨lo2 ++ [c2], by simp [h0, e1], by simp [e2], ?_, ?_⟩
        · exact bounded_append.2 ⟨e3, by intro y hy; simp at hy; rw [hy]; exact e4⟩
        · rw [value_append, e2]; simpa using e5
    obtain ⟨h, lo3, hm5, hm6⟩ := exists_cons_of_length_succ hm2
    subst hm5
    obtain ⟨i1, i2, i3⟩ := mulOuter_spec a ha bs lo3 zs hm6 (bounded_cons.1 hm3).2 hbs
      (by simpa using hz) hzs
    simp only [mulOuter, hm1, List.cons_append]
    refine ⟨bounded_cons.2 ⟨(bounded_cons.1 hm3).1, i1⟩, by simp [i2]; omega, ?_⟩
    simp only [value_cons] at hm4 ⊢
    rw [i3]
    calc h + RADIX * (value lo3 + value a * value bs)
        = (h + RADIX * value lo3) + RADIX * (value a * value bs) := by ring
      _ = (value lo + bj * value a) + RADIX * (value a * value bs) := by rw [hm4]
      _ = value lo + value a * (bj + RADIX * value bs) := by ring

theorem value_replicate_zero (n : Nat) : value (List.replicate n 0) = 0 := by
  induction n with
  | zero => rfl
  | succ n ih => simp [List.replicate_succ, ih]

theorem bounded_replicate_zero (n : Nat) : bounded (List.replicate n 0) := by
  intro x hx
  rw [List.eq_of_mem_replicate hx]
  exact RADIX_pos

theorem value_popBackIfZero (l : List Nat) : value (popBackIfZero l) = value l := by
  unfold popBackIfZero
  by_cases hl : l.getLast? = some 0
  · simp only [hl, if_true]
    have hm : l = l.dropLast ++ [0] := (List.dropLast_append_getLast? 0 (by simpa using hl)).symm
    conv_rhs => rw [hm]
    rw [value_append]; simp
  · simp only [hl, if_false]

theorem length_popBackIfZero_le (l : List Nat) : (popBackIfZero l).length ≤ l.length := by
  unfold popBackIfZero
  by_cases hl : l.getLast? = some 0
  · simp only [hl, if_true]; simp
  · simp only [hl, if_false]; exact le_refl _

theorem pow_le_value_mul {a b : List Nat} (ha : canonical a) (hb : canonical b) (hane : a ≠ [])
    (hbne : b ≠ []) : RADIX ^ (a.length + b.length - 2) ≤ value a * value b := by
  have h1 := value_ge_pow hane ha.2
  have h2 := value_ge_pow hbne hb.2
  have h3 : 0 < a.length := List.length_pos.2 hane
  have h4 : 0 < b.length := List.length_pos.2 hbne
  have e : a.length + b.length - 2 = (a.length - 1) + (b.length - 1) := by omega
  rw [e, pow_add]
  exact Nat.mul_le_mul h1 h2

/-- Multiplication is exact on bounded limbs, never longer than the two operands together, and
canonical on canonical operands. -/
theorem mul_spec (a b : List Nat) (ha : bounded a) (hb : bounded b) :
    value (mul a b) = value a * value b ∧ (mul a b).length ≤ a.length + b.length ∧
    (canonical a → canonical b → canonical (mul a b)) := by
  cases a with
  | nil => simp [mul, canonical_nil]
  | cons x xs =>
    cases b with
    | nil => simp [mul, canonical_nil]
    | cons o os =>
      cases os with
      | nil =>
        have ho := (bounded_cons.1 hb).1
        obtain ⟨s1, s2, s3, s4⟩ := mulAssignInt_spec (x :: xs) o ha (Nat.le_of_lt ho)
        simp only [mul, List.isEmpty_cons, Bool.false_eq_true, or_self, if_false]
        exact ⟨by simpa using s2, by simpa using s3, fun h _ => s4 h⟩
      | cons p ps =>
        simp only [mul, List.isEmpty_cons, Bool.false_eq_true, or_self, if_false]
        have hrep : List.replicate ((x :: xs).length + (o :: p :: ps).length) 0
            = List.replicate (x :: xs).length 0 ++ List.replicate (o :: p :: ps).length 0 := by
          rw [List.replicate_add]
        obtain ⟨i1, i2, i3⟩ := mulOuter_spec (x :: xs) ha (o :: p :: ps)
          (List.replicate (x :: xs).length 0) (List.replicate (o :: p :: ps).length 0)
          (by simp) (bounded_replicate_zero _) hb (by simp)
          (fun z hz => List.eq_of_mem_replicate hz)
        rw [← hrep, value_replicate_zero, Nat.zero_add] at i3
        rw [← hrep] at i1 i2
        refine ⟨by rw [value_popBackIfZero, i3], ?_, ?_⟩
        · exact le_trans (length_popBackIfZero_le _) (le_of_eq i2)
        · intro hca hcb
          refine (popBackIfZero_spec i1 ?_).1
          intro _
          rw [i2, i3]
          exact pow_le_value_mul hca hcb (by simp) (by simp)

/-! ## `operator<` -/

theorem value_reverse_cons (x : Nat) (xs : List Nat) :
    value (x :: xs).reverse = value xs.reverse + RADIX ^ xs.length * x := by
  rw [List.reverse_cons, value_append, List.length_reverse]
  simp

theorem bounded_reverse {l : List Nat} (h : bounded l) : bounded l.reverse := by
  intro x hx
  exact h x (List.mem_reverse.1 hx)

theorem mismatch_spec : ∀ (xs ys : List Nat), xs.length = ys.length → bounded xs → bounded ys →
    match mismatch xs ys with
    | none => value xs.reverse = value ys.reverse
    | some (x, y) => (x < y ↔ value xs.reverse < value ys.reverse)
  | [], [], _, _, _ => by simp [mismatch]
  | [], _ :: _, h, _, _ => by simp at h
  | _ :: _, [], h, _, _ => by simp at h
  | x :: xs, y :: ys, hlen, hx, hy => by
    have hlen2 : xs.length = ys.length := by simpa using hlen
    have hxs := (bounded_cons.1 hx).2
    have hys := (bounded_cons.1 hy).2
    have ih := mismatch_spec xs ys hlen2 hxs hys
    have b1 := value_lt_pow (bounded_reverse hxs)
    have b2 := value_lt_pow (bounded_reverse hys)
    rw [List.length_reverse] at b1 b2
    simp only [mismatch]
    by_cases hxy : x = y
    · subst hxy
      simp only [if_true]
      rw [value_reverse_cons, value_reverse_cons, hlen2]
      cases hm : mismatch xs ys with
      | none =>
        rw [hm] at ih
        simp only at ih ⊢
        rw [ih]
      | some p =>
        rw [hm] at ih
        obtain ⟨p1, p2⟩ := p
        simp only at ih ⊢
        rw [ih]
        omega
    · simp only [hxy, if_false]
      rw [value_reverse_cons, value_reverse_cons, ← hlen2]
      constructor
      · intro hlt
        have : RADIX ^ xs.length * (x + 1) ≤ RADIX ^ xs.length * y := Nat.mul_le_mul_left _ hlt
        rw [Nat.mul_add, Nat.mul_one] at this
        omega
      · intro hlt
        by_contra hge
        have hyx : y + 1 ≤ x := by omega
        have : RADIX ^ xs.length * (y + 1) ≤ RADIX ^ xs.length * x := Nat.mul_le_mul_left _ hyx
        rw [Nat.mul_add, Nat.mul_one] at this
        rw [hlen2] at b1
        rw [hlen2] at this hlt
        omega

theorem value_reverse_reverse (l : List Nat) : value l.reverse.reverse = value l := by
  rw [List.reverse_reverse]

/-- On canonical operands `operator<` is the order of the values. -/
theorem lt_spec (a b : List Nat) (ha : canonical a) (hb : canonical b) :
    lt a b = decide (value a < value b) := by
  simp only [lt]
  by_cases h1 : a.length > b.length
  · have := value_lt_of_length_lt hb.1 ha h1
    simp only [h1, if_true]
    symm
    simp only [decide_eq_false_iff_not]
    omega
  · simp only [h1, if_false]
    by_cases h2 : a.length < b.length
    · have := value_lt_of_length_lt ha.1 hb h2
      simp only [h2, if_true]
      symm
      simpa using this
    · simp only [h2, if_false]
      have hlen : a.reverse.length = b.reverse.length := by
        simp only [List.length_reverse]; omega
      have hm := mismatch_spec a.reverse b.reverse hlen (bounded_reverse ha.1)
        (bounded_reverse hb.1)
      rw [List.reverse_reverse, List.reverse_reverse] at hm
      cases hmm : mismatch a.reverse b.reverse with
      | none =>
        rw [hmm] at hm
        simp only at hm ⊢
        symm
        simp only [decide_eq_false_iff_not]
        omega
      | some p =>
        rw [hmm] at hm
        obtain ⟨p1, p2⟩ := p
        simp only at hm ⊢
        exact decide_eq_decide.2 hm

/-! ## `get` and the leading limbs -/

theorem get_eq_getD (l : List Nat) (k : Nat) : get l k = l.getD k 0 := by
  simp only [get]
  by_cases h : k ≥ l.length
  · simp only [h, if_true]
    rw [List.getD_eq_default _ _ h]
  · simp only [h, if_false]

theorem getD_eq_digit : ∀ (l : List Nat) (k : Nat), bounded l →
    l.getD k 0 = value l / RADIX ^ k % RADIX
  | [], k, _ => by simp
  | x :: xs, 0, h => by
    have hx := (bounded_cons.1 h).1
    simp only [List.getD_cons_zero, value_cons, pow_zero, Nat.div_one]
    rw [Nat.add_mul_mod_self_left, Nat.mod_eq_of_lt hx]
  | x :: xs, k + 1, h => by
    have hx := (bounded_cons.1 h).1
    have hxs := (bounded_cons.1 h).2
    simp only [List.getD_cons_succ, value_cons]
    rw [getD_eq_digit xs k hxs, pow_succ, Nat.mul_comm (RADIX ^ k) RADIX, ← Nat.div_div_eq_div_mul,
      Nat.add_mul_div_left _ _ RADIX_pos, Nat.div_eq_of_lt hx, Nat.zero_add]

theorem get_spec (l : List Nat) (k : Nat) (h : bounded l) :
    get l k = value l / RADIX ^ k % RADIX := by
  rw [get_eq_getD, getD_eq_digit l k h]

theorem exists_top_two {v : List Nat} (h : 2 ≤ v.length) :
    ∃ lo v2 v1, v = lo ++ [v2, v1] := by
  have h1 : v ≠ [] := by intro h0; rw [h0] at h; simp at h
  have e1 := (List.dropLast_append_getLast h1).symm
  have h2 : v.dropLast ≠ [] := by
    intro h0
    have : v.dropLast.length = v.length - 1 := by simp
    rw [h0] at this; simp at this; omega
  have e2 := (List.dropLast_append_getLast h2).symm
  refine ⟨v.dropLast.dropLast, v.dropLast.getLast h2, v.getLast h1, ?_⟩
  conv_lhs => rw [e1, e2]
  simp

theorem top_two_facts (lo : List Nat) (v2 v1 : Nat) (hb : bounded (lo ++ [v2, v1])) :
    (lo ++ [v2, v1]).getLastD 0 = v1 ∧ (lo ++ [v2, v1]).reverse.getD 1 0 = v2 ∧
    v1 < RADIX ∧ v2 < RADIX ∧
    value (lo ++ [v2, v1]) = value lo + RADIX ^ lo.length * (v2 + RADIX * v1) ∧
    value lo < RADIX ^ lo.length ∧ (lo ++ [v2, v1]).length = lo.length + 2 := by
  have hb2 := bounded_append.1 hb
  have h1 : v1 < RADIX := hb2.2 v1 (by simp)
  have h2 : v2 < RADIX := hb2.2 v2 (by simp)
  refine ⟨?_, ?_, h1, h2, ?_, value_lt_pow hb2.1, by simp⟩
  · rw [List.getLastD_eq_getLast?]
    simp
  · simp
  · rw [value_append]; simp

/-! ## The correction loop of the multi-limb division -/

theorem radix_bounds : (RADIX + 1) * RADIX < WORD ∧ RADIX * RADIX + RADIX < WORD := by
  unfold RADIX WORD; decide

/-- The recursion of `corrLoop` is the loop of the source: one test of the condition, and on
success `--q_approxim; r_approxim += v_n__1;` in machine arithmetic. -/
theorem corrLoop_unfold (v1 v2 u2 q r : Nat) (hq : q < WORD) :
    corrLoop v1 v2 u2 q r =
      if r < RADIX ∧ (q = RADIX ∨ wmul q v2 > wadd (wmul RADIX r) u2) then
        corrLoop v1 v2 u2 (wsub q 1) (wadd r v1)
      else (q, r) := by
  cases q with
  | zero =>
    have h1 : wmul 0 v2 = 0 := by
      unfold wmul; rw [Nat.zero_mul]; rfl
    have h2 : ¬ (0 = RADIX) := by unfold RADIX; omega
    rw [if_neg]
    · rfl
    · rintro ⟨_, h | h⟩
      · exact h2 h
      · rw [h1] at h; exact Nat.not_lt_zero _ h
  | succ q =>
    have h1 : wsub (q + 1) 1 = q := by
      rw [wsub_eq (by omega) hq]; omega
    rw [h1]
    simp only [corrLoop]

/-- The correction loop, for a quotient digit `qt` known to satisfy the three facts that tie it to
the leading limbs: the loop never goes below `qt`, ends at most one above it, and ends below
`RADIX`. -/
theorem corrLoop_spec (v1 v2 u2 t qt : Nat) (hv1 : 0 < v1) (hv1R : v1 < RADIX) (hv2 : v2 < RADIX)
    (hu2 : u2 < RADIX) (ht : t ≤ v1 * RADIX + v2)
    (hi : ∀ q, t * RADIX + u2 < q * (v1 * RADIX + v2) → qt < q)
    (hii : qt < RADIX)
    (hiii : ∀ q, q < RADIX → q * (v1 * RADIX + v2) ≤ t * RADIX + u2 → q ≤ qt + 1) :
    ∀ (q r : Nat), q * v1 + r = t → qt ≤ q → q ≤ RADIX + 1 →
      qt ≤ (corrLoop v1 v2 u2 q r).1 ∧ (corrLoop v1 v2 u2 q r).1 ≤ qt + 1 ∧
      (corrLoop v1 v2 u2 q r).1 < RADIX := by
  intro q
  induction q with
  | zero =>
    intro r _ hge _
    simp only [corrLoop]
    exact ⟨hge, Nat.zero_le _, RADIX_pos⟩
  | succ q ih =>
    intro r hqr hge hle
    have hb := radix_bounds
    have hRpos := RADIX_pos
    have hqv2 : (q + 1) * v2 ≤ (RADIX + 1) * RADIX :=
      Nat.mul_le_mul hle (Nat.le_of_lt hv2)
    have hm1 : wmul (q + 1) v2 = (q + 1) * v2 := wmul_eq (by omega)
    have hexp : (q + 1) * (v1 * RADIX + v2) = ((q + 1) * v1) * RADIX + (q + 1) * v2 := by ring
    have htR : t * RADIX = ((q + 1) * v1) * RADIX + r * RADIX := by rw [← hqr]; ring
    simp only [corrLoop]
    by_cases hr : r < RADIX
    · have hrR : RADIX * r ≤ RADIX * RADIX := Nat.mul_le_mul_left _ (Nat.le_of_lt hr)
      have hm2 : wmul RADIX r = RADIX * r := wmul_eq (by omega)
      have hm3 : wadd (wmul RADIX r) u2 = RADIX * r + u2 := by
        rw [hm2]; exact wadd_eq (by omega)
      have hm4 : wadd r v1 = r + v1 := by
        have hR : RADIX = 1000000000 := rfl
        have hW : WORD = 18446744073709551616 := rfl
        exact wadd_eq (by omega)
      rw [hm1, hm3, hm4]
      have hcomm : RADIX * r = r * RADIX := Nat.mul_comm _ _
      by_cases hc : q + 1 = RADIX ∨ (q + 1) * v2 > RADIX * r + u2
      · simp only [hr, hc, and_self, if_true]
        apply ih (r + v1)
        · have : (q + 1) * v1 = q * v1 + v1 := Nat.succ_mul _ _
          omega
        · rcases hc with h | h
          · omega
          · have := hi (q + 1) (by rw [hexp, htR]; omega)
            omega
        · omega
      · simp only [hr, hc, and_false, if_false]
        simp only [not_or, not_lt] at hc
        obtain ⟨hc1, hc2⟩ := hc
        have hne : q + 1 ≠ RADIX + 1 := by
          intro heq
          have hq : q = RADIX := by omega
          subst hq
          have e1 : (RADIX + 1) * v1 = v1 * RADIX + v1 := by ring
          have e2 : (RADIX + 1) * v2 = RADIX * v2 + v2 := by ring
          have h1 : r + v1 ≤ v2 := by omega
          have h2 : RADIX * (r + v1) ≤ RADIX * v2 := Nat.mul_le_mul_left _ h1
          have h3 : RADIX * 1 ≤ RADIX * v1 := Nat.mul_le_mul_left _ hv1
          rw [Nat.mul_add] at h2
          omega
        have hlt : q + 1 < RADIX := by omega
        refine ⟨hge, hiii (q + 1) hlt (by rw [hexp, htR]; omega), hlt⟩
    · simp only [hr, false_and, if_false]
      have hlt : q + 1 < RADIX := by
        by_contra hcon
        have h1 : RADIX * v1 ≤ (q + 1) * v1 := Nat.mul_le_mul_right _ (by omega)
        have h2 : RADIX * v1 = v1 * RADIX := Nat.mul_comm _ _
        omega
      have h1 : (q + 1) * v2 ≤ RADIX * RADIX :=
        Nat.mul_le_mul (Nat.le_of_lt hlt) (Nat.le_of_lt hv2)
      have h2 : RADIX * RADIX ≤ r * RADIX := Nat.mul_le_mul_right _ (by omega)
      refine ⟨hge, hiii (q + 1) hlt (by rw [hexp, htR]; omega), hlt⟩

/-- The facts about the true quotient digit `N / V` that the correction loop relies on, in terms
of the leading limbs `A = N / K` of the window and `B = V / K` of the divisor. -/
theorem knuth_facts (N V K : Nat) (hK : 0 < K) (hNV : N < V * RADIX)
    (hBR : RADIX ≤ V / K) :
    N / K / RADIX ≤ V / K ∧
    (∀ q, N / K < q * (V / K) → N / V < q) ∧
    N / V < RADIX ∧
    (∀ q, q < RADIX → q * (V / K) ≤ N / K → q ≤ N / V + 1) ∧
    N / V * (V / K / RADIX) ≤ N / K / RADIX := by
  have hRpos := RADIX_pos
  have hV1 : K * (V / K) ≤ V := Nat.mul_div_le V K
  have hV2 : V < K * (V / K) + K := by
    have := Nat.div_add_mod V K
    have := Nat.mod_lt V hK
    omega
  have hN1 : K * (N / K) ≤ N := Nat.mul_div_le N K
  have hN2 : N < K * (N / K) + K := by
    have := Nat.div_add_mod N K
    have := Nat.mod_lt N hK
    omega
  have hKR : K * RADIX ≤ K * (V / K) := Nat.mul_le_mul_left _ hBR
  have hK1 : K * 1 ≤ K * RADIX := Nat.mul_le_mul_left _ hRpos
  have hVpos : 0 < V := by omega
  have hq1 : N / V * V ≤ N := Nat.div_mul_le_self N V
  -- the true digit times the leading limbs of the divisor stays below those of the window
  have hqB : N / V * (V / K) ≤ N / K := by
    rw [Nat.le_div_iff_mul_le hK]
    calc N / V * (V / K) * K = N / V * (K * (V / K)) := by ring
      _ ≤ N / V * V := Nat.mul_le_mul_left _ hV1
      _ ≤ N := hq1
  refine ⟨?_, ?_, ?_, ?_, ?_⟩
  · -- the leading limbs of the window, without the last, do not exceed those of the divisor
    have hA : N / K < (V / K + 1) * RADIX := by
      rw [Nat.div_lt_iff_lt_mul hK]
      have e : (V / K + 1) * RADIX * K = (K * (V / K) + K) * RADIX := by ring
      rw [e]
      have : V * RADIX < (K * (V / K) + K) * RADIX := Nat.mul_lt_mul_of_pos_right hV2 hRpos
      omega
    have : N / K / RADIX < V / K + 1 := (Nat.div_lt_iff_lt_mul hRpos).2 hA
    omega
  · intro q hq
    rw [Nat.div_lt_iff_lt_mul hVpos]
    have h1 : (N / K + 1) * K ≤ q * (V / K) * K := Nat.mul_le_mul_right _ hq
    have e1 : (N / K + 1) * K = K * (N / K) + K := by ring
    have h2 : q * (K * (V / K)) ≤ q * V := Nat.mul_le_mul_left _ hV1
    have e2 : q * (V / K) * K = q * (K * (V / K)) := by ring
    omega
  · rw [Nat.div_lt_iff_lt_mul hVpos, Nat.mul_comm]
    exact hNV
  · intro q hq hqB2
    rcases Nat.eq_zero_or_pos q with h0 | hpos
    · rw [h0]; exact Nat.zero_le _
    · have hgoal : (q - 1) * V ≤ N := by
        have h1 : q * V ≤ q * (K * (V / K) + K) := Nat.mul_le_mul_left _ (Nat.le_of_lt hV2)
        have e1 : q * (K * (V / K) + K) = K * (q * (V / K)) + q * K := by ring
        have h2 : K * (q * (V / K)) ≤ K * (N / K) := Nat.mul_le_mul_left _ hqB2
        have h3 : q * K ≤ RADIX * K := Nat.mul_le_mul_right _ (Nat.le_of_lt hq)
        have e3 : RADIX * K = K * RADIX := Nat.mul_comm _ _
        have e4 : (q - 1) * V + V = q * V := by
          have : q = (q - 1) + 1 := by omega
          conv_rhs => rw [this]
          ring
        omega
      have := (Nat.le_div_iff_mul_le hVpos).2 hgoal
      omega
  · rw [Nat.le_div_iff_mul_le hRpos]
    calc N / V * (V / K / RADIX) * RADIX = N / V * (V / K / RADIX * RADIX) := by ring
      _ ≤ N / V * (V / K) := Nat.mul_le_mul_left _ (Nat.div_mul_le_self _ _)
      _ ≤ N / K := hqB

/-! ## One iteration of the multi-limb division loop -/

theorem canonical_radix : canonical [0, 1] := by
  unfold canonical RADIX; decide

theorem value_radix : value [0, 1] = RADIX := by simp

/-- The window after `remainder *= radix; remainder += *i_it;`. -/
theorem window_spec (rem : List Nat) (u : Nat) (hrem : canonical rem) (hu : u < RADIX) :
    canonical (addAssignInt (mulAssign rem radix) u) ∧
    value (addAssignInt (mulAssign rem radix) u) = value rem * RADIX + u := by
  have hm := mul_spec rem [0, 1] hrem.1 canonical_radix.1
  have hc := hm.2.2 hrem canonical_radix
  have ha := addAssignInt_spec (mul rem [0, 1]) u hc.1 hu
  rw [mulAssign, radix_eq]
  refine ⟨ha.2.2 hc, ?_⟩
  rw [ha.2.1, hm.1, value_radix]

/-- The three leading limbs of a window `N` read by `get`, in terms of `A = N / RADIX ^ k`. -/
theorem window_digits (N k : Nat) (hA : N / RADIX ^ k < RADIX * RADIX * RADIX) :
    N / RADIX ^ k % RADIX = N / RADIX ^ k % RADIX ∧
    N / RADIX ^ (k + 1) % RADIX = N / RADIX ^ k / RADIX % RADIX ∧
    N / RADIX ^ (k + 2) % RADIX = N / RADIX ^ k / RADIX / RADIX := by
  have hRpos := RADIX_pos
  refine ⟨rfl, ?_, ?_⟩
  · rw [pow_succ, ← Nat.div_div_eq_div_mul]
  · have e : RADIX ^ (k + 2) = RADIX ^ k * RADIX * RADIX := by ring
    rw [e, ← Nat.div_div_eq_div_mul, ← Nat.div_div_eq_div_mul]
    apply Nat.mod_eq_of_lt
    rw [Nat.div_lt_iff_lt_mul hRpos, Nat.div_lt_iff_lt_mul hRpos]
    exact hA

/-- The estimate computed from the leading limbs, corrected by the loop, is the true quotient
digit or one more, and is a limb. -/
theorem estimate_spec (N V k v1 v2 : Nat) (hV : V / RADIX ^ k = v2 + RADIX * v1)
    (hv1 : HALF_OF_RADIX ≤ v1) (hv1R : v1 < RADIX) (hv2 : v2 < RADIX) (hNV : N < V * RADIX) :
    N / V ≤ (corrLoop v1 v2 (N / RADIX ^ k % RADIX)
        (wadd (wmul (N / RADIX ^ k / RADIX / RADIX) RADIX) (N / RADIX ^ k / RADIX % RADIX) / v1)
        (wadd (wmul (N / RADIX ^ k / RADIX / RADIX) RADIX) (N / RADIX ^ k / RADIX % RADIX) % v1)).1 ∧
    (corrLoop v1 v2 (N / RADIX ^ k % RADIX)
        (wadd (wmul (N / RADIX ^ k / RADIX / RADIX) RADIX) (N / RADIX ^ k / RADIX % RADIX) / v1)
        (wadd (wmul (N / RADIX ^ k / RADIX / RADIX) RADIX) (N / RADIX ^ k / RADIX % RADIX) % v1)).1
      ≤ N / V + 1 ∧
    (corrLoop v1 v2 (N / RADIX ^ k % RADIX)
        (wadd (wmul (N / RADIX ^ k / RADIX / RADIX) RADIX) (N / RADIX ^ k / RADIX % RADIX) / v1)
        (wadd (wmul (N / RADIX ^ k / RADIX / RADIX) RADIX) (N / RADIX ^ k / RADIX % RADIX) % v1)).1
      < RADIX := by
  have hRpos := RADIX_pos
  have hR : RADIX = 1000000000 := rfl
  have hH : HALF_OF_RADIX = 500000000 := rfl
  have hW : WORD = 18446744073709551616 := rfl
  have hKpos : 0 < RADIX ^ k := Nat.pos_pow_of_pos _ hRpos
  have hv1pos : 0 < v1 := by omega
  have hBR : RADIX ≤ V / RADIX ^ k := by
    rw [hV]
    have : RADIX * 1 ≤ RADIX * v1 := Nat.mul_le_mul_left _ hv1pos
    omega
  obtain ⟨k1, k2, k3, k4, k5⟩ := knuth_facts N V (RADIX ^ k) hKpos hNV hBR
  generalize N / RADIX ^ k = A at *
  -- the divisor's leading limbs
  have hB1 : (v2 + RADIX * v1) / RADIX = v1 := by
    rw [Nat.add_mul_div_left _ _ hRpos, Nat.div_eq_of_lt hv2, Nat.zero_add]
  rw [hV] at k1 k2 k4 k5
  rw [hB1] at k5
  have hBc : v2 + RADIX * v1 = v1 * RADIX + v2 := by ring
  rw [hBc] at k1 k2 k4
  -- the machine word holding the two leading limbs of the window
  have hA3 : A / RADIX / RADIX < RADIX := by
    have h1 : A / RADIX ≤ v1 * RADIX + v2 := k1
    have h2 : (v1 + 1) * RADIX ≤ RADIX * RADIX := Nat.mul_le_mul_right _ hv1R
    have e2 : (v1 + 1) * RADIX = v1 * RADIX + RADIX := by ring
    rw [Nat.div_lt_iff_lt_mul hRpos]
    omega
  have hmod : A / RADIX % RADIX < RADIX := Nat.mod_lt _ hRpos
  have hw1 : wmul (A / RADIX / RADIX) RADIX = A / RADIX / RADIX * RADIX := by
    apply wmul_eq
    have : A / RADIX / RADIX * RADIX ≤ RADIX * RADIX := Nat.mul_le_mul_right _ (Nat.le_of_lt hA3)
    have := RADIX_sq_lt_WORD
    omega
  have ht : wadd (wmul (A / RADIX / RADIX) RADIX) (A / RADIX % RADIX) = A / RADIX := by
    rw [hw1, wadd_eq]
    · exact Nat.div_add_mod' _ _
    · have : A / RADIX / RADIX * RADIX ≤ RADIX * RADIX :=
        Nat.mul_le_mul_right _ (Nat.le_of_lt hA3)
      have := radix_bounds.2
      omega
  rw [ht]
  have hAeq : A / RADIX * RADIX + A % RADIX = A := Nat.div_add_mod' _ _
  apply corrLoop_spec v1 v2 (A % RADIX) (A / RADIX) (N / V) hv1pos hv1R hv2 (Nat.mod_lt _ hRpos) k1
  · intro q hq
    rw [hAeq] at hq
    exact k2 q hq
  · exact k3
  · intro q hq hqB
    rw [hAeq] at hqB
    exact k4 q hq hqB
  · exact Nat.div_add_mod' _ _
  · exact (Nat.le_div_iff_mul_le hv1pos).2 k5
  · -- the first estimate exceeds `RADIX` by at most one
    have h1 : A / RADIX < v1 * (RADIX + 2) := by
      have e : v1 * (RADIX + 2) = v1 * RADIX + 2 * v1 := by ring
      omega
    have : A / RADIX / v1 < RADIX + 2 := by
      rw [Nat.div_lt_iff_lt_mul hv1pos, Nat.mul_comm]
      exact h1
    omega

theorem div_mul_le_of_lt_succ {N V q : Nat} (hV : 0 < V) (h1 : N / V ≤ q) (h2 : q ≤ N / V + 1) :
    (N < V * q → q = N / V + 1) ∧ (¬ N < V * q → q = N / V) := by
  have hq1 : V * (N / V) ≤ N := Nat.mul_div_le N V
  have hq2 : N < V * (N / V + 1) := Nat.lt_mul_div_succ N hV
  generalize N / V = d at *
  constructor
  · intro h
    rcases Nat.lt_or_ge d q with h3 | h3
    · omega
    · have : q = d := by omega
      subst this; omega
  · intro h
    rcases Nat.lt_or_ge d q with h3 | h3
    · have : q = d + 1 := by omega
      subst this; omega
    · omega

/-- One iteration of the division loop on a normalized divisor `v` with at least two limbs and a
canonical remainder smaller than `v`: no exception, the limb stored is the true quotient digit,
and the new remainder is canonical and equal to the true remainder. -/
theorem divStep_spec (v rem : List Nat) (u : Nat) (hv : canonical v) (hn : 2 ≤ v.length)
    (hnorm : HALF_OF_RADIX ≤ v.getLastD 0) (hrem : canonical rem) (hlt : value rem < value v)
    (hu : u < RADIX) :
    ∃ r, divStep v rem u = Except.ok ((value rem * RADIX + u) / value v, r) ∧
      (value rem * RADIX + u) / value v < RADIX ∧ canonical r ∧
      value r = (value rem * RADIX + u) % value v := by
  have hRpos := RADIX_pos
  obtain ⟨lo, v2, v1, hvd⟩ := exists_top_two hn
  have hvb : bounded (lo ++ [v2, v1]) := hvd ▸ hv.1
  obtain ⟨t1, t2, t3, t4, t5, t6, t7⟩ := top_two_facts lo v2 v1 hvb
  rw [← hvd] at t1 t2 t5 t7
  obtain ⟨w1, w2⟩ := window_spec rem u hrem hu
  have hKpos : 0 < RADIX ^ lo.length := Nat.pos_pow_of_pos _ hRpos
  have hVpos : 0 < value v := by omega
  have hNV : value rem * RADIX + u < value v * RADIX := by
    have : (value rem + 1) * RADIX ≤ value v * RADIX := Nat.mul_le_mul_right _ hlt
    have e : (value rem + 1) * RADIX = value rem * RADIX + RADIX := by ring
    omega
  have hVK : value v / RADIX ^ lo.length = v2 + RADIX * v1 := by
    rw [t5, Nat.add_mul_div_left _ _ hKpos, Nat.div_eq_of_lt t6, Nat.zero_add]
  have hA : (value rem * RADIX + u) / RADIX ^ lo.length < RADIX * RADIX * RADIX := by
    rw [Nat.div_lt_iff_lt_mul hKpos]
    have h1 := value_lt_pow hv.1
    rw [t7] at h1
    have e : RADIX ^ (lo.length + 2) = RADIX ^ lo.length * RADIX * RADIX := by ring
    rw [e] at h1
    have h2 : value v * RADIX < RADIX ^ lo.length * RADIX * RADIX * RADIX :=
      Nat.mul_lt_mul_of_pos_right h1 hRpos
    have e2 : RADIX * RADIX * RADIX * RADIX ^ lo.length
        = RADIX ^ lo.length * RADIX * RADIX * RADIX := by ring
    omega
  obtain ⟨_, d1, d2⟩ := window_digits (value rem * RADIX + u) lo.length hA
  have g_n : get (addAssignInt (mulAssign rem radix) u) v.length
      = (value rem * RADIX + u) / RADIX ^ lo.length / RADIX / RADIX := by
    rw [get_spec _ _ w1.1, w2, t7, d2]
  have g_n1 : get (addAssignInt (mulAssign rem radix) u) (v.length - 1)
      = (value rem * RADIX + u) / RADIX ^ lo.length / RADIX % RADIX := by
    rw [get_spec _ _ w1.1, w2, t7, ← d1]; rfl
  have g_n2 : get (addAssignInt (mulAssign rem radix) u) (v.length - 2)
      = (value rem * RADIX + u) / RADIX ^ lo.length % RADIX := by
    rw [get_spec _ _ w1.1, w2, t7]; rfl
  have est := estimate_spec (value rem * RADIX + u) (value v) lo.length v1 v2 hVK
    (by rw [← t1]; exact hnorm) t3 t4 hNV
  simp only [divStep, g_n, g_n1, g_n2, t1, t2]
  generalize (corrLoop v1 v2 ((value rem * RADIX + u) / RADIX ^ lo.length % RADIX)
    (wadd (wmul ((value rem * RADIX + u) / RADIX ^ lo.length / RADIX / RADIX) RADIX)
      ((value rem * RADIX + u) / RADIX ^ lo.length / RADIX % RADIX) / v1)
    (wadd (wmul ((value rem * RADIX + u) / RADIX ^ lo.length / RADIX / RADIX) RADIX)
      ((value rem * RADIX + u) / RADIX ^ lo.length / RADIX % RADIX) % v1)).1 = qh at est ⊢
  obtain ⟨e1, e2, e3⟩ := est
  obtain ⟨m1, m2, _, m4⟩ := mulAssignInt_spec v qh hv.1 (Nat.le_of_lt e3)
  have hsub0 := m4 hv
  have hcases := div_mul_le_of_lt_succ hVpos e1 e2
  have hdiv : (value rem * RADIX + u) / value v < RADIX := by
    rw [Nat.div_lt_iff_lt_mul hVpos, Nat.mul_comm RADIX (value v)]; exact hNV
  have hmod : value rem * RADIX + u - value v * ((value rem * RADIX + u) / value v)
      = (value rem * RADIX + u) % value v := by
    have := Nat.div_add_mod (value rem * RADIX + u) (value v)
    omega
  have hqle : value v * ((value rem * RADIX + u) / value v) ≤ value rem * RADIX + u :=
    Nat.mul_div_le _ _
  rw [lt_spec _ _ w1 hsub0, w2, m2]
  generalize (value rem * RADIX + u) / value v = d at hcases hdiv hmod hqle ⊢
  by_cases hcmp : value rem * RADIX + u < value v * qh
  · have hq := hcases.1 hcmp
    simp only [hcmp, decide_True, if_true]
    have hW : WORD = 18446744073709551616 := rfl
    have hR : RADIX = 1000000000 := rfl
    have hws : wsub qh 1 = d := by
      rw [wsub_eq (by omega) (by omega)]; omega
    have hge : value v ≤ value (mulAssignInt v qh) := by
      rw [m2, hq, Nat.mul_add, Nat.mul_one]; omega
    obtain ⟨s, hs1, hs2, hs3⟩ := (subAssign_spec _ _ hsub0 hv).2 hge
    have hs4 : value s = value v * d := by
      rw [hs3, m2, hq, Nat.mul_add, Nat.mul_one]; omega
    obtain ⟨r, hr1, hr2, hr3⟩ := (subAssign_spec _ _ w1 hs2).2 (by rw [hs4, w2]; exact hqle)
    refine ⟨r, ?_, hdiv, hr2, by rw [hr3, w2, hs4, hmod]⟩
    rw [hs1]
    simp only [Outcome.ok]
    rw [hr1]
    simp only [Outcome.ok, hws]
  · have hq := hcases.2 hcmp
    subst hq
    simp only [hcmp, decide_False, Bool.false_eq_true, if_false]
    have hle : value (mulAssignInt v qh) ≤ value (addAssignInt (mulAssign rem radix) u) := by
      rw [m2, w2]; exact hqle
    obtain ⟨r, hr1, hr2, hr3⟩ := (subAssign_spec _ _ w1 hsub0).2 hle
    refine ⟨r, ?_, hdiv, hr2, by rw [hr3, w2, m2]; exact hmod⟩
    rw [hr1]
    simp only [Outcome.ok]

/-! ## The loop of the multi-limb division -/

theorem zeroInv_step (ds : List Nat) (z : Nat) (f : Bool) (d : Nat) (h : zeroInv ds z f) :
    zeroInv (ds ++ [d]) (if d ≠ 0 then z else if f then z else z + 1)
      (if d ≠ 0 then true else f) := by
  obtain ⟨rest, h1, h2⟩ := h
  cases f with
  | true =>
    simp only [if_true] at h2
    have e : (if d ≠ 0 then z else if true = true then z else z + 1) = z := by
      by_cases hd : d = 0 <;> simp [hd]
    have e2 : (if d ≠ 0 then true else true) = true := by
      by_cases hd : d = 0 <;> simp [hd]
    rw [e, e2]
    refine ⟨rest ++ [d], by rw [h1, List.append_assoc], ?_⟩
    simp only [if_true]
    refine ⟨by simp, ?_⟩
    cases rest with
    | nil => exact absurd rfl h2.1
    | cons x xs => simpa using h2.2
  | false =>
    simp only [Bool.false_eq_true, if_false] at h2
    subst h2
    by_cases hd : d = 0
    · subst hd
      simp only [ne_eq, not_true_eq_false, if_false, Bool.false_eq_true]
      refine ⟨[], ?_, by simp⟩
      rw [h1, List.append_nil, List.append_nil, List.replicate_succ']
    · simp only [ne_eq, hd, not_false_eq_true, if_true]
      refine ⟨[d], by rw [h1, List.append_nil], ?_⟩
      simp only [if_true]
      exact ⟨by simp, by simpa using hd⟩

/-- Long division: bringing down one limb and dividing, then dividing the rest, is dividing the
whole. -/
theorem long_division_step (r u V k U : Nat) (hV : 0 < V) :
    ((r * RADIX + u) % V * RADIX ^ k + U) / V + RADIX ^ k * ((r * RADIX + u) / V)
      = (r * RADIX ^ (k + 1) + (U + RADIX ^ k * u)) / V := by
  have h := Nat.div_add_mod (r * RADIX + u) V
  generalize (r * RADIX + u) / V = d at *
  generalize (r * RADIX + u) % V = m at *
  have e : r * RADIX ^ (k + 1) + (U + RADIX ^ k * u) = (m * RADIX ^ k + U) + V * (RADIX ^ k * d) := by
    have : r * RADIX ^ (k + 1) + (U + RADIX ^ k * u) = (r * RADIX + u) * RADIX ^ k + U := by ring
    rw [this, ← h]; ring
  rw [e, Nat.add_mul_div_left _ _ hV]

theorem divLoop_spec (v : List Nat) (hv : canonical v) (hn : 2 ≤ v.length)
    (hnorm : HALF_OF_RADIX ≤ v.getLastD 0) :
    ∀ (us : List Nat) (st : DivState), bounded us → canonical st.remainder →
    value st.remainder < value v →
    ∃ st2, divLoop v us st = Except.ok st2 ∧
      (∃ ds, st2.digits = st.digits ++ ds ∧ bounded ds ∧ ds.length = us.length ∧
        value ds.reverse = (value st.remainder * RADIX ^ us.length + value us.reverse) / value v) ∧
      (zeroInv st.digits st.zero_it st.is_find_non_zero →
        zeroInv st2.digits st2.zero_it st2.is_find_non_zero)
  | [], st, _, _, hlt => by
    refine ⟨st, rfl, ⟨[], by simp, bounded_nil, rfl, ?_⟩, fun h => h⟩
    simp only [List.reverse_nil, value_nil, List.length_nil, pow_zero, Nat.mul_one, Nat.add_zero]
    exact (Nat.div_eq_of_lt hlt).symm
  | u :: us, st, hb, hrem, hlt => by
    have hu := (bounded_cons.1 hb).1
    have hus := (bounded_cons.1 hb).2
    have hVpos : 0 < value v := by omega
    obtain ⟨r, hs1, hs2, hs3, hs4⟩ := divStep_spec v st.remainder u hv hn hnorm hrem hlt hu
    have hrlt : value r < value v := by rw [hs4]; exact Nat.mod_lt _ hVpos
    obtain ⟨st2, i1, ⟨ds, i2, i3, hlen, i4⟩, i5⟩ := divLoop_spec v hv hn hnorm us
      { remainder := r
        digits := st.digits ++ [(value st.remainder * RADIX + u) / value v]
        zero_it := if (value st.remainder * RADIX + u) / value v ≠ 0 then st.zero_it
                   else if st.is_find_non_zero then st.zero_it else st.zero_it + 1
        is_find_non_zero := if (value st.remainder * RADIX + u) / value v ≠ 0 then true
                            else st.is_find_non_zero } hus hs3 hrlt
    refine ⟨st2, ?_, ⟨(value st.remainder * RADIX + u) / value v :: ds, ?_, ?_, by simp [hlen],
      ?_⟩, ?_⟩
    · simp only [divLoop, hs1]
      exact i1
    · rw [i2]; simp
    · exact bounded_cons.2 ⟨hs2, i3⟩
    · rw [value_reverse_cons, value_reverse_cons, i4]
      simp only [hs4, List.length_cons]
      rw [hlen]
      exact long_division_step _ _ _ _ _ hVpos
    · intro hz
      exact i5 (zeroInv_step _ _ _ _ hz)

/-! ## The leading limb, the short-circuit and the normalization -/

theorem value_top {l : List Nat} (hne : l ≠ []) (hb : bounded l) :
    RADIX ^ (l.length - 1) * l.getLastD 0 ≤ value l ∧
    value l < RADIX ^ (l.length - 1) * (l.getLastD 0 + 1) := by
  have e1 := (List.dropLast_append_getLast hne).symm
  have hlast : l.getLastD 0 = l.getLast hne := by
    rw [List.getLastD_eq_getLast?, List.getLast?_eq_getLast _ hne]; rfl
  have hval : value l = value l.dropLast + RADIX ^ (l.length - 1) * l.getLast hne := by
    conv_lhs => rw [e1]
    rw [value_append]; simp
  have hbd : bounded l.dropLast := by
    rw [e1] at hb; exact (bounded_append.1 hb).1
  have hlt := value_lt_pow hbd
  have hlen : l.dropLast.length = l.length - 1 := by simp
  rw [hlen] at hlt
  rw [hlast, hval, Nat.mul_add, Nat.mul_one]
  omega

theorem top_pos {l : List Nat} (hne : l ≠ []) (hc : canonical l) : 0 < l.getLastD 0 := by
  have h := hc.2
  rw [List.getLastD_eq_getLast?, List.getLast?_eq_getLast _ hne]
  rw [List.getLast?_eq_getLast _ hne] at h
  have : l.getLast hne ≠ 0 := by
    intro h0; apply h; rw [h0]
  simpa using Nat.pos_of_ne_zero this

theorem top_lt {l : List Nat} (hne : l ≠ []) (hb : bounded l) : l.getLastD 0 < RADIX := by
  rw [List.getLastD_eq_getLast?, List.getLast?_eq_getLast _ hne]
  exact hb _ (List.getLast_mem hne)

/-- The test of the short-circuit: equal limb counts and a smaller leading limb make the receiver
smaller. -/
theorem value_lt_of_top_lt {a b : List Nat} (ha : bounded a) (hb : bounded b) (hbne : b ≠ [])
    (hlen : a.length = b.length) (htop : a.getLastD 0 < b.getLastD 0) : value a < value b := by
  have hane : a ≠ [] := by
    intro h0; rw [h0] at hlen; exact hbne (List.length_eq_zero.1 hlen.symm)
  have h1 := (value_top hane ha).2
  have h2 := (value_top hbne hb).1
  rw [hlen] at h1
  have : RADIX ^ (b.length - 1) * (a.getLastD 0 + 1) ≤ RADIX ^ (b.length - 1) * b.getLastD 0 :=
    Nat.mul_le_mul_left _ htop
  omega

theorem length_eq_of_value_bounds {l : List Nat} {n : Nat} (hc : canonical l)
    (h1 : RADIX ^ n ≤ value l) (h2 : value l < RADIX ^ (n + 1)) : l.length = n + 1 := by
  have hlt := value_lt_pow hc.1
  have hne : l ≠ [] := by
    intro h0; rw [h0, value_nil] at h1
    have : 0 < RADIX ^ n := Nat.pos_pow_of_pos _ RADIX_pos
    omega
  have hge := value_ge_pow hne hc.2
  have a1 : n < l.length := by
    by_contra hcon
    have : RADIX ^ l.length ≤ RADIX ^ n := Nat.pow_le_pow_right RADIX_pos (by omega)
    omega
  have a2 : l.length - 1 < n + 1 := by
    by_contra hcon
    have : RADIX ^ (n + 1) ≤ RADIX ^ (l.length - 1) := Nat.pow_le_pow_right RADIX_pos (by omega)
    omega
  omega

/-- The scale factor brings a leading limb below `HALF_OF_RADIX` to at least `HALF_OF_RADIX`. -/
theorem norm_top (t : Nat) (h1 : 1 ≤ t) (h2 : t < HALF_OF_RADIX) :
    HALF_OF_RADIX ≤ t * (RADIX / (t + 1)) ∧ (t + 1) * (RADIX / (t + 1)) ≤ RADIX ∧
    2 ≤ RADIX / (t + 1) ∧ RADIX / (t + 1) ≤ HALF_OF_RADIX := by
  have hR : RADIX = 1000000000 := rfl
  have hH : HALF_OF_RADIX = 500000000 := rfl
  have hdm := Nat.div_add_mod RADIX (t + 1)
  have hm := Nat.mod_lt RADIX (show 0 < t + 1 by omega)
  have hd2 : 2 ≤ RADIX / (t + 1) := by
    rw [Nat.le_div_iff_mul_le (by omega)]; omega
  have hdH : RADIX / (t + 1) ≤ HALF_OF_RADIX := by
    have : RADIX / (t + 1) ≤ RADIX / 2 := Nat.div_le_div_left (by omega) (by omega)
    have e : RADIX / 2 = HALF_OF_RADIX := by rw [hR, hH]
    omega
  generalize RADIX / (t + 1) = d at *
  generalize RADIX % (t + 1) = m at *
  refine ⟨?_, by omega, hd2, hdH⟩
  rcases Nat.lt_or_ge t 2 with ht | ht
  · have : t = 1 := by omega
    subst this
    omega
  · obtain ⟨s, rfl⟩ : ∃ s, t = s + 1 := ⟨t - 1, by omega⟩
    have e : (s + 1 + 1) * d = (s + 1) * d + d := by ring
    have h3 : s * 2 ≤ s * d := Nat.mul_le_mul_left _ hd2
    have e2 : (s + 1) * d = s * d + d := by ring
    omega

/-- Normalization: on a canonical divisor with a leading limb below `HALF_OF_RADIX` the scaled
copy is canonical, has as many limbs, and a leading limb of at least `HALF_OF_RADIX`. -/
theorem normalize_spec (b : List Nat) (hb : canonical b) (hne : b ≠ [])
    (hsmall : b.getLastD 0 < HALF_OF_RADIX) :
    canonical (mulAssignInt b (RADIX / (wadd (b.getLastD 0) 1))) ∧
    (mulAssignInt b (RADIX / (wadd (b.getLastD 0) 1))).length = b.length ∧
    HALF_OF_RADIX ≤ (mulAssignInt b (RADIX / (wadd (b.getLastD 0) 1))).getLastD 0 ∧
    value (mulAssignInt b (RADIX / (wadd (b.getLastD 0) 1)))
      = value b * (RADIX / (wadd (b.getLastD 0) 1)) ∧
    0 < RADIX / (wadd (b.getLastD 0) 1) ∧ RADIX / (wadd (b.getLastD 0) 1) ≤ RADIX := by
  have hR : RADIX = 1000000000 := rfl
  have hH : HALF_OF_RADIX = 500000000 := rfl
  have hW : WORD = 18446744073709551616 := rfl
  have hRpos := RADIX_pos
  have htpos := top_pos hne hb
  have hw : wadd (b.getLastD 0) 1 = b.getLastD 0 + 1 := wadd_eq (by omega)
  rw [hw]
  obtain ⟨n1, n2, n3, n4⟩ := norm_top (b.getLastD 0) htpos hsmall
  obtain ⟨vt1, vt2⟩ := value_top hne hb.1
  generalize b.getLastD 0 = t at *
  generalize RADIX / (t + 1) = d at *
  obtain ⟨m1, m2, _, m4⟩ := mulAssignInt_spec b d hb.1 (by omega)
  have hcan := m4 hb
  obtain ⟨k, hk⟩ : ∃ k, b.length = k + 1 :=
    ⟨b.length - 1, by have := List.length_pos.2 hne; omega⟩
  have hKpos : 0 < RADIX ^ k := Nat.pos_pow_of_pos _ hRpos
  -- bounds on the scaled value
  have hlow : RADIX ^ k * HALF_OF_RADIX ≤ value b * d := by
    have h1 := vt1
    rw [hk, Nat.add_sub_cancel] at h1
    calc RADIX ^ k * HALF_OF_RADIX ≤ RADIX ^ k * (t * d) := Nat.mul_le_mul_left _ n1
      _ = RADIX ^ k * t * d := by ring
      _ ≤ value b * d := Nat.mul_le_mul_right _ h1
  have hhigh : value b * d < RADIX ^ (k + 1) := by
    have h1 := vt2
    rw [hk, Nat.add_sub_cancel] at h1
    have h2 : value b * d < RADIX ^ k * (t + 1) * d :=
      Nat.mul_lt_mul_of_pos_right h1 (by omega)
    have h3 : RADIX ^ k * ((t + 1) * d) ≤ RADIX ^ k * RADIX := Nat.mul_le_mul_left _ n2
    have e : RADIX ^ k * (t + 1) * d = RADIX ^ k * ((t + 1) * d) := by ring
    rw [pow_succ]
    omega
  have hlen : (mulAssignInt b d).length = k + 1 := by
    apply length_eq_of_value_bounds hcan
    · rw [m2]
      have : RADIX ^ k * 1 ≤ RADIX ^ k * HALF_OF_RADIX := Nat.mul_le_mul_left _ (by omega)
      omega
    · rw [m2]; exact hhigh
  have hne2 : mulAssignInt b d ≠ [] := by
    intro h0; rw [h0] at hlen; simp at hlen
  refine ⟨hcan, by rw [hlen, hk], ?_, m2, by omega, by omega⟩
  have h1 := (value_top hne2 m1).2
  rw [hlen, Nat.add_sub_cancel, m2] at h1
  by_contra hcon
  have h2 : RADIX ^ k * ((mulAssignInt b d).getLastD 0 + 1) ≤ RADIX ^ k * HALF_OF_RADIX :=
    Nat.mul_le_mul_left _ (by omega)
  omega

/-! ## The multi-limb path of `operator/=(const BigInteger &)` -/

/-- The quotient limbs written by the loop, cut at `zero_it`. -/
theorem trim_spec (ds : List Nat) (z : Nat) (f : Bool) (hb : bounded ds) (h : zeroInv ds z f) :
    canonical (if z ≠ 0 then ds.reverse.take (ds.reverse.length - z) else ds.reverse) ∧
    value (if z ≠ 0 then ds.reverse.take (ds.reverse.length - z) else ds.reverse)
      = value ds.reverse := by
  obtain ⟨rest, h1, h2⟩ := h
  have hrev : ds.reverse = rest.reverse ++ List.replicate z 0 := by
    rw [h1, List.reverse_append, List.reverse_replicate]
  have hres : (if z ≠ 0 then ds.reverse.take (ds.reverse.length - z) else ds.reverse)
      = rest.reverse := by
    by_cases hz : z = 0
    · subst hz
      simp only [ne_eq, not_true_eq_false, if_false]
      rw [hrev]; simp
    · simp only [ne_eq, hz, not_false_eq_true, if_true]
      rw [hrev]
      apply List.take_left'
      simp
  have hbrest : bounded rest := by
    rw [h1] at hb; exact (bounded_append.1 hb).2
  rw [hres]
  constructor
  · refine ⟨bounded_reverse hbrest, ?_⟩
    rw [List.getLast?_reverse]
    cases f with
    | true =>
      simp only [if_true] at h2
      exact h2.2
    | false =>
      simp only [Bool.false_eq_true, if_false] at h2
      rw [h2]; simp
  · rw [hrev, value_append, value_replicate_zero]; simp

theorem divDigits_spec (this1 v : List Nat) (qsize : Nat) (h1 : canonical this1)
    (hv : canonical v) (hn : 2 ≤ v.length) (hnorm : HALF_OF_RADIX ≤ v.getLastD 0)
    (hlen : v.length ≤ this1.length) (hq : qsize = this1.length - v.length + 1) :
    ∃ q, divDigits this1 v qsize = Outcome.ok q ∧ canonical q ∧
      value q = value this1 / value v := by
  have hsplit : this1.take (this1.length - (v.length - 1)) ++
      this1.drop (this1.length - (v.length - 1)) = this1 := List.take_append_drop _ _
  generalize hL : this1.take (this1.length - (v.length - 1)) = L at hsplit
  generalize hH : this1.drop (this1.length - (v.length - 1)) = H at hsplit
  have hLlen : L.length = this1.length - (v.length - 1) := by
    rw [← hL, List.length_take]; omega
  have hHlen : H.length = v.length - 1 := by
    rw [← hH, List.length_drop]; omega
  have hrev : this1.reverse = H.reverse ++ L.reverse := by
    rw [← hsplit, List.reverse_append]
  have hbs : bounded (L ++ H) := by rw [hsplit]; exact h1.1
  have hHne : H ≠ [] := by
    intro h0; rw [h0] at hHlen; simp at hHlen; omega
  have hHcan : canonical H := by
    refine ⟨(bounded_append.1 hbs).2, ?_⟩
    have := h1.2
    rw [← hsplit, List.getLast?_append_of_ne_nil _ hHne] at this
    exact this
  have hvne : v ≠ [] := by intro h0; rw [h0] at hn; simp at hn
  have hHlt : value H < value v := by
    have a1 := value_lt_pow hHcan.1
    have a2 := value_ge_pow hvne hv.2
    rw [hHlen] at a1
    omega
  have e1 : (this1.reverse.take (v.length - 1)).reverse = H := by
    rw [hrev, List.take_left' (by simp [hHlen]), List.reverse_reverse]
  have e2 : (this1.reverse.drop (v.length - 1)).take qsize = L.reverse := by
    rw [hrev, List.drop_left' (by simp [hHlen])]
    apply List.take_of_length_le
    simp only [List.length_reverse]
    omega
  obtain ⟨st2, s1, ⟨ds, s2, s3, _, s4⟩, s5⟩ := divLoop_spec v hv hn hnorm L.reverse
    { remainder := H, digits := [], zero_it := 0, is_find_non_zero := false }
    (bounded_reverse (bounded_append.1 hbs).1) hHcan hHlt
  simp only [List.nil_append] at s2
  have hz := s5 ⟨[], by simp, by simp⟩
  rw [s2] at hz
  obtain ⟨t1, t2⟩ := trim_spec ds st2.zero_it st2.is_find_non_zero s3 hz
  simp only [divDigits, e1, e2, s1, s2]
  refine ⟨_, rfl, t1, ?_⟩
  rw [t2, s4]
  simp only [List.length_reverse, List.reverse_reverse]
  have : value H * RADIX ^ L.length + value L = value this1 := by
    rw [← hsplit, value_append]; ring
  rw [this]

/-- The multi-limb path as a whole: for canonical operands and a divisor of at least two limbs
the public division returns the canonical limbs of the floor quotient. -/
theorem divAssign_multi_spec (a b : List Nat) (ha : canonical a) (hb : canonical b)
    (hn : 2 ≤ b.length) :
    ∃ q, divAssign a b = Outcome.ok q ∧ canonical q ∧ value q = value a / value b := by
  have hbne : b ≠ [] := by intro h0; rw [h0] at hn; simp at hn
  have hbpos : 0 < value b := by
    have := value_ge_pow hbne hb.2
    have : 0 < RADIX ^ (b.length - 1) := Nat.pos_pow_of_pos _ RADIX_pos
    omega
  by_cases hshort : a.length < b.length ∨
      (a.length = b.length ∧ a.getLastD 0 < b.getLastD 0)
  · have hlt : value a < value b := by
      rcases hshort with h | ⟨h1, h2⟩
      · exact value_lt_of_length_lt ha.1 hb h
      · exact value_lt_of_top_lt ha.1 hb.1 hbne h1 h2
    refine ⟨[], ?_, canonical_nil, by rw [Nat.div_eq_of_lt hlt]; rfl⟩
    cases b with
    | nil => exact absurd rfl hbne
    | cons o os => simp only [divAssign, List.isEmpty_cons, Bool.false_eq_true, if_false, hshort,
        if_true]
  · have hlen : b.length ≤ a.length := by
      by_contra hcon; exact hshort (Or.inl (by omega))
    have hstep : ∃ (this1 v : List Nat) (c : Nat),
        divAssign a b = divDigits this1 v (this1.length - b.length + 1) ∧
        canonical this1 ∧ canonical v ∧ v.length = b.length ∧
        HALF_OF_RADIX ≤ v.getLastD 0 ∧ value this1 = value a * c ∧ value v = value b * c ∧
        0 < c := by
      cases b with
      | nil => exact absurd rfl hbne
      | cons o os =>
        cases os with
        | nil => simp at hn
        | cons p ps =>
          by_cases hs : (o :: p :: ps).getLastD 0 < HALF_OF_RADIX
          · obtain ⟨n1, n2, n3, n4, n5, n6⟩ := normalize_spec (o :: p :: ps) hb hbne hs
            obtain ⟨m1, m2, _, m4⟩ := mulAssignInt_spec a
              (RADIX / (wadd ((o :: p :: ps).getLastD 0) 1)) ha.1 n6
            refine ⟨_, _, _, ?_, m4 ha, n1, n2, n3, m2, n4, n5⟩
            simp only [divAssign, List.isEmpty_cons, Bool.false_eq_true, if_false, hshort, hs,
              decide_True, if_true]
          · refine ⟨a, o :: p :: ps, 1, ?_, ha, hb, rfl, by omega, by simp, by simp, by omega⟩
            simp only [divAssign, List.isEmpty_cons, Bool.false_eq_true, if_false, hshort, hs,
              decide_False]
    obtain ⟨this1, v, c, e1, c1, c2, c3, c4, c5, c6, c7⟩ := hstep
    have hlen2 : v.length ≤ this1.length := by
      rw [c3]
      have : a.length ≤ this1.length := by
        apply length_le_of_value_lt ha c1.1
        rw [c5]
        have : value a * 1 ≤ value a * c := Nat.mul_le_mul_left _ c7
        omega
      omega
    obtain ⟨q, q1, q2, q3⟩ := divDigits_spec this1 v (this1.length - b.length + 1) c1 c2
      (by rw [c3]; exact hn) c4 hlen2 (by rw [c3])
    refine ⟨q, by rw [e1, q1], q2, ?_⟩
    rw [q3, c5, c6, Nat.mul_div_mul_right _ _ c7]

/-! ## `operator/=(const Integer &)` and the single-limb path of the public division -/

theorem divIntLoop_spec (obj : Nat) (h0 : 0 < obj) (hobj : obj ≤ RADIX) :
    ∀ (xs : List Nat) (rem : Nat), rem < obj → bounded xs →
    bounded (divIntLoop obj xs rem) ∧ (divIntLoop obj xs rem).length = xs.length ∧
    value (divIntLoop obj xs rem).reverse = (rem * RADIX ^ xs.length + value xs.reverse) / obj
  | [], rem, hrem, _ => by
    simp only [divIntLoop, List.reverse_nil, value_nil, List.length_nil, pow_zero, Nat.mul_one,
      Nat.add_zero]
    exact ⟨bounded_nil, trivial, (Nat.div_eq_of_lt hrem).symm⟩
  | x :: xs, rem, hrem, hb => by
    have hx := (bounded_cons.1 hb).1
    have hxs := (bounded_cons.1 hb).2
    have hRpos := RADIX_pos
    have hlt : rem * RADIX + x < obj * RADIX := by
      have : (rem + 1) * RADIX ≤ obj * RADIX := Nat.mul_le_mul_right _ hrem
      have e : (rem + 1) * RADIX = rem * RADIX + RADIX := by ring
      omega
    have hsq : obj * RADIX ≤ RADIX * RADIX := Nat.mul_le_mul_right _ hobj
    have hW := RADIX_sq_lt_WORD
    have h1 : wmul rem RADIX = rem * RADIX := wmul_eq (by omega)
    have hr : wadd (wmul rem RADIX) x = rem * RADIX + x := by rw [h1]; exact wadd_eq (by omega)
    have hd : (rem * RADIX + x) / obj < RADIX := by
      rw [Nat.div_lt_iff_lt_mul h0, Nat.mul_comm RADIX obj]; exact hlt
    obtain ⟨i1, i2, i3⟩ := divIntLoop_spec obj h0 hobj xs ((rem * RADIX + x) % obj)
      (Nat.mod_lt _ h0) hxs
    simp only [divIntLoop, hr]
    refine ⟨bounded_cons.2 ⟨hd, i1⟩, by simp [i2], ?_⟩
    rw [value_reverse_cons, value_reverse_cons, i3, i2, List.length_cons]
    exact long_division_step _ _ _ _ _ h0

/-- The private single-limb division on a canonical receiver and a non-zero limb: it returns,
the value is the floor quotient, and the result is canonical unless the receiver is a single limb
smaller than the divisor. -/
theorem divAssignInt_spec (a : List Nat) (obj : Nat) (ha : canonical a) (h0 : 0 < obj)
    (hobj : obj < RADIX) :
    (divAssignInt a obj).exn = none ∧ value (divAssignInt a obj).repres = value a / obj ∧
    (a.length ≠ 1 ∨ obj ≤ value a → canonical (divAssignInt a obj).repres) := by
  have hne0 : obj ≠ 0 := by omega
  by_cases h1 : obj = 1
  · subst h1
    simp [divAssignInt, Outcome.ok, ha]
  · cases a with
    | nil => simp [divAssignInt, Outcome.ok, canonical_nil, hne0]
    | cons x xs =>
      cases xs with
      | nil =>
        have hx := (bounded_cons.1 ha.1).1
        simp only [divAssignInt, hne0, if_false, List.isEmpty_cons, Bool.false_eq_true, h1,
          or_self, Outcome.ok, value_cons, value_nil, Nat.mul_zero, Nat.add_zero, true_and]
        intro hcase
        have hle : obj ≤ x := by
          rcases hcase with h | h
          · simp at h
          · exact h
        have hpos : 0 < x / obj := Nat.div_pos hle h0
        refine ⟨?_, ?_⟩
        · intro y hy
          simp only [List.mem_singleton] at hy
          rw [hy]
          exact lt_of_le_of_lt (Nat.div_le_self _ _) hx
        · simp only [List.getLast?_singleton, ne_eq, Option.some.injEq]
          omega
      | cons y ys =>
        obtain ⟨i1, i2, i3⟩ := divIntLoop_spec obj h0 (Nat.le_of_lt hobj) (x :: y :: ys).reverse 0
          h0 (bounded_reverse ha.1)
        simp only [Nat.zero_mul, Nat.zero_add, List.reverse_reverse] at i3
        have hpb := popBackIfZero_spec (bounded_reverse i1) (by
          intro _
          rw [i3, List.length_reverse, i2, List.length_reverse, Nat.le_div_iff_mul_le h0]
          have hge := value_ge_pow (by simp) ha.2
          have e : (x :: y :: ys).length - 1 = ((x :: y :: ys).length - 2) + 1 := by simp
          rw [e, pow_succ] at hge
          have : RADIX ^ ((x :: y :: ys).length - 2) * obj
              ≤ RADIX ^ ((x :: y :: ys).length - 2) * RADIX :=
            Nat.mul_le_mul_left _ (Nat.le_of_lt hobj)
          omega)
        simp only [divAssignInt, hne0, if_false, List.isEmpty_cons, Bool.false_eq_true, h1,
          or_self, Outcome.ok, true_and]
        exact ⟨by rw [hpb.2, i3], fun _ => hpb.1⟩

theorem value_singleton_top (a : List Nat) (h : a.length = 1) : value a = a.getLastD 0 := by
  cases a with
  | nil => simp at h
  | cons x xs =>
    have : xs = [] := List.length_eq_zero.1 (by simpa using h)
    subst this
    simp

/-- The single-limb path of the public division. -/
theorem divAssign_single_spec (a : List Nat) (o : Nat) (ha : canonical a) (ho : canonical [o]) :
    ∃ q, divAssign a [o] = Outcome.ok q ∧ canonical q ∧ value q = value a / value [o] := by
  obtain ⟨ho1, ho2⟩ := bounded_of_canonical_singleton ho
  have hopos : 0 < o := Nat.pos_of_ne_zero ho2
  have hvo : value [o] = o := by simp
  rw [hvo]
  by_cases hshort : a.length < [o].length ∨
      (a.length = [o].length ∧ a.getLastD 0 < [o].getLastD 0)
  · have hlt : value a < o := by
      rcases hshort with h | ⟨h1, h2⟩
      · have : a = [] := List.length_eq_zero.1 (by simpa using h)
        subst this; simpa using hopos
      · rw [value_singleton_top a (by simpa using h1)]
        simpa using h2
    refine ⟨[], ?_, canonical_nil, by rw [Nat.div_eq_of_lt hlt]; rfl⟩
    simp only [divAssign, List.isEmpty_cons, Bool.false_eq_true, if_false, hshort, if_true]
  · obtain ⟨d1, d2, d3⟩ := divAssignInt_spec a o ha hopos ho1
    have hcase : a.length ≠ 1 ∨ o ≤ value a := by
      by_cases h1 : a.length = 1
      · right
        by_contra hcon
        apply hshort
        right
        refine ⟨by simpa using h1, ?_⟩
        rw [← value_singleton_top a h1]
        simpa using hcon
      · left; exact h1
    refine ⟨(divAssignInt a o).repres, ?_, d3 hcase, d2⟩
    simp only [divAssign, List.isEmpty_cons, Bool.false_eq_true, if_false, hshort]
    cases hd : divAssignInt a o with
    | mk r e =>
      rw [hd] at d1
      simp only at d1
      subst d1
      rfl

/-- The public division on canonical operands with a non-zero divisor: it returns the canonical
limbs of the floor quotient. -/
theorem divAssign_spec (a b : List Nat) (ha : canonical a) (hb : canonical b) (hne : b ≠ []) :
    ∃ q, divAssign a b = Outcome.ok q ∧ canonical q ∧ value q = value a / value b := by
  cases b with
  | nil => exact absurd rfl hne
  | cons o os =>
    cases os with
    | nil => exact divAssign_single_spec a o ha hb
    | cons p ps => exact divAssign_multi_spec a (o :: p :: ps) ha hb (by simp)

/-! ## The claims -/

/-- C1: multi-limb division computes the floor quotient.  For every canonical dividend `a` and
every canonical divisor `b` with at least two limbs, `a /= b` and `a / b` return normally with a
quotient `q` such that `value b * value q ≤ value a < value b * (value q + 1)`.  The statement
covers the short-circuit, the normalized and the un-normalized paths, since `a` and `b` are
arbitrary. -/
theorem div_multi_limb_floor_quotient (a b : List Nat) (ha : canonical a) (hb : canonical b)
    (hn : 2 ≤ b.length) :
    ∃ q, divAssign a b = Outcome.ok q ∧ div a b = Except.ok q ∧
      value b * value q ≤ value a ∧ value a < value b * (value q + 1) := by
  obtain ⟨q, h1, _, h3⟩ := divAssign_multi_spec a b ha hb hn
  have hbne : b ≠ [] := by intro h0; rw [h0] at hn; simp at hn
  have hbpos : 0 < value b := by
    have := value_ge_pow hbne hb.2
    have : 0 < RADIX ^ (b.length - 1) := Nat.pos_pow_of_pos _ RADIX_pos
    omega
  refine ⟨q, h1, by rw [div, h1]; rfl, ?_, ?_⟩
  · rw [h3]; exact Nat.mul_div_le _ _
  · rw [h3]; exact Nat.lt_mul_div_succ _ hbpos

/-- Witness for C1 on a divisor whose leading limb forces the normalization. -/
theorem div_multi_limb_floor_quotient_witness :
    canonical [234567890, 345678901, 456789012, 123] ∧ canonical [987654321, 123] ∧
    2 ≤ [987654321, 123].length ∧
    ∃ q, divAssign [234567890, 345678901, 456789012, 123] [987654321, 123] = Outcome.ok q ∧
      div [234567890, 345678901, 456789012, 123] [987654321, 123] = Except.ok q ∧
      value [987654321, 123] * value q ≤ value [234567890, 345678901, 456789012, 123] ∧
      value [234567890, 345678901, 456789012, 123] < value [987654321, 123] * (value q + 1) :=
  ⟨by decide, by decide, by decide,
    div_multi_limb_floor_quotient [234567890, 345678901, 456789012, 123] [987654321, 123]
      (by decide) (by decide) (by decide)⟩

/-- C2: single-limb-divisor division computes the floor quotient.  For every canonical dividend
`a` and every canonical one-limb divisor `[o]` (so `1 ≤ o < 10^9`), the public `a / [o]` returns
a quotient of value `value a / o`, hence `value a = o * value q + r` with `r < o`. -/
theorem div_single_limb_floor_quotient (a : List Nat) (o : Nat) (ha : canonical a)
    (ho : canonical [o]) :
    ∃ q, div a [o] = Except.ok q ∧ value q = value a / o ∧
      ∃ r, value a = o * value q + r ∧ r < o := by
  obtain ⟨q, h1, _, h3⟩ := divAssign_single_spec a o ha ho
  have hvo : value [o] = o := by simp
  rw [hvo] at h3
  have hopos : 0 < o := Nat.pos_of_ne_zero (bounded_of_canonical_singleton ho).2
  refine ⟨q, by rw [div, h1]; rfl, h3, value a % o, ?_, Nat.mod_lt _ hopos⟩
  rw [h3]
  exact (Nat.div_add_mod _ _).symm

/-- Witness for C2: `123456789012345678901234567890 / 987654321`, with the quotient the code
returns and its value. -/
theorem div_single_limb_floor_quotient_witness :
    canonical [234567890, 345678901, 456789012, 123] ∧ canonical [987654321] ∧
    value [234567890, 345678901, 456789012, 123] = 123456789012345678901234567890 ∧
    div [234567890, 345678901, 456789012, 123] [987654321]
      = Except.ok [437499901, 999998873, 124] ∧
    value [437499901, 999998873, 124] = 123456789012345678901234567890 / 987654321 ∧
    ∃ q, div [234567890, 345678901, 456789012, 123] [987654321] = Except.ok q ∧
      value q = value [234567890, 345678901, 456789012, 123] / 987654321 ∧
      ∃ r, value [234567890, 345678901, 456789012, 123] = 987654321 * value q + r ∧
        r < 987654321 :=
  ⟨by decide, by decide, by decide, by rfl, by decide,
    div_single_limb_floor_quotient [234567890, 345678901, 456789012, 123] 987654321
      (by decide) (by decide)⟩

/-- C3: division by zero always fails and changes nothing.  For every receiver `a` (canonical or
not, zero included) `a /= 0` with the empty divisor throws `overflow_error` with the receiver
holding its original limbs, `a / 0` throws `overflow_error`, and so does the private single-limb
division by the native zero. -/
theorem div_by_zero_throws (a : List Nat) :
    divAssign a [] = Outcome.thrown Exn.overflow_error a ∧
    (divAssign a []).repres = a ∧
    div a [] = Except.error Exn.overflow_error ∧
    divAssignInt a 0 = Outcome.thrown Exn.overflow_error a := by
  refine ⟨?_, ?_, ?_, ?_⟩
  · simp [divAssign]
  · simp [divAssign, Outcome.thrown]
  · simp [div, divAssign, Outcome.thrown, Outcome.toExcept]
  · simp [divAssignInt]

/-- C4: subtraction fails exactly on underflow and is otherwise exact.  For canonical `a` and `b`,
`a - b` throws `range_error` if and only if `value a < value b`, and when `value b ≤ value a` it
returns limbs of value `value a - value b`. -/
theorem sub_fails_iff_underflow (a b : List Nat) (ha : canonical a) (hb : canonical b) :
    (sub a b = Except.error Exn.range_error ↔ value a < value b) ∧
    (value b ≤ value a → ∃ r, sub a b = Except.ok r ∧ value r = value a - value b) := by
  obtain ⟨h1, h2⟩ := subAssign_spec a b ha hb
  constructor
  · constructor
    · intro he
      by_contra hcon
      obtain ⟨r, hr, _, _⟩ := h2 (by omega)
      rw [sub, hr] at he
      simp [Outcome.ok, Outcome.toExcept] at he
    · intro hlt
      have := h1 hlt
      simp only [sub, Outcome.toExcept, this]
  · intro hle
    obtain ⟨r, hr, _, hv⟩ := h2 hle
    exact ⟨r, by rw [sub, hr]; rfl, hv⟩

/-- Witness for C4: `5 - 10` throws `range_error` and `10 - 10` is the empty limb sequence. -/
theorem sub_fails_iff_underflow_witness :
    canonical [5] ∧ canonical [10] ∧
    sub [5] [10] = Except.error Exn.range_error ∧ sub [10] [10] = Except.ok [] ∧
    ((sub [5] [10] = Except.error Exn.range_error ↔ value [5] < value [10]) ∧
      (value [10] ≤ value [5] →
        ∃ r, sub [5] [10] = Except.ok r ∧ value r = value [5] - value [10])) :=
  ⟨by decide, by decide, by rfl, by rfl, sub_fails_iff_underflow [5] [10] (by decide) (by decide)⟩

/-- C5, as stated, fails: `a -= b` on `a = [5, 1]`, `b = [6, 1]` (the values `1000000005` and
`1000000006`) throws `range_error` after the limb-wise pass and leaves the receiver holding
`[999999999, 999999999]`. -/
theorem subAssign_receiver_changed_on_throw :
    canonical [5, 1] ∧ canonical [6, 1] ∧
    subAssign [5, 1] [6, 1] = Outcome.thrown Exn.range_error [999999999, 999999999] ∧
    (subAssign [5, 1] [6, 1]).repres ≠ [5, 1] := by
  decide

/-- C5, amended: when `a -= b` throws `range_error` on canonical operands, the receiver keeps its
original limbs if `b` has a single limb or `a` has fewer limbs than `b` (both checks precede the
update); when `b` has at least two limbs and `a` at least as many, the throw follows the
limb-wise pass and the receiver holds the `a.length` limbs of
`value a + RADIX ^ a.length - value b`, which are not the original ones. -/
theorem subAssign_receiver_after_throw (a b : List Nat) (ha : canonical a) (hb : canonical b)
    (hthrow : (subAssign a b).exn = some Exn.range_error) :
    ((b.length ≤ 1 ∨ a.length < b.length) → (subAssign a b).repres = a) ∧
    ((2 ≤ b.length ∧ b.length ≤ a.length) →
      bounded (subAssign a b).repres ∧ (subAssign a b).repres.length = a.length ∧
      value (subAssign a b).repres + value b = value a + RADIX ^ a.length ∧
      (subAssign a b).repres ≠ a) := by
  have hlt : value a < value b := by
    by_contra hcon
    obtain ⟨r, hr, _, _⟩ := (subAssign_spec a b ha hb).2 (by omega)
    rw [hr] at hthrow
    simp [Outcome.ok] at hthrow
  exact (subAssign_thrown_state a b ha hb hlt).2

/-- Witness for the amended C5, on the single-limb path: `[5] -= [10]` throws and leaves `[5]`. -/
theorem subAssign_receiver_after_throw_witness :
    canonical [5] ∧ canonical [10] ∧ (subAssign [5] [10]).exn = some Exn.range_error ∧
    (([10].length ≤ 1 ∨ [5].length < [10].length) → (subAssign [5] [10]).repres = [5]) ∧
    ((2 ≤ [10].length ∧ [10].length ≤ [5].length) →
      bounded (subAssign [5] [10]).repres ∧ (subAssign [5] [10]).repres.length = [5].length ∧
      value (subAssign [5] [10]).repres + value [10] = value [5] + RADIX ^ [5].length ∧
      (subAssign [5] [10]).repres ≠ [5]) :=
  ⟨by decide, by decide, by decide,
    subAssign_receiver_after_throw [5] [10] (by decide) (by decide) (by decide)⟩

/-- C6: canonical form is preserved by addition, subtraction, multiplication, increment and
decrement.  For canonical operands the results of `+`, `+=`, `*`, `*=` and `++` are canonical, and
so is every result of `-`, `-=` and `--` that is returned rather than thrown. -/
theorem canonical_preserved (a b : List Nat) (ha : canonical a) (hb : canonical b) :
    canonical (add a b) ∧ canonical (addAssign a b) ∧
    (∀ r, sub a b = Except.ok r → canonical r) ∧
    ((subAssign a b).exn = none → canonical (subAssign a b).repres) ∧
    canonical (mul a b) ∧ canonical (mulAssign a b) ∧
    canonical (inc a) ∧
    ((dec a).exn = none → canonical (dec a).repres) := by
  have hadd := (addAssign_spec a b ha.1 hb.1).2.2 ha hb
  have hmul := (mul_spec a b ha.1 hb.1).2.2 ha hb
  have hsub : (subAssign a b).exn = none → canonical (subAssign a b).repres := by
    intro hnone
    obtain ⟨h1, h2⟩ := subAssign_spec a b ha hb
    rcases Nat.lt_or_ge (value a) (value b) with hlt | hge
    · rw [h1 hlt] at hnone; simp at hnone
    · obtain ⟨r, hr, hc, _⟩ := h2 hge
      rw [hr]; exact hc
  have hR : RADIX = 1000000000 := rfl
  refine ⟨hadd, hadd, ?_, hsub, hmul, hmul, ?_, ?_⟩
  · intro r hr
    cases he : (subAssign a b).exn with
    | none =>
      have hc := hsub he
      simp only [sub, Outcome.toExcept, he] at hr
      injection hr with hr
      rw [← hr]; exact hc
    | some e =>
      simp only [sub, Outcome.toExcept, he] at hr
      cases hr
  · exact (addAssignInt_spec a 1 ha.1 (by omega)).2.2 ha
  · intro hnone
    obtain ⟨h1, h2⟩ := subAssignInt_spec a 1 ha (by omega)
    rcases Nat.lt_or_ge (value a) 1 with hlt | hge
    · rw [dec, h1 hlt] at hnone; simp [Outcome.thrown] at hnone
    · obtain ⟨r, hr, hc, _⟩ := h2 hge
      rw [dec, hr]; exact hc

/-- Witness for C6, where `-`, `-=` and `--` succeed and every operation changes the limb count
or carries. -/
theorem canonical_preserved_witness :
    canonical [999999999, 999999999] ∧ canonical [1, 999999999] ∧
    sub [999999999, 999999999] [1, 999999999] = Except.ok [999999998] ∧
    (dec [999999999, 999999999]).exn = none ∧
    (canonical (add [999999999, 999999999] [1, 999999999]) ∧
      canonical (addAssign [999999999, 999999999] [1, 999999999]) ∧
      (∀ r, sub [999999999, 999999999] [1, 999999999] = Except.ok r → canonical r) ∧
      ((subAssign [999999999, 999999999] [1, 999999999]).exn = none →
        canonical (subAssign [999999999, 999999999] [1, 999999999]).repres) ∧
      canonical (mul [999999999, 999999999] [1, 999999999]) ∧
      canonical (mulAssign [999999999, 999999999] [1, 999999999]) ∧
      canonical (inc [999999999, 999999999]) ∧
      ((dec [999999999, 999999999]).exn = none → canonical (dec [999999999, 999999999]).repres)) :=
  ⟨by decide, by decide, by rfl, by rfl,
    canonical_preserved [999999999, 999999999] [1, 999999999] (by decide) (by decide)⟩

/-- C7: the quotient of the public division is canonical.  For canonical `a` and non-zero
canonical `b`, `a / b` returns a canonical limb sequence.  Moreover one iteration of the
multi-limb loop, on a normalized divisor `v` of at least two limbs, a canonical remainder below
`v` and a limb `u`, returns normally and stores a quotient limb below `RADIX`, whatever the first
estimate was. -/
theorem div_quotient_canonical (a b v rem : List Nat) (u : Nat) (ha : canonical a)
    (hb : canonical b) (hne : b ≠ []) (hv : canonical v) (hn : 2 ≤ v.length)
    (hnorm : HALF_OF_RADIX ≤ v.getLastD 0) (hrem : canonical rem) (hlt : value rem < value v)
    (hu : u < RADIX) :
    (∃ q, div a b = Except.ok q ∧ canonical q) ∧
    (∃ d r, divStep v rem u = Except.ok (d, r) ∧ d < RADIX) := by
  obtain ⟨q, h1, h2, _⟩ := divAssign_spec a b ha hb hne
  obtain ⟨r, s1, s2, _, _⟩ := divStep_spec v rem u hv hn hnorm hrem hlt hu
  exact ⟨⟨q, by rw [div, h1]; rfl, h2⟩, ⟨_, r, s1, s2⟩⟩

/-- Witness for C7: a loop state whose first estimate
`(500000000 * RADIX + 550000000) / 500000000` is `RADIX + 1`, and the limb the code stores. -/
theorem div_quotient_canonical_witness :
    canonical [234567890, 345678901, 456789012, 123] ∧ canonical [987654321, 123] ∧
    [987654321, 123] ≠ [] ∧ canonical [0, 600000000, 500000000] ∧
    2 ≤ [0, 600000000, 500000000].length ∧
    HALF_OF_RADIX ≤ [0, 600000000, 500000000].getLastD 0 ∧
    canonical [0, 550000000, 500000000] ∧
    value [0, 550000000, 500000000] < value [0, 600000000, 500000000] ∧ 5 < RADIX ∧
    (500000000 * RADIX + 550000000) / 500000000 = RADIX + 1 ∧
    divStep [0, 600000000, 500000000] [0, 550000000, 500000000] 5
      = Except.ok (999999999, [5, 600000000, 450000000]) ∧
    ((∃ q, div [234567890, 345678901, 456789012, 123] [987654321, 123] = Except.ok q ∧
        canonical q) ∧
      (∃ d r, divStep [0, 600000000, 500000000] [0, 550000000, 500000000] 5 = Except.ok (d, r) ∧
        d < RADIX)) :=
  ⟨by decide, by decide, by decide, by decide, by decide, by decide, by decide, by decide,
    by decide, by decide, by rfl,
    div_quotient_canonical [234567890, 345678901, 456789012, 123] [987654321, 123]
      [0, 600000000, 500000000] [0, 550000000, 500000000] 5 (by decide) (by decide) (by decide)
      (by decide) (by decide) (by decide) (by decide) (by decide) (by decide)⟩

/-- C8: addition is exact.  For canonical `a` and `b` the value of `a + b` (and of `a += b`) is
`value a + value b`; the statement covers every path, since `a` and `b` are arbitrary. -/
theorem add_exact (a b : List Nat) (ha : canonical a) (hb : canonical b) :
    value (add a b) = value a + value b ∧ value (addAssign a b) = value a + value b := by
  have h := (addAssign_spec a b ha.1 hb.1).2.1
  exact ⟨h, h⟩

/-- Witness for C8: the first operand shorter than the second, with a carry out of the top limb
that appends a limb equal to `1`. -/
theorem add_exact_witness :
    canonical [1] ∧ canonical [999999999, 999999999] ∧
    add [1] [999999999, 999999999] = [0, 0, 1] ∧
    (value (add [1] [999999999, 999999999]) = value [1] + value [999999999, 999999999] ∧
      value (addAssign [1] [999999999, 999999999])
        = value [1] + value [999999999, 999999999]) :=
  ⟨by decide, by decide, by rfl, add_exact [1] [999999999, 999999999] (by decide) (by decide)⟩

/-- C9: additive identity and inverse.  For canonical `a`, `a + 0` is `a`; for canonical `a` and
`b`, `(a + b) - b` does not throw and is equal to `a` as a limb sequence (`operator==`).  The
hypothesis `a ≥ b` of the claim is not needed. -/
theorem add_identity_and_inverse (a b : List Nat) (ha : canonical a) (hb : canonical b) :
    add a [] = a ∧ eq (add a []) a = true ∧
    ∃ r, sub (add a b) b = Except.ok r ∧ r = a ∧ eq r a = true := by
  obtain ⟨s1, s2, s3⟩ := addAssign_spec a b ha.1 hb.1
  have hc := s3 ha hb
  obtain ⟨_, h2⟩ := subAssign_spec (addAssign a b) b hc hb
  obtain ⟨r, hr, hrc, hrv⟩ := h2 (by rw [s2]; omega)
  have hra : r = a := by
    apply canonical_ext hrc ha
    rw [hrv, s2]; omega
  refine ⟨rfl, by simp [eq, add, addAssign], r, ?_, hra, by simp [eq, hra]⟩
  rw [sub, add, hr]; rfl

/-- Witness for C9, with a carry into a new limb undone by the subtraction. -/
theorem add_identity_and_inverse_witness :
    canonical [999999999, 999999999] ∧ canonical [1, 999999999] ∧
    sub (add [999999999, 999999999] [1, 999999999]) [1, 999999999]
      = Except.ok [999999999, 999999999] ∧
    (add [999999999, 999999999] [] = [999999999, 999999999] ∧
      eq (add [999999999, 999999999] []) [999999999, 999999999] = true ∧
      ∃ r, sub (add [999999999, 999999999] [1, 999999999]) [1, 999999999] = Except.ok r ∧
        r = [999999999, 999999999] ∧ eq r [999999999, 999999999] = true) :=
  ⟨by decide, by decide, by rfl,
    add_identity_and_inverse [999999999, 999999999] [1, 999999999] (by decide) (by decide)⟩

/-- C10: multiplication is exact.  For canonical `a` and `b` the value of `a * b` (and of
`a *= b`) is `value a * value b`, and the result has at most `a.length + b.length` limbs; the
statement covers the zero-operand path, the single-limb path and the schoolbook path with its
skipped zero limbs, since `a` and `b` are arbitrary. -/
theorem mul_exact (a b : List Nat) (ha : canonical a) (hb : canonical b) :
    value (mul a b) = value a * value b ∧ (mul a b).length ≤ a.length + b.length ∧
    value (mulAssign a b) = value a * value b := by
  obtain ⟨h1, h2, _⟩ := mul_spec a b ha.1 hb.1
  exact ⟨h1, h2, h1⟩

/-- Witness for C10: the schoolbook path with a zero limb of the second operand skipped. -/
theorem mul_exact_witness :
    canonical [999999999, 999999999] ∧ canonical [0, 999999999] ∧
    mul [999999999, 999999999] [0, 999999999] = [0, 1, 999999999, 999999998] ∧
    (value (mul [999999999, 999999999] [0, 999999999])
        = value [999999999, 999999999] * value [0, 999999999] ∧
      (mul [999999999, 999999999] [0, 999999999]).length
        ≤ [999999999, 999999999].length + [0, 999999999].length ∧
      value (mulAssign [999999999, 999999999] [0, 999999999])
        = value [999999999, 999999999] * value [0, 999999999]) :=
  ⟨by decide, by decide, by rfl,
    mul_exact [999999999, 999999999] [0, 999999999] (by decide) (by decide)⟩

/-! ## The other relational operators -/

theorem mismatch_spec_gt : ∀ (xs ys : List Nat), xs.length = ys.length → bounded xs → bounded ys →
    match mismatch xs ys with
    | none => True
    | some (x, y) => (x > y ↔ value xs.reverse > value ys.reverse)
  | [], [], _, _, _ => by simp [mismatch]
  | [], _ :: _, h, _, _ => by simp at h
  | _ :: _, [], h, _, _ => by simp at h
  | x :: xs, y :: ys, hlen, hx, hy => by
    have hlen2 : xs.length = ys.length := by simpa using hlen
    have hxs := (bounded_cons.1 hx).2
    have hys := (bounded_cons.1 hy).2
    have ih := mismatch_spec_gt xs ys hlen2 hxs hys
    have b1 := value_lt_pow (bounded_reverse hxs)
    have b2 := value_lt_pow (bounded_reverse hys)
    rw [List.length_reverse] at b1 b2
    simp only [mismatch]
    by_cases hxy : x = y
    · subst hxy
      simp only [if_true]
      rw [value_reverse_cons, value_reverse_cons, hlen2]
      cases hm : mismatch xs ys with
      | none => trivial
      | some p =>
        rw [hm] at ih
        obtain ⟨p1, p2⟩ := p
        simp only at ih ⊢
        rw [ih]
        omega
    · simp only [hxy, if_false]
      rw [value_reverse_cons, value_reverse_cons, ← hlen2]
      constructor
      · intro hgt
        have : RADIX ^ xs.length * (y + 1) ≤ RADIX ^ xs.length * x := Nat.mul_le_mul_left _ hgt
        rw [Nat.mul_add, Nat.mul_one] at this
        rw [hlen2] at b1 this ⊢
        omega
      · intro hgt
        by_contra hle
        have hxy2 : x + 1 ≤ y := by omega
        have : RADIX ^ xs.length * (x + 1) ≤ RADIX ^ xs.length * y := Nat.mul_le_mul_left _ hxy2
        rw [Nat.mul_add, Nat.mul_one] at this
        omega

/-- What `std::mismatch` over the reversed limbs of two canonical operands of equal length says
about their values. -/
theorem mismatch_values (a b : List Nat) (ha : canonical a) (hb : canonical b)
    (hlen : a.length = b.length) :
    match mismatch a.reverse b.reverse with
    | none => value a = value b
    | some (x, y) => (x < y ↔ value a < value b) ∧ (x > y ↔ value a > value b) := by
  have hl : a.reverse.length = b.reverse.length := by simp [hlen]
  have h1 := mismatch_spec a.reverse b.reverse hl (bounded_reverse ha.1) (bounded_reverse hb.1)
  have h2 := mismatch_spec_gt a.reverse b.reverse hl (bounded_reverse ha.1)
    (bounded_reverse hb.1)
  rw [List.reverse_reverse, List.reverse_reverse] at h1 h2
  cases hm : mismatch a.reverse b.reverse with
  | none => rw [hm] at h1; exact h1
  | some p =>
    rw [hm] at h1 h2
    obtain ⟨p1, p2⟩ := p
    exact ⟨h1, h2⟩

theorem gt_spec (a b : List Nat) (ha : canonical a) (hb : canonical b) :
    gt a b = decide (value a > value b) := by
  simp only [gt]
  by_cases h1 : a.length > b.length
  · have := value_lt_of_length_lt hb.1 ha h1
    simp only [h1, if_true]
    symm
    simpa using this
  · simp only [h1, if_false]
    by_cases h2 : a.length < b.length
    · have := value_lt_of_length_lt ha.1 hb h2
      simp only [h2, if_true]
      symm
      simp only [decide_eq_false_iff_not]
      omega
    · simp only [h2, if_false]
      have hm := mismatch_values a b ha hb (by omega)
      cases hmm : mismatch a.reverse b.reverse with
      | none =>
        rw [hmm] at hm
        simp only at hm ⊢
        symm
        simp only [decide_eq_false_iff_not]
        omega
      | some p =>
        rw [hmm] at hm
        obtain ⟨p1, p2⟩ := p
        simp only at hm ⊢
        exact decide_eq_decide.2 hm.2

theorem le_spec (a b : List Nat) (ha : canonical a) (hb : canonical b) :
    le a b = decide (value a ≤ value b) := by
  simp only [le]
  by_cases h1 : a.length > b.length
  · have := value_lt_of_length_lt hb.1 ha h1
    simp only [h1, if_true]
    symm
    simp only [decide_eq_false_iff_not]
    omega
  · simp only [h1, if_false]
    by_cases h2 : a.length < b.length
    · have := value_lt_of_length_lt ha.1 hb h2
      simp only [h2, if_true]
      symm
      simp only [decide_eq_true_eq]
      omega
    · simp only [h2, if_false]
      have hm := mismatch_values a b ha hb (by omega)
      cases hmm : mismatch a.reverse b.reverse with
      | none =>
        rw [hmm] at hm
        simp only at hm ⊢
        symm
        simp only [decide_eq_true_eq]
        omega
      | some p =>
        rw [hmm] at hm
        obtain ⟨p1, p2⟩ := p
        simp only at hm ⊢
        apply decide_eq_decide.2
        constructor
        · intro h; have := hm.1.1 h; omega
        · intro h
          by_contra hcon
          have : p1 > p2 ∨ p1 = p2 := by omega
          rcases this with h3 | h3
          · have := hm.2.1 h3; omega
          · have hne : value a ≠ value b := by
              intro heq
              have := canonical_ext ha hb heq
              subst this
              have hself : ∀ l : List Nat, mismatch l l = none := by
                intro l
                induction l with
                | nil => rfl
                | cons x xs ih => simp [mismatch, ih]
              rw [hself] at hmm
              cases hmm
            have : value a < value b := by omega
            have := hm.1.2 this
            omega

theorem ge_spec (a b : List Nat) (ha : canonical a) (hb : canonical b) :
    ge a b = decide (value a ≥ value b) := by
  simp only [ge]
  by_cases h1 : a.length > b.length
  · have := value_lt_of_length_lt hb.1 ha h1
    simp only [h1, if_true]
    symm
    simp only [decide_eq_true_eq]
    omega
  · simp only [h1, if_false]
    by_cases h2 : a.length < b.length
    · have := value_lt_of_length_lt ha.1 hb h2
      simp only [h2, if_true]
      symm
      simp only [decide_eq_false_iff_not]
      omega
    · simp only [h2, if_false]
      have hm := mismatch_values a b ha hb (by omega)
      cases hmm : mismatch a.reverse b.reverse with
      | none =>
        rw [hmm] at hm
        simp only at hm ⊢
        symm
        simp only [decide_eq_true_eq]
        omega
      | some p =>
        rw [hmm] at hm
        obtain ⟨p1, p2⟩ := p
        simp only at hm ⊢
        apply decide_eq_decide.2
        constructor
        · intro h; have := hm.2.1 h; omega
        · intro h
          by_contra hcon
          have : p1 < p2 ∨ p1 = p2 := by omega
          rcases this with h3 | h3
          · have := hm.1.1 h3; omega
          · have hne : value a ≠ value b := by
              intro heq
              have := canonical_ext ha hb heq
              subst this
              have hself : ∀ l : List Nat, mismatch l l = none := by
                intro l
                induction l with
                | nil => rfl
                | cons x xs ih => simp [mismatch, ih]
              rw [hself] at hmm
              cases hmm
            have : value a > value b := by omega
            have := hm.2.2 this
            omega

theorem eq_spec (a b : List Nat) (ha : canonical a) (hb : canonical b) :
    eq a b = decide (value a = value b) := by
  simp only [eq]
  apply decide_eq_decide.2
  constructor
  · intro h; rw [h]
  · intro h; exact canonical_ext ha hb h

/-! ## Construction from a native integer -/

theorem ofNative_spec : ∀ (fuel n : Nat), n ≤ fuel →
    canonical (ofNative fuel n) ∧ value (ofNative fuel n) = n
  | 0, n, h => by
    have : n = 0 := by omega
    subst this
    exact ⟨canonical_nil, rfl⟩
  | fuel + 1, n, h => by
    by_cases h0 : n = 0
    · subst h0
      simp only [ofNative, if_true]
      exact ⟨canonical_nil, rfl⟩
    · have hR : RADIX = 1000000000 := rfl
      have hdiv : n / RADIX ≤ fuel := by
        have : n / RADIX < n := Nat.div_lt_self (Nat.pos_of_ne_zero h0) (by omega)
        omega
      obtain ⟨i1, i2⟩ := ofNative_spec fuel (n / RADIX) hdiv
      simp only [ofNative, h0, if_false]
      have hval : value (n % RADIX :: ofNative fuel (n / RADIX)) = n := by
        rw [value_cons, i2]; exact Nat.mod_add_div n RADIX
      refine ⟨⟨bounded_cons.2 ⟨Nat.mod_lt _ RADIX_pos, i1.1⟩, ?_⟩, hval⟩
      cases hl : ofNative fuel (n / RADIX) with
      | nil =>
        rw [hl] at i2
        simp only [value_nil] at i2
        have : n % RADIX = n := by
          have := Nat.mod_add_div n RADIX
          rw [← i2] at this; omega
        simp only [List.getLast?_singleton, ne_eq, Option.some.injEq]
        omega
      | cons y ys =>
        rw [getLast?_cons_cons, ← hl]
        exact i1.2

theorem ofNative_fuel (fuel n : Nat) (h : n ≤ fuel) : ofNative fuel n = ofNative n n :=
  canonical_ext (ofNative_spec fuel n h).1 (ofNative_spec n n (le_refl n)).1
    (by rw [(ofNative_spec fuel n h).2, (ofNative_spec n n (le_refl n)).2])

theorem one_eq : ofNative 1 1 = [1] := by
  simp [ofNative, RADIX]

/-! ## Decimal text -/

theorem toDigitsCore_eq_decRev : ∀ (fuel n : Nat) (acc : List Char), n < fuel →
    Nat.toDigitsCore 10 fuel n acc = (decRev fuel n).reverse ++ acc
  | 0, n, acc, h => by omega
  | fuel + 1, n, acc, h => by
    simp only [Nat.toDigitsCore, decRev]
    by_cases h0 : n / 10 = 0
    · simp [h0]
    · simp only [h0, if_false]
      have hlt : n / 10 < fuel := by omega
      rw [toDigitsCore_eq_decRev fuel (n / 10) _ hlt]
      simp

theorem decRev_fuel : ∀ (f1 f2 n : Nat), n < f1 → n < f2 → decRev f1 n = decRev f2 n
  | 0, _, n, h, _ => by omega
  | _ + 1, 0, n, _, h => by omega
  | f1 + 1, f2 + 1, n, h1, h2 => by
    simp only [decRev]
    by_cases h0 : n / 10 = 0
    · simp [h0]
    · simp only [h0, if_false]
      rw [decRev_fuel f1 f2 (n / 10) (by omega) (by omega)]

theorem toDigits_eq_decRev (n : Nat) : Nat.toDigits 10 n = (decRev (n + 1) n).reverse := by
  rw [Nat.toDigits, toDigitsCore_eq_decRev _ _ _ (Nat.lt_succ_self n)]
  simp

theorem toDigits_lt_ten (n : Nat) (h : n < 10) : Nat.toDigits 10 n = [Nat.digitChar n] := by
  rw [toDigits_eq_decRev]
  have h0 : n / 10 = 0 := Nat.div_eq_of_lt h
  have h1 : n % 10 = n := Nat.mod_eq_of_lt h
  simp [decRev, h0, h1]

theorem toDigits_ge_ten (n : Nat) (h : 10 ≤ n) :
    Nat.toDigits 10 n = Nat.toDigits 10 (n / 10) ++ [Nat.digitChar (n % 10)] := by
  have h0 : n / 10 ≠ 0 := by omega
  have e : decRev (n + 1) n = Nat.digitChar (n % 10) :: decRev n (n / 10) := by
    simp only [decRev, h0, if_false]
  rw [toDigits_eq_decRev, toDigits_eq_decRev, e, List.reverse_cons,
    decRev_fuel n (n / 10 + 1) (n / 10) (by omega) (by omega)]

theorem toDigits_split : ∀ (k n : Nat), 10 ^ k ≤ n → 0 < n →
    Nat.toDigits 10 n = Nat.toDigits 10 (n / 10 ^ k) ++ padDigits k (n % 10 ^ k)
  | 0, n, _, _ => by simp [padDigits]
  | k + 1, n, h, _ => by
    have hk : 0 < 10 ^ k := Nat.pos_pow_of_pos _ (by omega)
    have hp : 10 ^ (k + 1) = 10 * 10 ^ k := by rw [pow_succ, Nat.mul_comm]
    have h10 : 10 ≤ n := by omega
    have hk2 : 10 ^ k ≤ n / 10 := by
      rw [Nat.le_div_iff_mul_le (by omega)]; omega
    rw [toDigits_ge_ten n h10, toDigits_split k (n / 10) hk2 (by omega)]
    simp only [padDigits, List.append_assoc]
    have e1 : n / 10 / 10 ^ k = n / 10 ^ (k + 1) := by
      rw [Nat.div_div_eq_div_mul, hp]
    have e2 : n % 10 ^ (k + 1) / 10 = n / 10 % 10 ^ k := by
      rw [hp, Nat.mod_mul_right_div_self]
    have e3 : n % 10 ^ (k + 1) % 10 = n % 10 := by
      rw [hp]; exact Nat.mod_mul_right_mod _ _ _
    rw [e1, e2, e3]

theorem padDigits_zero : ∀ k : Nat, padDigits k 0 = List.replicate k '0'
  | 0 => rfl
  | k + 1 => by
    simp only [padDigits, Nat.zero_div, Nat.zero_mod, padDigits_zero k]
    rw [List.replicate_succ']
    rfl

theorem toDigits_length_pos (n : Nat) : 0 < (Nat.toDigits 10 n).length := by
  rcases Nat.lt_or_ge n 10 with h | h
  · rw [toDigits_lt_ten n h]; simp
  · rw [toDigits_ge_ten n h]; simp

/-- Left padding with `'0'` to a width of `k + 1`, as `setfill` and `setw` do, gives the
`k + 1` digits of a number below `10 ^ (k + 1)`. -/
theorem pad_eq_padDigits : ∀ (k m : Nat), m < 10 ^ (k + 1) →
    List.replicate (k + 1 - (Nat.toDigits 10 m).length) '0' ++ Nat.toDigits 10 m
      = padDigits (k + 1) m
  | 0, m, h => by
    have hm : m < 10 := by simpa using h
    rw [toDigits_lt_ten m hm]
    simp [padDigits, Nat.mod_eq_of_lt hm]
  | k + 1, m, h => by
    rcases Nat.lt_or_ge m 10 with hm | hm
    · rw [toDigits_lt_ten m hm]
      have h0 : m / 10 = 0 := Nat.div_eq_of_lt hm
      have h1 : m % 10 = m := Nat.mod_eq_of_lt hm
      have e : padDigits (k + 1 + 1) m = padDigits (k + 1) 0 ++ [Nat.digitChar m] := by
        simp only [padDigits, h0, h1, Nat.zero_div, Nat.zero_mod]
      rw [e, padDigits_zero]
      simp
    · have hlt : m / 10 < 10 ^ (k + 1) := by
        rw [Nat.div_lt_iff_lt_mul (by omega)]
        rw [pow_succ] at h
        exact h
      have ih := pad_eq_padDigits k (m / 10) hlt
      rw [toDigits_ge_ten m hm]
      have e : padDigits (k + 1 + 1) m = padDigits (k + 1) (m / 10) ++ [Nat.digitChar (m % 10)] := by
        simp only [padDigits]
      rw [e, ← ih]
      simp only [List.length_append, List.length_singleton, List.append_assoc]
      have : k + 1 + 1 - ((Nat.toDigits 10 (m / 10)).length + 1)
          = k + 1 - (Nat.toDigits 10 (m / 10)).length := by omega
      rw [this]

theorem putPadded_eq (x : Nat) (h : x < RADIX) : putPadded x = padDigits 9 x := by
  simp only [putPadded]
  exact pad_eq_padDigits 8 x (by simpa [RADIX] using h)

theorem renderRest_append (l : List Nat) (x : Nat) :
    renderRest (l ++ [x]) = renderRest l ++ putPadded x := by
  induction l with
  | nil => simp [renderRest]
  | cons y ys ih => simp [renderRest, ih]

theorem render_cons (x : Nat) (l : List Nat) (hne : l ≠ []) :
    render (x :: l) = render l ++ putPadded x := by
  simp only [render, List.reverse_cons]
  cases hl : l.reverse with
  | nil =>
    have : l = [] := by simpa using hl
    exact absurd this hne
  | cons top rest =>
    simp only [List.cons_append]
    rw [renderRest_append, List.append_assoc]

/-- The text written for a canonical value is the decimal text of the value. -/
theorem render_spec : ∀ (l : List Nat), canonical l → render l = Nat.toDigits 10 (value l)
  | [], _ => by decide
  | [x], _ => by
    simp [render, renderRest, putNative]
  | x :: y :: ys, h => by
    have hx := (bounded_cons.1 h.1).1
    have hc := canonical_tail h
    have ih := render_spec (y :: ys) hc
    have hpos : 0 < value (y :: ys) := by
      have := value_ge_pow (by simp) hc.2
      have : 0 < RADIX ^ ((y :: ys).length - 1) := Nat.pos_pow_of_pos _ RADIX_pos
      omega
    have hR : RADIX = 10 ^ 9 := by unfold RADIX; norm_num
    rw [render_cons x (y :: ys) (by simp), ih, putPadded_eq x hx]
    have hn : value (x :: y :: ys) = x + RADIX * value (y :: ys) := rfl
    have hge : 10 ^ 9 ≤ value (x :: y :: ys) := by
      rw [hn, ← hR]
      have : RADIX * 1 ≤ RADIX * value (y :: ys) := Nat.mul_le_mul_left _ hpos
      omega
    rw [toDigits_split 9 (value (x :: y :: ys)) hge (by omega)]
    have e1 : value (x :: y :: ys) / 10 ^ 9 = value (y :: ys) := by
      rw [hn, ← hR, Nat.add_mul_div_left _ _ RADIX_pos, Nat.div_eq_of_lt hx, Nat.zero_add]
    have e2 : value (x :: y :: ys) % 10 ^ 9 = x := by
      rw [hn, ← hR, Nat.add_mul_mod_self_left, Nat.mod_eq_of_lt hx]
    rw [e1, e2]

/-! ## `operator>>` -/

theorem digit_facts {c : Char} (h : isDigit c) :
    wsub c.toNat 48 = c.toNat - 48 ∧ c.toNat - 48 ≤ 9 := by
  have hW : WORD = 18446744073709551616 := rfl
  obtain ⟨h1, h2⟩ := h
  exact ⟨wsub_eq h1 (by omega), by omega⟩

theorem RADIX_eq_pow : RADIX = 10 ^ 9 := by unfold RADIX; norm_num

theorem parseLoop_spec : ∀ (cs : List Char) (done : List Nat) (cur digit j : Nat),
    (∀ c ∈ cs, isDigit c) → bounded done → digit = 10 ^ j → j ≤ 9 → cur < 10 ^ j →
    bounded (parseLoop cs done cur digit) ∧
    value (parseLoop cs done cur digit)
      = value done + RADIX ^ done.length * (cur + 10 ^ j * denoteLE cs)
  | [], done, cur, digit, j, _, hb, _, hj, hcur => by
    have hp : 10 ^ j ≤ 10 ^ 9 := Nat.pow_le_pow_right (by omega) hj
    simp only [parseLoop, denoteLE, Nat.mul_zero, Nat.add_zero]
    refine ⟨bounded_append.2 ⟨hb, ?_⟩, ?_⟩
    · intro y hy
      simp only [List.mem_singleton] at hy
      rw [hy, RADIX_eq_pow]; omega
    · rw [value_append]; simp
  | c :: cs, done, cur, digit, j, hd, hb, hdig, hj, hcur => by
    have hc : isDigit c := hd c (by simp)
    have hcs : ∀ c ∈ cs, isDigit c := fun c hc => hd c (by simp [hc])
    obtain ⟨d1, d2⟩ := digit_facts hc
    have hW : WORD = 18446744073709551616 := rfl
    have hR : RADIX = 1000000000 := rfl
    simp only [denoteLE]
    generalize c.toNat - 48 = d at d1 d2 ⊢
    by_cases h9 : j = 9
    · subst h9
      have hdv : digit = 1000000000 := by rw [hdig]; norm_num
      have hcond : digit ≥ RADIX := by omega
      have e1 : wmul d 1 = d := by rw [wmul_eq (by omega)]; omega
      have e2 : wadd 0 d = d := by rw [wadd_eq (by omega)]; omega
      have e3 : wmul 1 10 = 10 ^ 1 := by rw [wmul_eq (by omega)]; norm_num
      have hcur2 : cur < RADIX := by rw [RADIX_eq_pow]; exact hcur
      have hb2 : bounded (done ++ [cur]) := by
        refine bounded_append.2 ⟨hb, ?_⟩
        intro y hy
        simp only [List.mem_singleton] at hy
        rw [hy]; exact hcur2
      obtain ⟨i1, i2⟩ := parseLoop_spec cs (done ++ [cur]) d (10 ^ 1) 1 hcs hb2 rfl (by omega)
        (by norm_num; omega)
      simp only [parseLoop, hcond, if_true, d1, e1, e2, e3]
      refine ⟨i1, ?_⟩
      rw [i2, value_append, List.length_append, List.length_singleton, pow_succ, ← RADIX_eq_pow]
      simp only [value_cons, value_nil, Nat.mul_zero, Nat.add_zero]
      ring
    · have hj8 : j ≤ 8 := by omega
      have hp : 10 ^ j ≤ 10 ^ 8 := Nat.pow_le_pow_right (by omega) hj8
      have hp8 : (10 : Nat) ^ 8 = 100000000 := by norm_num
      rw [hp8] at hp
      have hcond : ¬ digit ≥ RADIX := by omega
      have hdd : d * 10 ^ j ≤ 9 * 10 ^ j := Nat.mul_le_mul_right _ d2
      have e1 : wmul d digit = d * 10 ^ j := by rw [hdig]; exact wmul_eq (by omega)
      have e2 : wadd cur (d * 10 ^ j) = cur + d * 10 ^ j := wadd_eq (by omega)
      have e3 : wmul digit 10 = 10 ^ (j + 1) := by
        rw [hdig, wmul_eq (by omega), pow_succ]
      have hcur2 : cur + d * 10 ^ j < 10 ^ (j + 1) := by rw [pow_succ]; omega
      obtain ⟨i1, i2⟩ := parseLoop_spec cs done (cur + d * 10 ^ j) (10 ^ (j + 1)) (j + 1) hcs hb
        rfl (by omega) hcur2
      simp only [parseLoop, hcond, if_false, d1, e1, e2, e3]
      refine ⟨i1, ?_⟩
      rw [i2, pow_succ]
      ring

theorem skipZeros_spec : ∀ (m : List Nat), bounded m →
    canonical (skipZeros m).reverse ∧ value (skipZeros m).reverse = value m.reverse
  | [], _ => ⟨canonical_nil, rfl⟩
  | x :: xs, h => by
    have hxs := (bounded_cons.1 h).2
    by_cases h0 : x = 0
    · subst h0
      obtain ⟨i1, i2⟩ := skipZeros_spec xs hxs
      simp only [skipZeros, if_true]
      refine ⟨i1, ?_⟩
      rw [i2, value_reverse_cons]; simp
    · simp only [skipZeros, h0, if_false]
      refine ⟨⟨bounded_reverse h, ?_⟩, trivial⟩
      rw [List.getLast?_reverse]
      simpa using h0

theorem denote_append (s : List Char) (c : Char) :
    denote (s ++ [c]) = denote s * 10 + (c.toNat - 48) := by
  simp [denote, List.foldl_append]

theorem denote_eq_denoteLE (s : List Char) : denote s = denoteLE s.reverse := by
  induction s using List.reverseRecOn with
  | nil => rfl
  | append_singleton s c ih =>
    rw [denote_append, List.reverse_append, List.reverse_singleton, List.singleton_append,
      denoteLE, ih]
    ring

theorem parse_start (prev : List Nat) :
    (prev.take 1 ++ List.replicate (1 - prev.length) 0).dropLast ++ [0] = [0] := by
  cases prev with
  | nil => rfl
  | cons x xs => simp

/-- Parsing a string of decimal digits gives the canonical limbs of the number it denotes,
whatever the object held before. -/
theorem parse_spec (prev : List Nat) (s : List Char) (hs : ∀ c ∈ s, isDigit c) :
    canonical (parse prev s) ∧ value (parse prev s) = denote s := by
  have hrev : ∀ c ∈ s.reverse, isDigit c := fun c hc => hs c (List.mem_reverse.1 hc)
  obtain ⟨i1, i2⟩ := parseLoop_spec s.reverse [] 0 1 0 hrev bounded_nil rfl (by omega)
    (by norm_num)
  simp only [value_nil, List.length_nil, pow_zero, Nat.one_mul, Nat.zero_add] at i2
  obtain ⟨k1, k2⟩ := skipZeros_spec (parseLoop s.reverse [] 0 1).reverse (bounded_reverse i1)
  rw [List.reverse_reverse] at k2
  have e : parse prev s = (skipZeros (parseLoop s.reverse [] 0 1).reverse).reverse := by
    simp only [parse, parse_start]
    rfl
  rw [e]
  exact ⟨k1, by rw [k2, i2, denote_eq_denoteLE]⟩

/-! ## Reading back what was written -/

theorem digitChar_facts (d : Nat) (h : d < 10) :
    isDigit (Nat.digitChar d) ∧ (Nat.digitChar d).toNat - 48 = d := by
  have : d = 0 ∨ d = 1 ∨ d = 2 ∨ d = 3 ∨ d = 4 ∨ d = 5 ∨ d = 6 ∨ d = 7 ∨ d = 8 ∨ d = 9 := by
    omega
  rcases this with h | h | h | h | h | h | h | h | h | h <;> subst h <;>
    exact ⟨by unfold isDigit; decide, by decide⟩

theorem toDigits_spec (n : Nat) :
    (∀ c ∈ Nat.toDigits 10 n, isDigit c) ∧ denote (Nat.toDigits 10 n) = n := by
  induction n using Nat.strong_induction_on with
  | _ n ih =>
    rcases Nat.lt_or_ge n 10 with h | h
    · obtain ⟨f1, f2⟩ := digitChar_facts n h
      rw [toDigits_lt_ten n h]
      refine ⟨?_, ?_⟩
      · intro c hc
        simp only [List.mem_singleton] at hc
        rw [hc]; exact f1
      · simp [denote, f2]
    · obtain ⟨f1, f2⟩ := digitChar_facts (n % 10) (Nat.mod_lt _ (by omega))
      obtain ⟨i1, i2⟩ := ih (n / 10) (by omega)
      rw [toDigits_ge_ten n h]
      refine ⟨?_, ?_⟩
      · intro c hc
        rcases List.mem_append.1 hc with h1 | h1
        · exact i1 c h1
        · simp only [List.mem_singleton] at h1
          rw [h1]; exact f1
      · rw [denote_append, i2, f2]
        omega

/-- Parsing inverts rendering on canonical values. -/
theorem parse_render (prev x : List Nat) (hx : canonical x) : parse prev (render x) = x := by
  rw [render_spec x hx]
  obtain ⟨t1, t2⟩ := toDigits_spec (value x)
  obtain ⟨p1, p2⟩ := parse_spec prev _ t1
  exact canonical_ext p1 hx (by rw [p2, t2])

/-! ## `power_eq` -/

theorem canonical_single {x : Nat} (h0 : x ≠ 0) (hx : x < RADIX) : canonical [x] := by
  refine ⟨?_, by simpa using h0⟩
  intro y hy
  simp only [List.mem_singleton] at hy
  rw [hy]; exact hx

theorem dec_single (x : Nat) (h2 : 2 ≤ x) (hx : x < RADIX) :
    dec [x] = Outcome.ok [x - 1] := by
  have hR : RADIX = 1000000000 := rfl
  obtain ⟨r, e, c, v⟩ := (subAssignInt_spec [x] 1 (canonical_single (by omega) hx)
    (by omega)).2 (by simp; omega)
  have : r = [x - 1] := canonical_ext c (canonical_single (by omega) (by omega)) (by simp [v])
  rw [dec, e, this]

theorem half_single (x : Nat) : divAssignInt [x] 2 = Outcome.ok [x / 2] := by
  simp [divAssignInt]

theorem gt_single_one (y : Nat) (h0 : y ≠ 0) (hy : y < RADIX) :
    gt [y] (ofNative 1 1) = decide (y > 1) := by
  rw [one_eq, gt_spec [y] [1] (canonical_single h0 hy) (canonical_single (by omega)
    (by unfold RADIX; omega))]
  simp

theorem mulAssign_canonical (a b : List Nat) (ha : canonical a) (hb : canonical b) :
    canonical (mulAssign a b) ∧ value (mulAssign a b) = value a * value b :=
  ⟨(mul_spec a b ha.1 hb.1).2.2 ha hb, (mul_spec a b ha.1 hb.1).1⟩

theorem getLastD_single (x d : Nat) : [x].getLastD d = x := rfl

theorem powBody_odd (increm base : List Nat) (x : Nat) (h2 : 2 ≤ x) (hx : x < RADIX)
    (hodd : x % 2 = 1) :
    powBody { increm := increm, base := base, residue := [x] }
      = ({ increm := mulAssign increm base, base := base, residue := [x - 1] }, none) := by
  simp only [powBody, getLastD_single, hodd, if_true, dec_single x h2 hx, Outcome.ok]

theorem powBody_even (increm base : List Nat) (x : Nat) (heven : x % 2 = 0) :
    powBody { increm := increm, base := base, residue := [x] }
      = ({ increm := increm, base := mulAssign base base, residue := [x / 2] }, none) := by
  have : ¬ x % 2 = 1 := by omega
  simp only [powBody, getLastD_single, this, if_false, half_single x, Outcome.ok]

theorem powLoop_succ (fuel : Nat) (st st2 : PowState) (h : powBody st = (st2, none)) :
    powLoop (fuel + 1) st
      = if gt st2.residue (ofNative 1 1) then powLoop fuel st2 else some (st2, none) := by
  simp only [powLoop, h]

/-- On a one-limb exponent `x ≥ 2` the loop of `power_eq` ends, within `x` rounds, with the
residue one and `increm * base` equal to the initial `increm * base ^ x`. -/
theorem powLoop_single : ∀ (x : Nat), 2 ≤ x → x < RADIX → ∀ (fuel : Nat), x ≤ fuel →
    ∀ (increm base : List Nat), canonical increm → canonical base →
    ∃ st, powLoop fuel { increm := increm, base := base, residue := [x] } = some (st, none) ∧
      st.residue = [1] ∧ canonical st.increm ∧ canonical st.base ∧
      value st.increm * value st.base = value increm * value base ^ x := by
  intro x
  induction x using Nat.strong_induction_on with
  | _ x ih =>
    intro h2 hx fuel hf increm base hi hb
    have hR : RADIX = 1000000000 := rfl
    obtain ⟨f, rfl⟩ : ∃ f, fuel = f + 1 := ⟨fuel - 1, by omega⟩
    rcases Nat.mod_two_eq_zero_or_one x with hpar | hpar
    · rw [powLoop_succ f _ _ (powBody_even increm base x hpar)]
      simp only
      rw [gt_single_one (x / 2) (by omega) (by omega)]
      obtain ⟨mc, mv⟩ := mulAssign_canonical base base hb hb
      have hx2 : x = 2 * (x / 2) := by omega
      by_cases hbig : x / 2 > 1
      · simp only [hbig, decide_True, if_true]
        obtain ⟨st, e1, e2, e3, e4, e5⟩ := ih (x / 2) (by omega) (by omega) (by omega) f
          (by omega) increm (mulAssign base base) hi mc
        refine ⟨st, e1, e2, e3, e4, ?_⟩
        rw [e5, mv]
        conv_rhs => rw [hx2, pow_mul]
        rw [pow_two]
      · have h1 : x / 2 = 1 := by omega
        simp only [hbig, decide_False, if_false, Bool.false_eq_true]
        refine ⟨_, rfl, by rw [h1], hi, mc, ?_⟩
        simp only
        have hx3 : x = 2 := by omega
        rw [mv, hx3, pow_two]
    · rw [powLoop_succ f _ _ (powBody_odd increm base x h2 hx hpar)]
      simp only
      rw [gt_single_one (x - 1) (by omega) (by omega)]
      have hbig : x - 1 > 1 := by omega
      simp only [hbig, decide_True, if_true]
      obtain ⟨mc, mv⟩ := mulAssign_canonical increm base hi hb
      obtain ⟨st, e1, e2, e3, e4, e5⟩ := ih (x - 1) (by omega) (by omega) (by omega) f
        (by omega) (mulAssign increm base) base mc hb
      refine ⟨st, e1, e2, e3, e4, ?_⟩
      rw [e5, mv]
      have hx3 : x = (x - 1) + 1 := by omega
      conv_rhs => rw [hx3, pow_succ]
      ring

theorem power_eq_zero_base (fuel : Nat) (e : List Nat) (he : e ≠ []) :
    power_eq fuel [] e = some (Outcome.ok []) := by
  cases e with
  | nil => exact absurd rfl he
  | cons x xs => simp [power_eq]

theorem power_eq_zero_exp (fuel : Nat) (b : List Nat) (hb : b ≠ []) :
    power_eq fuel b [] = some (Outcome.ok [1]) := by
  cases b with
  | nil => exact absurd rfl hb
  | cons x xs =>
    by_cases h1 : eq (x :: xs) (ofNative 1 1) = true
    · have h2 : x :: xs = [1] := by simpa [eq, one_eq] using h1
      rw [h2] at h1 ⊢
      simp only [power_eq, h1, if_true, List.isEmpty_cons, Bool.false_eq_true, if_false]
    · simp only [power_eq, h1, if_true, List.isEmpty_cons, List.isEmpty_nil, Bool.false_eq_true,
        if_false]
      rw [one_eq]

theorem power_eq_one_base (fuel : Nat) (e : List Nat) :
    power_eq fuel [1] e = some (Outcome.ok [1]) := by
  have h1 : eq [1] (ofNative 1 1) = true := by simp [eq, one_eq]
  simp [power_eq, h1]

theorem power_of_power_eq {fuel : Nat} {b e r : List Nat}
    (h : power_eq fuel b e = some (Outcome.ok r)) : power fuel b e = some (Except.ok r) := by
  simp [power, h, Outcome.ok, Outcome.toExcept]

/-! ## Construction from native integers -/

theorem toInt32_small (q : Nat) (h : q < 2147483648) : toInt32 q = (q : Int) := by
  have h1 : q % 4294967296 = q := Nat.mod_eq_of_lt (by omega)
  simp only [toInt32, h1, h, if_true]

theorem toNat_emod_word (n : Nat) (h : n < 18446744073709551616) :
    Int.toNat ((n : Int) % 18446744073709551616) = n := by
  have e : ((n : Int) % 18446744073709551616) = ((n % 18446744073709551616 : Nat) : Int) := by
    norm_cast
  rw [e, Int.toNat_natCast, Nat.mod_eq_of_lt h]

theorem ofNative_succ (m : Nat) :
    ofNative (m + 1) (m + 1) = ((m + 1) % RADIX) :: ofNative ((m + 1) / RADIX) ((m + 1) / RADIX) := by
  have hR : RADIX = 1000000000 := rfl
  have hle : (m + 1) / RADIX ≤ m := by
    rw [hR]; omega
  have e : ofNative (m + 1) (m + 1) = ((m + 1) % RADIX) :: ofNative m ((m + 1) / RADIX) := by
    simp only [ofNative, Nat.succ_ne_zero, if_false]
  rw [e, ofNative_fuel m _ hle]

/-- On a non-negative `int` the loop of the forwarding constructor pushes the same limbs as the
loop on the unsigned value. -/
theorem forwardLoopInt_spec : ∀ (fuel n : Nat), n < 2147483648 → n < RADIX ^ fuel →
    forwardLoopInt fuel (n : Int) = ofNative n n
  | 0, n, _, h => by
    have : n = 0 := by simpa using h
    subst this
    rfl
  | fuel + 1, 0, _, _ => by
    simp [forwardLoopInt, ofNative]
  | fuel + 1, m + 1, h1, h2 => by
    have hR : RADIX = 1000000000 := rfl
    have hne : ((m + 1 : Nat) : Int) ≠ 0 := by omega
    have hq : (m + 1) / RADIX < 2147483648 := by
      rw [hR]; omega
    have hq2 : (m + 1) / RADIX < RADIX ^ fuel := by
      apply Nat.div_lt_of_lt_mul
      rw [pow_succ, Nat.mul_comm] at h2
      exact h2
    have ih := forwardLoopInt_spec fuel ((m + 1) / RADIX) hq hq2
    rw [ofNative_succ]
    simp only [forwardLoopInt, hne, if_false, toNat_emod_word (m + 1) (by omega),
      toInt32_small _ hq, ih]

theorem ofForwardInt_nonneg (n : Nat) (h : n < 2147483648) :
    ofForwardInt (n : Int) = Except.ok (ofNative n n) := by
  have hp : RADIX ^ 4 = 1000000000000000000000000000000000000 := by
    unfold RADIX; norm_num
  rw [ofForwardInt, forwardLoopInt_spec 4 n h (by rw [hp]; omega)]

theorem ofConstRef_nonneg (n : Nat) : ofConstRef (n : Int) = Except.ok (ofNative n n) := by
  have h : ¬ ((n : Int) < 0) := by omega
  simp only [ofConstRef, h, if_false, Int.toNat_natCast]

theorem padDigits_length : ∀ (k m : Nat), (padDigits k m).length = k
  | 0, _ => rfl
  | k + 1, m => by
    simp only [padDigits, List.length_append, List.length_singleton, padDigits_length k]

theorem putPadded_length (x : Nat) (h : x < RADIX) : (putPadded x).length = 9 := by
  rw [putPadded_eq x h, padDigits_length]

theorem render_snoc (lo : List Nat) (top : Nat) :
    render (lo ++ [top]) = putNative top ++ renderRest lo.reverse := by
  simp [render]

/-! ## The claims on comparison, construction, text, exponentiation and the division loop -/

/-- C11: the comparison operators are the numeric order.  For canonical `a` and `b`: `a < b`
holds exactly when `value a < value b`, `a == b` exactly when the values are equal (and exactly
when the limb sequences are), `a > b` exactly when `value a > value b`; `a <= b` is `a < b` or
`a == b`, `a >= b` is `a > b` or `a == b`; and exactly one of `<`, `==`, `>` holds. -/
theorem comparison_is_numeric_order (a b : List Nat) (ha : canonical a) (hb : canonical b) :
    (lt a b = true ↔ value a < value b) ∧ (eq a b = true ↔ value a = value b) ∧
    (eq a b = true ↔ a = b) ∧ (gt a b = true ↔ value a > value b) ∧
    (le a b = true ↔ (lt a b = true ∨ eq a b = true)) ∧
    (ge a b = true ↔ (gt a b = true ∨ eq a b = true)) ∧
    ((lt a b = true ∧ eq a b = false ∧ gt a b = false) ∨
      (lt a b = false ∧ eq a b = true ∧ gt a b = false) ∨
      (lt a b = false ∧ eq a b = false ∧ gt a b = true)) := by
  have e : (eq a b = true ↔ a = b) := by simp [eq]
  have h1 := lt_spec a b ha hb
  have h2 := eq_spec a b ha hb
  have h3 := gt_spec a b ha hb
  have h4 := le_spec a b ha hb
  have h5 := ge_spec a b ha hb
  refine ⟨?_, ?_, e, ?_, ?_, ?_, ?_⟩ <;>
    simp only [h1, h2, h3, h4, h5, decide_eq_true_eq, decide_eq_false_iff_not] <;>
    omega

/-- Witness for C11 on two three-limb numbers that differ in the middle limb only. -/
theorem comparison_is_numeric_order_witness :
    canonical [7, 3, 9] ∧ canonical [2, 4, 9] ∧
    lt [7, 3, 9] [2, 4, 9] = true ∧ le [7, 3, 9] [2, 4, 9] = true ∧
    eq [7, 3, 9] [2, 4, 9] = false ∧ ge [7, 3, 9] [2, 4, 9] = false ∧
    gt [7, 3, 9] [2, 4, 9] = false ∧
    ((lt [7, 3, 9] [2, 4, 9] = true ↔ value [7, 3, 9] < value [2, 4, 9]) ∧
    (eq [7, 3, 9] [2, 4, 9] = true ↔ value [7, 3, 9] = value [2, 4, 9]) ∧
    (eq [7, 3, 9] [2, 4, 9] = true ↔ [7, 3, 9] = [2, 4, 9]) ∧
    (gt [7, 3, 9] [2, 4, 9] = true ↔ value [7, 3, 9] > value [2, 4, 9]) ∧
    (le [7, 3, 9] [2, 4, 9] = true ↔ (lt [7, 3, 9] [2, 4, 9] = true ∨ eq [7, 3, 9] [2, 4, 9] = true)) ∧
    (ge [7, 3, 9] [2, 4, 9] = true ↔ (gt [7, 3, 9] [2, 4, 9] = true ∨ eq [7, 3, 9] [2, 4, 9] = true)) ∧
    ((lt [7, 3, 9] [2, 4, 9] = true ∧ eq [7, 3, 9] [2, 4, 9] = false ∧
        gt [7, 3, 9] [2, 4, 9] = false) ∨
      (lt [7, 3, 9] [2, 4, 9] = false ∧ eq [7, 3, 9] [2, 4, 9] = true ∧
        gt [7, 3, 9] [2, 4, 9] = false) ∨
      (lt [7, 3, 9] [2, 4, 9] = false ∧ eq [7, 3, 9] [2, 4, 9] = false ∧
        gt [7, 3, 9] [2, 4, 9] = true))) :=
  ⟨by decide, by decide, by decide, by decide, by decide, by decide, by decide,
    comparison_is_numeric_order [7, 3, 9] [2, 4, 9] (by decide) (by decide)⟩

/-- C12: the forwarding constructor does not reject negative values.  On the `int` value `-5`
the constructor taking `const T &` throws `range_error`, but `BigInteger(-5)` selects the one
taking `T &&`, which has no test of the sign: it returns normally with the limbs
`709551611, 266874889, 1`, and it throws on no `int` at all. -/
theorem forwarding_constructor_accepts_negative :
    ofConstRef (-5) = Except.error Exn.range_error ∧
    ofForwardInt (-5) = Except.ok [709551611, 266874889, 1] ∧
    canonical [709551611, 266874889, 1] ∧
    ∀ obj : Int, ∃ l, ofForwardInt obj = Except.ok l :=
  ⟨rfl, rfl, by decide, fun obj => ⟨_, rfl⟩⟩

/-- C13: construction and rendering agree with decimal notation.  For every native `n < 2^64`
both constructors return the same limbs without throwing (the forwarding one on an `int` for
`n < 2^31`), these are canonical with value `n` and at most three in number, and the text written by `operator<<` is the
decimal text of `n`, which is `"0"` for `n = 0`.  The text of a sequence is the text of its top
limb followed by the other limbs from the most significant one, each on exactly nine
characters. -/
theorem construct_render_decimal (n : Nat) (hn : n < 18446744073709551616) :
    ofConstRef (n : Int) = Except.ok (ofNative n n) ∧
    ofUnsigned n = Except.ok (ofNative n n) ∧
    (n < 2147483648 → ofForwardInt (n : Int) = Except.ok (ofNative n n)) ∧
    canonical (ofNative n n) ∧ value (ofNative n n) = n ∧ (ofNative n n).length ≤ 3 ∧
    render (ofNative n n) = Nat.toDigits 10 n ∧
    (render (ofNative n n)).asString = Nat.repr n ∧
    render (ofNative 0 0) = [Char.ofNat 48] ∧
    (∀ lo top, render (lo ++ [top]) = putNative top ++ renderRest lo.reverse) ∧
    (∀ x, x < RADIX → (putPadded x).length = 9) := by
  have hs := ofNative_spec n n (le_refl n)
  have hr : render (ofNative n n) = Nat.toDigits 10 n := by
    rw [render_spec _ hs.1, hs.2]
  have hlen : (ofNative n n).length ≤ 3 := by
    by_contra hc
    have hne : ofNative n n ≠ [] := by
      intro h0; rw [h0] at hc; simp at hc
    have h1 := value_ge_pow hne hs.1.2
    have h2 : RADIX ^ 3 ≤ RADIX ^ ((ofNative n n).length - 1) :=
      Nat.pow_le_pow_right RADIX_pos (by omega)
    have h3 : RADIX ^ 3 = 1000000000000000000000000000 := by
      unfold RADIX; norm_num
    rw [hs.2] at h1
    omega
  refine ⟨ofConstRef_nonneg n, rfl, ofForwardInt_nonneg n, hs.1, hs.2, hlen, hr, ?_, by decide,
    render_snoc, putPadded_length⟩
  rw [hr]
  rfl

/-- Witness for C13 on a three-limb number with a zero limb in the middle. -/
theorem construct_render_decimal_witness :
    12000000000000000005 < 18446744073709551616 ∧
    ofNative 12000000000000000005 12000000000000000005 = [5, 0, 12] ∧
    (ofConstRef ((12000000000000000005 : Nat) : Int)
        = Except.ok (ofNative 12000000000000000005 12000000000000000005) ∧
    ofUnsigned 12000000000000000005
        = Except.ok (ofNative 12000000000000000005 12000000000000000005) ∧
    (12000000000000000005 < 2147483648 → ofForwardInt ((12000000000000000005 : Nat) : Int)
        = Except.ok (ofNative 12000000000000000005 12000000000000000005)) ∧
    canonical (ofNative 12000000000000000005 12000000000000000005) ∧
    value (ofNative 12000000000000000005 12000000000000000005) = 12000000000000000005 ∧
    (ofNative 12000000000000000005 12000000000000000005).length ≤ 3 ∧
    render (ofNative 12000000000000000005 12000000000000000005)
        = Nat.toDigits 10 12000000000000000005 ∧
    (render (ofNative 12000000000000000005 12000000000000000005)).asString
        = Nat.repr 12000000000000000005 ∧
    render (ofNative 0 0) = [Char.ofNat 48] ∧
    (∀ lo top, render (lo ++ [top]) = putNative top ++ renderRest lo.reverse) ∧
    (∀ x, x < RADIX → (putPadded x).length = 9)) :=
  ⟨by decide, by rfl, construct_render_decimal 12000000000000000005 (by decide)⟩

/-- C14: parsing inverts rendering.  For every canonical `x`, of any number of limbs, reading the
text written for `x` into an object holding any `prev` leaves exactly the limbs of `x`. -/
theorem parse_inverts_render (prev x : List Nat) (hx : canonical x) :
    parse prev (render x) = x :=
  parse_render prev x hx

/-- Witness for C14: `12000000000000000005` read into an object that held three limbs. -/
theorem parse_inverts_render_witness :
    canonical [5, 0, 12] ∧ render [5, 0, 12] = "12000000000000000005".toList ∧
    parse [7, 7, 7] (render [5, 0, 12]) = [5, 0, 12] :=
  ⟨by decide, by rfl, parse_inverts_render [7, 7, 7] [5, 0, 12] (by decide)⟩

/-- C15: parsing a decimal token gives its value in canonical form.  For every string `s` of
characters `'0'` to `'9'` (empty or not, leading zeros allowed) and every previous content, the
limbs read are canonical and their value is the number `s` denotes in base 10; `"0"` and `"000"`
give the empty sequence. -/
theorem parse_decimal_token (prev : List Nat) (s : List Char) (hs : ∀ c ∈ s, isDigit c) :
    canonical (parse prev s) ∧ value (parse prev s) = denote s ∧
    parse prev "0".toList = [] ∧ parse prev "000".toList = [] := by
  obtain ⟨h1, h2⟩ := parse_spec prev s hs
  have z1 := parse_spec prev "0".toList (by decide)
  have z2 := parse_spec prev "000".toList (by decide)
  have d1 : denote "0".toList = 0 := by decide
  have d2 : denote "000".toList = 0 := by decide
  exact ⟨h1, h2, value_eq_zero_of_canonical z1.1 (by rw [z1.2, d1]),
    value_eq_zero_of_canonical z2.1 (by rw [z2.2, d2])⟩

/-- Witness for C15: a token of 21 characters with three leading zeros. -/
theorem parse_decimal_token_witness :
    (∀ c ∈ "000123456789012345678".toList, isDigit c) ∧
    denote "000123456789012345678".toList = 123456789012345678 ∧
    parse [7, 7, 7] "000123456789012345678".toList = [12345678, 123456789] ∧
    (canonical (parse [7, 7, 7] "000123456789012345678".toList) ∧
      value (parse [7, 7, 7] "000123456789012345678".toList)
        = denote "000123456789012345678".toList ∧
      parse [7, 7, 7] "0".toList = [] ∧ parse [7, 7, 7] "000".toList = []) :=
  ⟨by decide, by decide, by rfl,
    parse_decimal_token [7, 7, 7] "000123456789012345678".toList (by decide)⟩

/-- C16: zero to the power zero throws `range_error`.  Whatever the number of rounds allowed,
`power_eq(0, 0)` and `power(0, 0)` throw `std::range_error`, which is not the `overflow_error`
that a division by zero throws. -/
theorem power_zero_zero_throws_range_error (fuel : Nat) :
    power_eq fuel [] [] = some (Outcome.thrown Exn.range_error []) ∧
    power fuel [] [] = some (Except.error Exn.range_error) ∧
    Exn.range_error ≠ Exn.overflow_error ∧
    div [] [] = Except.error Exn.overflow_error :=
  ⟨rfl, rfl, by decide, rfl⟩

/-- C17: boundary cases of the exponentiation.  Whatever the number of rounds allowed (none is
needed): `power(0, e)` is `0` for every `e > 0`, `power(b, 0)` is `1` for every `b > 0`, and
`power(1, x)` is `1` for every `x`, zero and multi-limb exponents included; the three calls return
normally. -/
theorem power_boundary_cases (fuel : Nat) (b e x : List Nat) (hb : 0 < value b)
    (he : 0 < value e) :
    power fuel [] e = some (Except.ok []) ∧ power fuel b [] = some (Except.ok [1]) ∧
    power fuel [1] x = some (Except.ok [1]) ∧ power fuel [1] [] = some (Except.ok [1]) ∧
    value [] = 0 ∧ value [1] = 1 := by
  have hne : e ≠ [] := by
    intro h0; rw [h0] at he; simp at he
  have hnb : b ≠ [] := by
    intro h0; rw [h0] at hb; simp at hb
  exact ⟨power_of_power_eq (power_eq_zero_base fuel e hne),
    power_of_power_eq (power_eq_zero_exp fuel b hnb),
    power_of_power_eq (power_eq_one_base fuel x),
    power_of_power_eq (power_eq_one_base fuel []), rfl, rfl⟩

/-- Witness for C17: `power(0, 5)`, `power(7, 0)` and `power(1, 1000000)`, with no round of the
loop allowed. -/
theorem power_boundary_cases_witness :
    0 < value [7] ∧ 0 < value [5] ∧
    power 0 [] [5] = some (Except.ok []) ∧ power 0 [7] [] = some (Except.ok [1]) ∧
    power 0 [1] [1000000] = some (Except.ok [1]) ∧ power 0 [1] [] = some (Except.ok [1]) ∧
    value [] = 0 ∧ value [1] = 1 :=
  ⟨by decide, by decide, power_boundary_cases 0 [7] [5] [1000000] (by decide) (by decide)⟩

/-- The result of the loop of `power_eq` on base `4`, accumulator `4` and a one-limb exponent
`x`, doubled, is `2 ^ (2 * x + 3)`. -/
theorem pow_four_algebra (x v : Nat) (h : v = 4 * 4 ^ x) : v * 2 = 2 ^ (2 * x + 3) := by
  have e : (2 : Nat) ^ (2 * x + 3) = 4 ^ x * 8 := by
    rw [pow_add, pow_mul]
    norm_num
  rw [h, e]
  ring

theorem ne_of_double_eq (r x : Nat) (h : r * 2 = x) (hpos : 0 < x) : r ≠ x := by
  omega

/-- C18: the exponentiation is not exact on every exponent.  The parity of the exponent is read
from `residue.repres.back()`, the most-significant limb.  On `power(2, 2000000001)` (exponent
limbs `1, 2`: odd value, even top limb) the first round squares the base and halves the
exponent, so that with enough rounds allowed the call returns normally a canonical number whose
double is `2 ^ 2000000001`: it is `2 ^ 2000000000`, not `2 ^ value e`.  The stated instance
`power(2, 10) == 1024` holds. -/
theorem power_wrong_on_even_top_limb (fuel : Nat) :
    value [1, 2] = 2000000001 ∧ value [1, 2] % 2 = 1 ∧ [1, 2].getLastD 0 % 2 = 0 ∧
    (powBody { increm := [1], base := [2], residue := [1, 2] }).1
      = { increm := [1], base := [4], residue := [0, 1] } ∧
    (∃ r, power (fuel + 1000000001) [2] [1, 2] = some (Except.ok r) ∧
      power_eq (fuel + 1000000001) [2] [1, 2] = some (Outcome.ok r) ∧ canonical r ∧
      value r * 2 = value [2] ^ value [1, 2] ∧ value r ≠ value [2] ^ value [1, 2]) ∧
    power 5 [2] [10] = some (Except.ok [1024]) := by
  have hR : RADIX = 1000000000 := rfl
  have b1 : powBody { increm := [1], base := [2], residue := [1, 2] }
      = ({ increm := [1], base := [4], residue := [0, 1] }, none) := by rfl
  have b2 : powBody { increm := [1], base := [4], residue := [0, 1] }
      = ({ increm := [4], base := [4], residue := [999999999] }, none) := by rfl
  have g1 : gt [0, 1] (ofNative 1 1) = true := by rfl
  have g2 : gt [999999999] (ofNative 1 1) = true := by rfl
  have c4 : canonical [4] := by decide
  have hf : fuel + 1000000001 = (fuel + 999999999) + 1 + 1 := by omega
  have v4 : value [4] = 4 := by simp
  have v2 : value [2] = 2 := by simp
  have ve : value [1, 2] = 2 * 999999999 + 3 := by rfl
  have hpos : 0 < value [2] ^ value [1, 2] := Nat.pos_pow_of_pos _ (by rw [v2]; omega)
  obtain ⟨st, e1, _, e3, e4, e5⟩ := powLoop_single 999999999 (by omega) (by omega)
    (fuel + 999999999) (by omega) [4] [4] c4 c4
  have hloop : powLoop (fuel + 1000000001) { increm := ofNative 1 1, base := [2], residue := [1, 2] }
      = some (st, none) := by
    rw [one_eq, hf, powLoop_succ _ _ _ b1]
    simp only [g1, if_true]
    rw [powLoop_succ _ _ _ b2]
    simp only [g2, if_true]
    exact e1
  have n1 : eq [2] (ofNative 1 1) = false := by rfl
  have n2 : eq [1, 2] (ofNative 1 1) = false := by rfl
  have hp : power_eq (fuel + 1000000001) [2] [1, 2]
      = some (Outcome.ok (mulAssign st.base st.increm)) := by
    simp only [power_eq, List.isEmpty_cons, Bool.false_eq_true, if_false, n1, n2, hloop]
  obtain ⟨mc, mv⟩ := mulAssign_canonical st.base st.increm e4 e3
  have hv : value (mulAssign st.base st.increm) = 4 * 4 ^ 999999999 := by
    rw [mv, Nat.mul_comm, e5, v4]
  have hdouble : value (mulAssign st.base st.increm) * 2 = value [2] ^ value [1, 2] := by
    rw [v2, ve]
    exact pow_four_algebra 999999999 _ hv
  exact ⟨by rfl, by rfl, by rfl, by rw [b1],
    ⟨_, power_of_power_eq hp, hp, mc, hdouble, ne_of_double_eq _ _ hdouble hpos⟩, by rfl⟩

/-- C19, the scenario as stated: the quotient of `1000000000000000000000` by `999999999` that
the code returns has the limbs `1000, 1000`, and its value is not `1000000001000000002`. -/
theorem div_scenario_quotient_differs :
    div [0, 0, 1000] [999999999] = Except.ok [1000, 1000] ∧
    value [1000, 1000] = 1000000001000 ∧ value [1000, 1000] ≠ 1000000001000000002 ∧
    999999999 * 1000000001000000002 > 1000000000000000000000 :=
  ⟨by rfl, by decide, by decide, by decide⟩

/-- C19, amended: the token `1000000000000000000000` is read as the limbs `0, 0, 1000`, of
value `10 ^ 21`, and dividing it by `999999999` returns the limbs `1000, 1000`, the number
`1000000001000`, which is the floor of the exact quotient. -/
theorem div_scenario_floor_quotient :
    parse [] "1000000000000000000000".toList = [0, 0, 1000] ∧
    canonical [0, 0, 1000] ∧ value [0, 0, 1000] = 1000000000000000000000 ∧
    parse [] "999999999".toList = [999999999] ∧
    div [0, 0, 1000] [999999999] = Except.ok [1000, 1000] ∧
    divAssign [0, 0, 1000] [999999999] = Outcome.ok [1000, 1000] ∧
    value [1000, 1000] = 1000000000000000000000 / 999999999 ∧
    render [1000, 1000] = "1000000001000".toList ∧
    999999999 * 1000000001000 ≤ 1000000000000000000000 ∧
    1000000000000000000000 < 999999999 * (1000000001000 + 1) :=
  ⟨by rfl, by decide, by decide, by rfl, by rfl, by rfl, by decide, by rfl, by decide, by decide⟩

/-- C20: division raises only on a zero divisor.  For canonical `a` and non-zero canonical `b`,
`a /= b` and `a / b` return normally.  In one iteration of the multi-limb loop, on a normalized
divisor `v` of at least two limbs, a canonical remainder below `v` and a limb `u`, neither
`sub -= v` nor `remainder -= sub` throws: the iteration returns a limb `d` and a remainder `r`,
the product `v * d` that is subtracted is at most the remainder window, and `r` is their
difference. -/
theorem div_raises_only_on_zero_divisor (a b v rem : List Nat) (u : Nat) (ha : canonical a)
    (hb : canonical b) (hne : b ≠ []) (hv : canonical v) (hn : 2 ≤ v.length)
    (hnorm : HALF_OF_RADIX ≤ v.getLastD 0) (hrem : canonical rem) (hlt : value rem < value v)
    (hu : u < RADIX) :
    (∃ q, divAssign a b = Outcome.ok q ∧ div a b = Except.ok q) ∧
    (∃ d r, divStep v rem u = Except.ok (d, r) ∧
      value (mulAssignInt v d) = value v * d ∧
      value v * d ≤ value (addAssignInt (mulAssign rem radix) u) ∧
      value r = value (addAssignInt (mulAssign rem radix) u) - value v * d) := by
  obtain ⟨q, h1, _, _⟩ := divAssign_spec a b ha hb hne
  obtain ⟨r, s1, s2, _, s4⟩ := divStep_spec v rem u hv hn hnorm hrem hlt hu
  obtain ⟨_, w2⟩ := window_spec rem u hrem hu
  have hm := (mulAssignInt_spec v ((value rem * RADIX + u) / value v) hv.1 (by omega)).2.1
  refine ⟨⟨q, h1, by rw [div, h1]; rfl⟩, ⟨_, r, s1, hm, ?_, ?_⟩⟩
  · rw [w2]; exact Nat.mul_div_le _ _
  · rw [w2, s4, Nat.mod_def]

/-- Witness for C20: a dividend and a divisor of two limbs, and a loop state whose first estimate
is one above the limb stored. -/
theorem div_raises_only_on_zero_divisor_witness :
    canonical [1, 2, 3] ∧ canonical [4, 5] ∧ [4, 5] ≠ [] ∧ canonical [123456789, 987654321] ∧
    2 ≤ [123456789, 987654321].length ∧ HALF_OF_RADIX ≤ [123456789, 987654321].getLastD 0 ∧
    canonical [999999999, 5] ∧ value [999999999, 5] < value [123456789, 987654321] ∧
    7 < RADIX ∧ div [1, 2, 3] [4, 5] = Except.ok [599999999] ∧
    divStep [123456789, 987654321] [999999999, 5] 7
      = Except.ok (6, [259259273, 74074072]) ∧
    ((∃ q, divAssign [1, 2, 3] [4, 5] = Outcome.ok q ∧ div [1, 2, 3] [4, 5] = Except.ok q) ∧
    (∃ d r, divStep [123456789, 987654321] [999999999, 5] 7 = Except.ok (d, r) ∧
      value (mulAssignInt [123456789, 987654321] d) = value [123456789, 987654321] * d ∧
      value [123456789, 987654321] * d
        ≤ value (addAssignInt (mulAssign [999999999, 5] radix) 7) ∧
      value r = value (addAssignInt (mulAssign [999999999, 5] radix) 7)
        - value [123456789, 987654321] * d)) :=
  ⟨by decide, by decide, by decide, by decide, by decide, by decide, by decide, by decide,
    by decide, by rfl, by rfl,
    div_raises_only_on_zero_divisor [1, 2, 3] [4, 5] [123456789, 987654321] [999999999, 5] 7
      (by decide) (by decide) (by decide) (by decide) (by decide) (by decide) (by decide)
      (by decide) (by decide)⟩

/-! ## The accumulator of the multiplications -/

theorem accOk_of_lt {t : Nat} (h : t < RADIX * RADIX) : accOk t := by
  have hW := RADIX_sq_lt_WORD
  exact ⟨by omega, by omega, (Nat.div_lt_iff_lt_mul RADIX_pos).2 h⟩

theorem mulIntLoop_exact (obj : Nat) (hobj : obj ≤ RADIX) :
    ∀ (xs : List Nat) (c : Nat), c < RADIX → bounded xs →
    mulIntLoop obj xs c = mulIntLoopExact obj xs c ∧ ∀ t ∈ mulIntAcc obj xs c, accOk t
  | [], c, _, _ => by simp [mulIntLoop, mulIntLoopExact, mulIntAcc]
  | x :: xs, c, hc, hb => by
    have hx := (bounded_cons.1 hb).1
    have hxs := (bounded_cons.1 hb).2
    have hxo : x * obj + c < RADIX * RADIX := by
      have h1 : x * obj ≤ (RADIX - 1) * RADIX := Nat.mul_le_mul (by omega) hobj
      have e : (RADIX - 1) * RADIX + RADIX = RADIX * RADIX := by
        unfold RADIX; decide
      omega
    have hW := RADIX_sq_lt_WORD
    have h1 : wmul x obj = x * obj := wmul_eq (by omega)
    have ht : wadd (wmul x obj) c = x * obj + c := by rw [h1]; exact wadd_eq (by omega)
    have hok := accOk_of_lt hxo
    obtain ⟨i1, i2⟩ := mulIntLoop_exact obj hobj xs ((x * obj + c) / RADIX) hok.2.2 hxs
    refine ⟨?_, ?_⟩
    · simp only [mulIntLoop, mulIntLoopExact, ht, i1]
    · intro t ht2
      simp only [mulIntAcc, List.mem_cons] at ht2
      rcases ht2 with h | h
      · rw [h]; exact hok
      · exact i2 t h

theorem mulAssignInt_exact (a : List Nat) (obj : Nat) (ha : bounded a) (hobj : obj ≤ RADIX) :
    mulAssignInt a obj = mulAssignIntExact a obj := by
  simp only [mulAssignInt, mulAssignIntExact, (mulIntLoop_exact obj hobj a 0 RADIX_pos ha).1]

theorem mulInner_exact (bj : Nat) (hbj : bj < RADIX) :
    ∀ (as rs : List Nat) (c : Nat), bounded as → bounded rs → c < RADIX →
    mulInner bj as rs c = mulInnerExact bj as rs c ∧ ∀ t ∈ mulInnerAcc bj as rs c, accOk t
  | [], [], c, _, _, _ => by simp [mulInner, mulInnerExact, mulInnerAcc]
  | [], r :: rs, c, _, hr, hc => by
    have hr1 := (bounded_cons.1 hr).1
    have hW : WORD = 18446744073709551616 := rfl
    have hR : RADIX = 1000000000 := rfl
    have hw : wadd r c = r + c := wadd_eq (by omega)
    have hsq : r + c < RADIX * RADIX := by
      rw [hR]; omega
    refine ⟨by simp only [mulInner, mulInnerExact, hw], ?_⟩
    intro t ht
    by_cases h0 : c = 0
    · simp [mulInnerAcc, h0] at ht
    · simp only [mulInnerAcc, h0, ne_eq, not_false_eq_true, if_true, List.mem_singleton] at ht
      rw [ht]; exact accOk_of_lt hsq
  | ai :: as, [], c, _, _, _ => by simp [mulInner, mulInnerExact, mulInnerAcc]
  | ai :: as, l :: lo, c, ha, hlo, hc => by
    have hai := (bounded_cons.1 ha).1
    have has := (bounded_cons.1 ha).2
    have hl := (bounded_cons.1 hlo).1
    have hlo2 := (bounded_cons.1 hlo).2
    have hbound := mul_limb_bound hl hai hbj hc
    have hW := RADIX_sq_lt_WORD
    have h1 : wmul bj ai = bj * ai := wmul_eq (by omega)
    have h2 : wadd (wmul bj ai) c = bj * ai + c := by rw [h1]; exact wadd_eq (by omega)
    have ht : wadd l (wadd (wmul bj ai) c) = l + (bj * ai + c) := by
      rw [h2]; exact wadd_eq (by omega)
    have hok := accOk_of_lt hbound
    obtain ⟨i1, i2⟩ := mulInner_exact bj hbj as lo ((l + (bj * ai + c)) / RADIX) has hlo2 hok.2.2
    refine ⟨by simp only [mulInner, mulInnerExact, ht, i1], ?_⟩
    intro t ht2
    simp only [mulInnerAcc, List.mem_cons] at ht2
    rcases ht2 with h | h
    · rw [h]; exact hok
    · exact i2 t h

theorem bounded_append_zeros {lo zs : List Nat} (hlo : bounded lo) (hz : ∀ z ∈ zs, z = 0) :
    bounded (lo ++ zs) := by
  refine bounded_append.2 ⟨hlo, ?_⟩
  intro y hy
  rw [hz y hy]; exact RADIX_pos

theorem mulOuter_exact (a : List Nat) (ha : bounded a) :
    ∀ (bs lo zs : List Nat), lo.length = a.length → bounded lo → bounded bs →
    zs.length = bs.length → (∀ z ∈ zs, z = 0) →
    mulOuter a bs (lo ++ zs) = mulOuterExact a bs (lo ++ zs) ∧
    ∀ t ∈ mulOuterAcc a bs (lo ++ zs), accOk t
  | [], lo, zs, _, _, _, _, _ => by simp [mulOuter, mulOuterExact, mulOuterAcc]
  | bj :: bs, lo, [], _, _, _, hz, _ => by simp at hz
  | bj :: bs, lo, z :: zs, hlen, hlo, hb, hz, hzero => by
    have hbj := (bounded_cons.1 hb).1
    have hbs := (bounded_cons.1 hb).2
    have hz0 : z = 0 := hzero z (by simp)
    subst hz0
    have hzs : ∀ z ∈ zs, z = 0 := fun z hz => hzero z (by simp [hz])
    have hres : bounded (lo ++ 0 :: zs) := bounded_append_zeros hlo hzero
    obtain ⟨x1, x2⟩ := mulInner_exact bj hbj a (lo ++ 0 :: zs) 0 ha hres RADIX_pos
    obtain ⟨m, hm1, hm2, hm3⟩ : ∃ m : List Nat,
        (if bj = 0 then lo ++ 0 :: zs else mulInner bj a (lo ++ 0 :: zs) 0) = m ++ zs ∧
        m.length = a.length + 1 ∧ bounded m := by
      by_cases h0 : bj = 0
      · subst h0
        refine ⟨lo ++ [0], by simp, by simp [hlen], ?_⟩
        exact bounded_append.2 ⟨hlo, by intro y hy; simp at hy; rw [hy]; exact RADIX_pos⟩
      · obtain ⟨lo2, c2, e1, e2, e3, e4, _⟩ := mulInner_spec bj hbj zs a lo 0 hlen ha hlo
          RADIX_pos
        refine ⟨lo2 ++ [c2], by simp [h0, e1], by simp [e2], ?_⟩
        exact bounded_append.2 ⟨e3, by intro y hy; simp at hy; rw [hy]; exact e4⟩
    have hm1e : (if bj = 0 then lo ++ 0 :: zs else mulInnerExact bj a (lo ++ 0 :: zs) 0)
        = m ++ zs := by
      rw [← x1]; exact hm1
    obtain ⟨h, lo3, hm5, hm6⟩ := exists_cons_of_length_succ hm2
    subst hm5
    obtain ⟨i1, i2⟩ := mulOuter_exact a ha bs lo3 zs hm6 (bounded_cons.1 hm3).2 hbs
      (by simpa using hz) hzs
    refine ⟨?_, ?_⟩
    · simp only [mulOuter, mulOuterExact, hm1, hm1e, List.cons_append, i1]
    · intro t ht
      simp only [mulOuterAcc, hm1e, List.cons_append, List.mem_append] at ht
      rcases ht with h1 | h1
      · by_cases h0 : bj = 0
        · simp [h0] at h1
        · simp only [h0, if_false] at h1
          exact x2 t h1
      · exact i2 t h1

/-- On operands with limbs below `RADIX` the multiplication in 64-bit arithmetic is the
multiplication in the arithmetic of the natural numbers, and every accumulator value is at most
`RADIX * RADIX + RADIX`, below `2^64`, with a carry below `RADIX`. -/
theorem mul_exact_acc (a b : List Nat) (ha : bounded a) (hb : bounded b) :
    mul a b = mulExact a b ∧ ∀ t ∈ mulAcc a b, accOk t := by
  cases a with
  | nil => simp [mul, mulExact, mulAcc]
  | cons x xs =>
    cases b with
    | nil => simp [mul, mulExact, mulAcc]
    | cons o os =>
      cases os with
      | nil =>
        have ho := (bounded_cons.1 hb).1
        obtain ⟨s1, s2⟩ := mulIntLoop_exact o (Nat.le_of_lt ho) (x :: xs) 0 RADIX_pos ha
        refine ⟨?_, ?_⟩
        · simp only [mul, mulExact, List.isEmpty_cons, Bool.false_eq_true, or_self, if_false]
          exact mulAssignInt_exact _ _ ha (Nat.le_of_lt ho)
        · intro t ht
          simp only [mulAcc, List.isEmpty_cons, Bool.false_eq_true, or_self, if_false] at ht
          by_cases h0 : o = 0
          · simp [h0] at ht
          · simp only [h0, if_false] at ht
            exact s2 t ht
      | cons p ps =>
        have hrep : List.replicate ((x :: xs).length + (o :: p :: ps).length) 0
            = List.replicate (x :: xs).length 0 ++ List.replicate (o :: p :: ps).length 0 := by
          rw [List.replicate_add]
        obtain ⟨i1, i2⟩ := mulOuter_exact (x :: xs) ha (o :: p :: ps)
          (List.replicate (x :: xs).length 0) (List.replicate (o :: p :: ps).length 0)
          (by simp) (bounded_replicate_zero _) hb (by simp)
          (fun z hz => List.eq_of_mem_replicate hz)
        rw [← hrep] at i1 i2
        refine ⟨?_, ?_⟩
        · simp only [mul, mulExact, List.isEmpty_cons, Bool.false_eq_true, or_self, if_false, i1]
        · intro t ht
          simp only [mulAcc, List.isEmpty_cons, Bool.false_eq_true, or_self, if_false] at ht
          exact i2 t ht

/-! ## The first estimate of a quotient limb -/

/-- Arithmetic core of the bound on the first estimate: an estimate `q0` from the leading limb
`v1 ≥ RADIX / 2` of the divisor exceeds the true digit `q < RADIX` by at most two. -/
theorem first_estimate_le (N V K T v1 q0 : Nat) (hv1 : HALF_OF_RADIX ≤ v1)
    (h1 : q0 * v1 ≤ T) (h2 : K * T ≤ N) (h4 : V < K * (v1 + 1)) (hV : 0 < V)
    (hq : N / V < RADIX) : q0 ≤ N / V + 2 := by
  have hR : RADIX = 1000000000 := rfl
  have hH : HALF_OF_RADIX = 500000000 := rfl
  have h3 : N < V * (N / V + 1) := Nat.lt_mul_div_succ N hV
  generalize N / V = q at *
  by_contra hcon
  have hq0 : q + 3 ≤ q0 := by omega
  have a1 : K * ((q + 3) * v1) ≤ K * (q0 * v1) :=
    Nat.mul_le_mul_left _ (Nat.mul_le_mul_right _ hq0)
  have a2 : K * (q0 * v1) ≤ K * T := Nat.mul_le_mul_left _ h1
  have a3 : V * (q + 1) ≤ K * (v1 + 1) * (q + 1) := Nat.mul_le_mul_right _ (Nat.le_of_lt h4)
  have a4 : K * ((q + 3) * v1) < K * ((v1 + 1) * (q + 1)) := by
    have e : K * (v1 + 1) * (q + 1) = K * ((v1 + 1) * (q + 1)) := by ring
    omega
  have a5 : (q + 3) * v1 < (v1 + 1) * (q + 1) := Nat.lt_of_mul_lt_mul_left a4
  have e1 : (q + 3) * v1 = q * v1 + 3 * v1 := by ring
  have e2 : (v1 + 1) * (q + 1) = q * v1 + q + v1 + 1 := by ring
  omega

/-- The first estimate computed from the two leading limbs of the window and the leading limb of
a normalized divisor is never below the true digit and at most two above it. -/
theorem estimate_first_spec (N V k v1 v2 : Nat) (hV : V / RADIX ^ k = v2 + RADIX * v1)
    (hv1 : HALF_OF_RADIX ≤ v1) (hv1R : v1 < RADIX) (hv2 : v2 < RADIX) (hNV : N < V * RADIX) :
    N / V ≤ wadd (wmul (N / RADIX ^ k / RADIX / RADIX) RADIX) (N / RADIX ^ k / RADIX % RADIX) / v1 ∧
    wadd (wmul (N / RADIX ^ k / RADIX / RADIX) RADIX) (N / RADIX ^ k / RADIX % RADIX) / v1
      ≤ N / V + 2 := by
  have hRpos := RADIX_pos
  have hR : RADIX = 1000000000 := rfl
  have hH : HALF_OF_RADIX = 500000000 := rfl
  have hW : WORD = 18446744073709551616 := rfl
  have hKpos : 0 < RADIX ^ k := Nat.pos_pow_of_pos _ hRpos
  have hK1pos : 0 < RADIX ^ k * RADIX := Nat.mul_pos hKpos hRpos
  have hv1pos : 0 < v1 := by omega
  have hBR : RADIX ≤ V / RADIX ^ k := by
    rw [hV]
    have : RADIX * 1 ≤ RADIX * v1 := Nat.mul_le_mul_left _ hv1pos
    omega
  have hVpos : 0 < V := by
    rcases Nat.eq_zero_or_pos V with h0 | h0
    · rw [h0, Nat.zero_div] at hBR; omega
    · exact h0
  obtain ⟨k1, _, k3, _, k5⟩ := knuth_facts N V (RADIX ^ k) hKpos hNV hBR
  have hB1 : (v2 + RADIX * v1) / RADIX = v1 := by
    rw [Nat.add_mul_div_left _ _ hRpos, Nat.div_eq_of_lt hv2, Nat.zero_add]
  have hVK1 : V / (RADIX ^ k * RADIX) = v1 := by
    rw [← Nat.div_div_eq_div_mul, hV, hB1]
  have hT1 : RADIX ^ k * RADIX * (N / RADIX ^ k / RADIX) ≤ N := by
    rw [Nat.div_div_eq_div_mul]
    exact Nat.mul_div_le _ _
  have hV4 : V < RADIX ^ k * RADIX * (v1 + 1) := by
    have := Nat.lt_mul_div_succ V hK1pos
    rw [hVK1] at this
    exact this
  generalize N / RADIX ^ k = A at *
  rw [hV] at k1 k5
  rw [hB1] at k5
  have hBc : v2 + RADIX * v1 = v1 * RADIX + v2 := by ring
  rw [hBc] at k1
  have hA3 : A / RADIX / RADIX < RADIX := by
    have h2 : (v1 + 1) * RADIX ≤ RADIX * RADIX := Nat.mul_le_mul_right _ hv1R
    have e2 : (v1 + 1) * RADIX = v1 * RADIX + RADIX := by ring
    rw [Nat.div_lt_iff_lt_mul hRpos]
    omega
  have hmod : A / RADIX % RADIX < RADIX := Nat.mod_lt _ hRpos
  have hsq : A / RADIX / RADIX * RADIX ≤ RADIX * RADIX :=
    Nat.mul_le_mul_right _ (Nat.le_of_lt hA3)
  have hw1 : wmul (A / RADIX / RADIX) RADIX = A / RADIX / RADIX * RADIX := by
    apply wmul_eq
    have := RADIX_sq_lt_WORD
    omega
  have ht : wadd (wmul (A / RADIX / RADIX) RADIX) (A / RADIX % RADIX) = A / RADIX := by
    rw [hw1, wadd_eq]
    · exact Nat.div_add_mod' _ _
    · have := radix_bounds.2
      omega
  rw [ht]
  refine ⟨(Nat.le_div_iff_mul_le hv1pos).2 k5, ?_⟩
  exact first_estimate_le N V (RADIX ^ k * RADIX) (A / RADIX) v1 (A / RADIX / v1) hv1
    (Nat.div_mul_le_self _ _) hT1 hV4 hVpos k3

/-- The estimates of one iteration of the division loop, on a normalized divisor `v` with at
least two limbs and a canonical window `w` below `v * RADIX`: the first one is the true digit or
up to two more, the corrected one the true digit or one more, and a limb. -/
theorem estimates_spec (v w : List Nat) (hv : canonical v) (hn : 2 ≤ v.length)
    (hnorm : HALF_OF_RADIX ≤ v.getLastD 0) (hw : canonical w)
    (hlt : value w < value v * RADIX) :
    value w / value v ≤ q_approxim_first v w ∧ q_approxim_first v w ≤ value w / value v + 2 ∧
    value w / value v ≤ q_approxim_corrected v w ∧
    q_approxim_corrected v w ≤ value w / value v + 1 ∧ q_approxim_corrected v w < RADIX := by
  have hRpos := RADIX_pos
  obtain ⟨lo, v2, v1, hvd⟩ := exists_top_two hn
  have hvb : bounded (lo ++ [v2, v1]) := hvd ▸ hv.1
  obtain ⟨t1, t2, t3, t4, t5, t6, t7⟩ := top_two_facts lo v2 v1 hvb
  rw [← hvd] at t1 t2 t5 t7
  have hKpos : 0 < RADIX ^ lo.length := Nat.pos_pow_of_pos _ hRpos
  have hVK : value v / RADIX ^ lo.length = v2 + RADIX * v1 := by
    rw [t5, Nat.add_mul_div_left _ _ hKpos, Nat.div_eq_of_lt t6, Nat.zero_add]
  have hA : value w / RADIX ^ lo.length < RADIX * RADIX * RADIX := by
    rw [Nat.div_lt_iff_lt_mul hKpos]
    have h1 := value_lt_pow hv.1
    rw [t7] at h1
    have e : RADIX ^ (lo.length + 2) = RADIX ^ lo.length * RADIX * RADIX := by ring
    rw [e] at h1
    have h2 : value v * RADIX < RADIX ^ lo.length * RADIX * RADIX * RADIX :=
      Nat.mul_lt_mul_of_pos_right h1 hRpos
    have e2 : RADIX * RADIX * RADIX * RADIX ^ lo.length
        = RADIX ^ lo.length * RADIX * RADIX * RADIX := by ring
    omega
  obtain ⟨_, d1, d2⟩ := window_digits (value w) lo.length hA
  have g_n : get w v.length = value w / RADIX ^ lo.length / RADIX / RADIX := by
    rw [get_spec _ _ hw.1, t7, d2]
  have g_n1 : get w (v.length - 1) = value w / RADIX ^ lo.length / RADIX % RADIX := by
    rw [get_spec _ _ hw.1, t7, ← d1]; rfl
  have g_n2 : get w (v.length - 2) = value w / RADIX ^ lo.length % RADIX := by
    rw [get_spec _ _ hw.1, t7]; rfl
  have est := estimate_spec (value w) (value v) lo.length v1 v2 hVK
    (by rw [← t1]; exact hnorm) t3 t4 hlt
  have est0 := estimate_first_spec (value w) (value v) lo.length v1 v2 hVK
    (by rw [← t1]; exact hnorm) t3 t4 hlt
  simp only [q_approxim_corrected, q_approxim_first, r_approxim_first, g_n, g_n1, g_n2, t1, t2]
  exact ⟨est0.1, est0.2, est.1, est.2.1, est.2.2⟩

/-- The iteration `divStep` written with the corrected estimate: the test
`remainder < v * q_approxim`, the decrement and the two subtractions. -/
theorem divStep_eq (v rem : List Nat) (u : Nat) :
    divStep v rem u =
      if lt (addAssignInt (mulAssign rem radix) u)
          (mulAssignInt v (q_approxim_corrected v (addAssignInt (mulAssign rem radix) u))) then
        match (subAssign
            (mulAssignInt v (q_approxim_corrected v (addAssignInt (mulAssign rem radix) u)))
            v).exn with
        | some e => Except.error e
        | none =>
          match (subAssign (addAssignInt (mulAssign rem radix) u) (subAssign
            (mulAssignInt v (q_approxim_corrected v (addAssignInt (mulAssign rem radix) u)))
            v).repres).exn with
          | some e => Except.error e
          | none => Except.ok
              (wsub (q_approxim_corrected v (addAssignInt (mulAssign rem radix) u)) 1,
                (subAssign (addAssignInt (mulAssign rem radix) u) (subAssign
                  (mulAssignInt v
                    (q_approxim_corrected v (addAssignInt (mulAssign rem radix) u)))
                  v).repres).repres)
      else
        match (subAssign (addAssignInt (mulAssign rem radix) u)
            (mulAssignInt v
              (q_approxim_corrected v (addAssignInt (mulAssign rem radix) u)))).exn with
        | some e => Except.error e
        | none => Except.ok (q_approxim_corrected v (addAssignInt (mulAssign rem radix) u),
            (subAssign (addAssignInt (mulAssign rem radix) u)
              (mulAssignInt v
                (q_approxim_corrected v (addAssignInt (mulAssign rem radix) u)))).repres) :=
  rfl

/-! ## The loop of `power_eq` on any exponent -/

/-- One round of the loop of `power_eq` on a canonical residue of value at least two: no
exception, and the new residue is canonical, smaller, and not zero.  The branch is chosen by the
most-significant limb. -/
theorem powBody_residue (increm base r : List Nat) (hr : canonical r) (h2 : 2 ≤ value r) :
    (powBody { increm := increm, base := base, residue := r }).2 = none ∧
    canonical (powBody { increm := increm, base := base, residue := r }).1.residue ∧
    1 ≤ value (powBody { increm := increm, base := base, residue := r }).1.residue ∧
    value (powBody { increm := increm, base := base, residue := r }).1.residue < value r ∧
    (r.getLastD 0 % 2 = 1 →
      value (powBody { increm := increm, base := base, residue := r }).1.residue
        = value r - 1) ∧
    (¬ r.getLastD 0 % 2 = 1 →
      value (powBody { increm := increm, base := base, residue := r }).1.residue
        = value r / 2) := by
  have hR : RADIX = 1000000000 := rfl
  by_cases hpar : r.getLastD 0 % 2 = 1
  · obtain ⟨s, e, c, v⟩ := (subAssignInt_spec r 1 hr (by omega)).2 (by omega)
    simp only [powBody, hpar, if_true, dec, e, Outcome.ok]
    exact ⟨trivial, c, by omega, by omega, fun _ => v, fun h => absurd trivial h⟩
  · obtain ⟨d1, d2, d3⟩ := divAssignInt_spec r 2 hr (by omega) (by omega)
    have hc := d3 (Or.inr h2)
    simp only [powBody, hpar, if_false]
    exact ⟨d1, hc, by omega, by omega, fun h => absurd h (by simp), fun _ => d2⟩

/-- The loop of `power_eq` ends: on a canonical residue of value at least two, with as many
rounds allowed as the value of the residue, it returns normally with the residue one. -/
theorem powLoop_terminates : ∀ (n : Nat) (r : List Nat), canonical r → value r = n → 2 ≤ n →
    ∀ (fuel : Nat), n ≤ fuel → ∀ (increm base : List Nat),
    ∃ st, powLoop fuel { increm := increm, base := base, residue := r } = some (st, none) ∧
      st.residue = [1] := by
  intro n
  induction n using Nat.strong_induction_on with
  | _ n ih =>
    intro r hr hv h2 fuel hf increm base
    have hR : RADIX = 1000000000 := rfl
    obtain ⟨f, rfl⟩ : ∃ f, fuel = f + 1 := ⟨fuel - 1, by omega⟩
    obtain ⟨b1, b2, b3, b4, _, _⟩ := powBody_residue increm base r hr (by omega)
    have c1 : canonical [1] := canonical_single (by omega) (by omega)
    have hgt := gt_spec _ _ b2 c1
    rw [← one_eq] at hgt
    have e : powBody { increm := increm, base := base, residue := r }
        = ((powBody { increm := increm, base := base, residue := r }).1, none) := by
      rw [← b1]
    rw [powLoop_succ f _ _ e, hgt]
    generalize (powBody { increm := increm, base := base, residue := r }).1 = st2 at *
    by_cases hbig : value st2.residue > value (ofNative 1 1)
    · simp only [hbig, decide_True, if_true]
      rw [one_eq] at hbig
      have hv1 : value [1] = 1 := by simp
      exact ih (value st2.residue) (by omega) st2.residue b2 rfl (by omega) f (by omega)
        st2.increm st2.base
    · simp only [hbig, decide_False, Bool.false_eq_true, if_false]
      rw [one_eq] at hbig
      have hv1 : value [1] = 1 := by simp
      exact ⟨st2, rfl, canonical_ext b2 c1 (by omega)⟩

/-- From the loop to `power_eq`: past the four early returns the result is `base * increm` of the
state in which the loop ends. -/
theorem power_eq_of_powLoop (fuel : Nat) (b e : List Nat) (st : PowState)
    (hb0 : b ≠ []) (hb1 : b ≠ [1]) (he0 : e ≠ []) (he1 : e ≠ [1])
    (h : powLoop fuel { increm := ofNative 1 1, base := b, residue := e } = some (st, none)) :
    power_eq fuel b e = some (Outcome.ok (mulAssign st.base st.increm)) := by
  have n1 : eq b (ofNative 1 1) = false := by simp [eq, one_eq, hb1]
  have n2 : eq e (ofNative 1 1) = false := by simp [eq, one_eq, he1]
  have n3 : b.isEmpty = false := by cases b with
    | nil => exact absurd rfl hb0
    | cons x xs => rfl
  have n4 : e.isEmpty = false := by cases e with
    | nil => exact absurd rfl he0
    | cons x xs => rfl
  simp only [power_eq, n1, n2, n3, n4, Bool.false_eq_true, if_false, h]

theorem ne_nil_one_of_value {l : List Nat} (h : 2 ≤ value l) : l ≠ [] ∧ l ≠ [1] := by
  constructor
  · intro h0; rw [h0] at h; simp at h
  · intro h0; rw [h0] at h; simp at h

/-! ## The single-limb path of `operator/=(const Integer &)` -/

theorem divAssign_scaled (a b : List Nat) (hn : 2 ≤ b.length)
    (hs : ¬ (a.length < b.length ∨ (a.length = b.length ∧ a.getLastD 0 < b.getLastD 0)))
    (ht : b.getLastD 0 < HALF_OF_RADIX) :
    divAssign a b = divDigits (mulAssignInt a (RADIX / (b.getLastD 0 + 1)))
      (mulAssignInt b (RADIX / (b.getLastD 0 + 1)))
      ((mulAssignInt a (RADIX / (b.getLastD 0 + 1))).length - b.length + 1) := by
  have hR : RADIX = 1000000000 := rfl
  have hH : HALF_OF_RADIX = 500000000 := rfl
  have hW : WORD = 18446744073709551616 := rfl
  have hw : wadd (b.getLastD 0) 1 = b.getLastD 0 + 1 := wadd_eq (by omega)
  cases b with
  | nil => simp at hn
  | cons o os =>
    cases os with
    | nil => simp at hn
    | cons p ps =>
      simp only [divAssign, List.isEmpty_cons, Bool.false_eq_true, if_false, hs, ht,
        decide_True, if_true, hw]

theorem divAssign_unscaled (a b : List Nat) (hn : 2 ≤ b.length)
    (hs : ¬ (a.length < b.length ∨ (a.length = b.length ∧ a.getLastD 0 < b.getLastD 0)))
    (ht : HALF_OF_RADIX ≤ b.getLastD 0) :
    divAssign a b = divDigits a b (a.length - b.length + 1) := by
  have ht2 : ¬ b.getLastD 0 < HALF_OF_RADIX := by omega
  cases b with
  | nil => simp at hn
  | cons o os =>
    cases os with
    | nil => simp at hn
    | cons p ps =>
      simp only [divAssign, List.isEmpty_cons, Bool.false_eq_true, if_false, hs, ht2,
        decide_False]

/-! ## The claims on the normalization, the estimates, the accumulators and the loops -/

/-- C21: the normalization reaches its goal.  For a canonical divisor `v` of at least two limbs
(so its leading limb `t` is at least one) on which the short-circuit is not taken: when
`t < HALF_OF_RADIX = RADIX / 2`, the divisor scaled by `d = RADIX / (t + 1)` is canonical, has as
many limbs as `v`, has a leading limb of at least `HALF_OF_RADIX` and the value `value v * d`,
and the division goes on with the scaled dividend and divisor; when `t ≥ HALF_OF_RADIX` it goes
on with the dividend and the divisor as they are. -/
theorem normalization_reaches_half_radix (a v : List Nat) (hv : canonical v)
    (hn : 2 ≤ v.length)
    (hs : ¬ (a.length < v.length ∨ (a.length = v.length ∧ a.getLastD 0 < v.getLastD 0))) :
    HALF_OF_RADIX = RADIX / 2 ∧ 1 ≤ v.getLastD 0 ∧
    (v.getLastD 0 < HALF_OF_RADIX →
      canonical (mulAssignInt v (RADIX / (v.getLastD 0 + 1))) ∧
      (mulAssignInt v (RADIX / (v.getLastD 0 + 1))).length = v.length ∧
      HALF_OF_RADIX ≤ (mulAssignInt v (RADIX / (v.getLastD 0 + 1))).getLastD 0 ∧
      value (mulAssignInt v (RADIX / (v.getLastD 0 + 1)))
        = value v * (RADIX / (v.getLastD 0 + 1)) ∧
      divAssign a v = divDigits (mulAssignInt a (RADIX / (v.getLastD 0 + 1)))
        (mulAssignInt v (RADIX / (v.getLastD 0 + 1)))
        ((mulAssignInt a (RADIX / (v.getLastD 0 + 1))).length - v.length + 1)) ∧
    (HALF_OF_RADIX ≤ v.getLastD 0 →
      divAssign a v = divDigits a v (a.length - v.length + 1)) := by
  have hne : v ≠ [] := by
    intro h0; rw [h0] at hn; simp at hn
  have htop := top_pos hne hv
  refine ⟨by decide, htop, ?_, divAssign_unscaled a v hn hs⟩
  intro ht
  have hR : RADIX = 1000000000 := rfl
  have hH : HALF_OF_RADIX = 500000000 := rfl
  have hW : WORD = 18446744073709551616 := rfl
  have hw : wadd (v.getLastD 0) 1 = v.getLastD 0 + 1 := wadd_eq (by omega)
  obtain ⟨n1, n2, n3, n4, _, _⟩ := normalize_spec v hv hne ht
  rw [hw] at n1 n2 n3 n4
  exact ⟨n1, n2, n3, n4, divAssign_scaled a v hn hs ht⟩

/-- Witness for C21: the divisor `123987654321` with leading limb `123`, scaled by
`RADIX / 124 = 8064516`, and a divisor with leading limb `600000000` left as it is. -/
theorem normalization_reaches_half_radix_witness :
    canonical [987654321, 123] ∧ 2 ≤ [987654321, 123].length ∧
    RADIX / ([987654321, 123].getLastD 0 + 1) = 8064516 ∧
    mulAssignInt [987654321, 123] 8064516 = [74173636, 999900422] ∧
    divAssign [1, 2, 3] [0, 600000000] = divDigits [1, 2, 3] [0, 600000000] 2 ∧
    (HALF_OF_RADIX = RADIX / 2 ∧ 1 ≤ [987654321, 123].getLastD 0 ∧
    ([987654321, 123].getLastD 0 < HALF_OF_RADIX →
      canonical (mulAssignInt [987654321, 123] (RADIX / ([987654321, 123].getLastD 0 + 1))) ∧
      (mulAssignInt [987654321, 123] (RADIX / ([987654321, 123].getLastD 0 + 1))).length
        = [987654321, 123].length ∧
      HALF_OF_RADIX
        ≤ (mulAssignInt [987654321, 123]
            (RADIX / ([987654321, 123].getLastD 0 + 1))).getLastD 0 ∧
      value (mulAssignInt [987654321, 123] (RADIX / ([987654321, 123].getLastD 0 + 1)))
        = value [987654321, 123] * (RADIX / ([987654321, 123].getLastD 0 + 1)) ∧
      divAssign [234567890, 345678901, 456789012, 123] [987654321, 123]
        = divDigits
          (mulAssignInt [234567890, 345678901, 456789012, 123]
            (RADIX / ([987654321, 123].getLastD 0 + 1)))
          (mulAssignInt [987654321, 123] (RADIX / ([987654321, 123].getLastD 0 + 1)))
          ((mulAssignInt [234567890, 345678901, 456789012, 123]
            (RADIX / ([987654321, 123].getLastD 0 + 1))).length
              - [987654321, 123].length + 1)) ∧
    (HALF_OF_RADIX ≤ [987654321, 123].getLastD 0 →
      divAssign [234567890, 345678901, 456789012, 123] [987654321, 123]
        = divDigits [234567890, 345678901, 456789012, 123] [987654321, 123]
          ([234567890, 345678901, 456789012, 123].length - [987654321, 123].length + 1))) :=
  ⟨by decide, by decide, by decide, by rfl, by rfl,
    normalization_reaches_half_radix [234567890, 345678901, 456789012, 123] [987654321, 123]
      (by decide) (by decide) (by decide)⟩

/-- C22: bounds on the estimates of a quotient limb.  In one iteration of the multi-limb loop,
on a normalized canonical divisor `v` of at least two limbs, a canonical remainder below `v` and
a limb `u`, the window `w` is below `v * RADIX`; the first estimate is never below the true
digit `value w / value v` and at most two above it; after the correction loop the estimate is
the true digit or one more; the test `remainder < v * q_approxim` holds exactly when it is one
more, and the limb stored, after the decrement made in that case, is the true digit. -/
theorem estimate_bounds (v rem w : List Nat) (u : Nat) (hv : canonical v) (hn : 2 ≤ v.length)
    (hnorm : HALF_OF_RADIX ≤ v.getLastD 0) (hrem : canonical rem) (hlt : value rem < value v)
    (hu : u < RADIX) (hw : w = addAssignInt (mulAssign rem radix) u) :
    value w = value rem * RADIX + u ∧ value w < value v * RADIX ∧
    value w / value v ≤ q_approxim_first v w ∧ q_approxim_first v w ≤ value w / value v + 2 ∧
    value w / value v ≤ q_approxim_corrected v w ∧
    q_approxim_corrected v w ≤ value w / value v + 1 ∧
    (lt w (mulAssignInt v (q_approxim_corrected v w)) = true
      ↔ q_approxim_corrected v w = value w / value v + 1) ∧
    (if lt w (mulAssignInt v (q_approxim_corrected v w)) then wsub (q_approxim_corrected v w) 1
      else q_approxim_corrected v w) = value w / value v ∧
    ∃ r, divStep v rem u = Except.ok (value w / value v, r) := by
  have hR : RADIX = 1000000000 := rfl
  have hW : WORD = 18446744073709551616 := rfl
  obtain ⟨w1, w2⟩ := window_spec rem u hrem hu
  rw [← hw] at w1 w2
  have hNV : value w < value v * RADIX := by
    have : (value rem + 1) * RADIX ≤ value v * RADIX := Nat.mul_le_mul_right _ hlt
    have e : (value rem + 1) * RADIX = value rem * RADIX + RADIX := by ring
    omega
  have hVpos : 0 < value v := by omega
  obtain ⟨e1, e2, e3, e4, e5⟩ := estimates_spec v w hv hn hnorm w1 hNV
  obtain ⟨r, s1, _, _, _⟩ := divStep_spec v rem u hv hn hnorm hrem hlt hu
  rw [← w2] at s1
  obtain ⟨_, m2, _, m4⟩ := mulAssignInt_spec v (q_approxim_corrected v w) hv.1 (Nat.le_of_lt e5)
  have hcases := div_mul_le_of_lt_succ hVpos e3 e4
  have hlt2 := lt_spec w (mulAssignInt v (q_approxim_corrected v w)) w1 (m4 hv)
  rw [m2] at hlt2
  have hsucc : value w < value v * (value w / value v + 1) := Nat.lt_mul_div_succ _ hVpos
  generalize q_approxim_corrected v w = qc at *
  generalize q_approxim_first v w = qf at *
  generalize value w / value v = d at *
  have hiff : lt w (mulAssignInt v qc) = true ↔ qc = d + 1 := by
    rw [hlt2, decide_eq_true_eq]
    constructor
    · exact hcases.1
    · intro h; rw [h]; exact hsucc
  refine ⟨w2, hNV, e1, e2, e3, e4, hiff, ?_, r, s1⟩
  by_cases hc : value w < value v * qc
  · have hq := hcases.1 hc
    rw [hlt2]
    simp only [hc, decide_True, if_true]
    rw [wsub_eq (by omega) (by omega)]
    omega
  · have hq := hcases.2 hc
    rw [hlt2]
    simp only [hc, decide_False, Bool.false_eq_true, if_false]
    exact hq

/-- Witness for C22: an iteration whose first estimate `RADIX + 1` is two above the true digit
`999999999`, which the correction loop reaches. -/
theorem estimate_bounds_witness :
    canonical [0, 600000000, 500000000] ∧ 2 ≤ [0, 600000000, 500000000].length ∧
    HALF_OF_RADIX ≤ [0, 600000000, 500000000].getLastD 0 ∧
    canonical [0, 550000000, 500000000] ∧
    value [0, 550000000, 500000000] < value [0, 600000000, 500000000] ∧ 5 < RADIX ∧
    [5, 0, 550000000, 500000000] = addAssignInt (mulAssign [0, 550000000, 500000000] radix) 5 ∧
    q_approxim_first [0, 600000000, 500000000] [5, 0, 550000000, 500000000] = RADIX + 1 ∧
    q_approxim_corrected [0, 600000000, 500000000] [5, 0, 550000000, 500000000] = 999999999 ∧
    value [5, 0, 550000000, 500000000] / value [0, 600000000, 500000000] = 999999999 ∧
    (value [5, 0, 550000000, 500000000] = value [0, 550000000, 500000000] * RADIX + 5 ∧
    value [5, 0, 550000000, 500000000] < value [0, 600000000, 500000000] * RADIX ∧
    value [5, 0, 550000000, 500000000] / value [0, 600000000, 500000000]
      ≤ q_approxim_first [0, 600000000, 500000000] [5, 0, 550000000, 500000000] ∧
    q_approxim_first [0, 600000000, 500000000] [5, 0, 550000000, 500000000]
      ≤ value [5, 0, 550000000, 500000000] / value [0, 600000000, 500000000] + 2 ∧
    value [5, 0, 550000000, 500000000] / value [0, 600000000, 500000000]
      ≤ q_approxim_corrected [0, 600000000, 500000000] [5, 0, 550000000, 500000000] ∧
    q_approxim_corrected [0, 600000000, 500000000] [5, 0, 550000000, 500000000]
      ≤ value [5, 0, 550000000, 500000000] / value [0, 600000000, 500000000] + 1 ∧
    (lt [5, 0, 550000000, 500000000] (mulAssignInt [0, 600000000, 500000000]
        (q_approxim_corrected [0, 600000000, 500000000] [5, 0, 550000000, 500000000])) = true
      ↔ q_approxim_corrected [0, 600000000, 500000000] [5, 0, 550000000, 500000000]
        = value [5, 0, 550000000, 500000000] / value [0, 600000000, 500000000] + 1) ∧
    (if lt [5, 0, 550000000, 500000000] (mulAssignInt [0, 600000000, 500000000]
        (q_approxim_corrected [0, 600000000, 500000000] [5, 0, 550000000, 500000000]))
      then wsub (q_approxim_corrected [0, 600000000, 500000000] [5, 0, 550000000, 500000000]) 1
      else q_approxim_corrected [0, 600000000, 500000000] [5, 0, 550000000, 500000000])
      = value [5, 0, 550000000, 500000000] / value [0, 600000000, 500000000] ∧
    ∃ r, divStep [0, 600000000, 500000000] [0, 550000000, 500000000] 5
      = Except.ok (value [5, 0, 550000000, 500000000] / value [0, 600000000, 500000000], r)) :=
  ⟨by decide, by decide, by decide, by decide, by decide, by decide, by rfl, by rfl, by rfl,
    by decide,
    estimate_bounds [0, 600000000, 500000000] [0, 550000000, 500000000]
      [5, 0, 550000000, 500000000] 5 (by decide) (by decide) (by decide) (by decide) (by decide)
      (by decide) (by rfl)⟩

/-- The invariant of the loop of `power_eq` after a squaring on an odd exponent `2 * x + 1`:
the new product, doubled, is the old one. -/
theorem pow_square_halve_odd (x : Nat) : 1 * 4 ^ x * 2 = 1 * 2 ^ (2 * x + 1) := by
  rw [pow_succ, pow_mul]
  norm_num

/-- C23: the branch of the loop of `power_eq` is not chosen by the parity of the exponent.  The
test reads `residue.repres.back()`, the most-significant limb.  On the residue `2000000001`
(limbs `1, 2`: least-significant limb and value odd, top limb even) the round squares the base
and halves the residue, after which `increm * base ^ residue` is half of what it was; on the
residue `1000000002` (limbs `2, 1`: even, top limb odd) the round multiplies and decrements.  On
every state the branch is the one given by the top limb. -/
theorem power_branch_reads_top_limb :
    [1, 2].head? = some 1 ∧ value [1, 2] % 2 = 1 ∧ [1, 2].getLastD 0 = 2 ∧
    powBody { increm := [1], base := [2], residue := [1, 2] }
      = ({ increm := [1], base := [4], residue := [0, 1] }, none) ∧
    value [1] * value [4] ^ value [0, 1] * 2 = value [1] * value [2] ^ value [1, 2] ∧
    value [1] * value [4] ^ value [0, 1] ≠ value [1] * value [2] ^ value [1, 2] ∧
    [2, 1].head? = some 2 ∧ value [2, 1] % 2 = 0 ∧ [2, 1].getLastD 0 = 1 ∧
    powBody { increm := [1], base := [2], residue := [2, 1] }
      = ({ increm := [2], base := [2], residue := [1, 1] }, none) ∧
    ∀ increm base r : List Nat,
      (powBody { increm := increm, base := base, residue := r }).1.base
        = if r.getLastD 0 % 2 = 1 then base else mulAssign base base := by
  have v1 : value [1] = 1 := by rfl
  have v2 : value [2] = 2 := by rfl
  have v4 : value [4] = 4 := by rfl
  have ve : value [1, 2] = 2 * value [0, 1] + 1 := by rfl
  have hdouble : value [1] * value [4] ^ value [0, 1] * 2
      = value [1] * value [2] ^ value [1, 2] := by
    rw [v1, v2, v4, ve]
    exact pow_square_halve_odd (value [0, 1])
  have hpos : 0 < value [1] * value [2] ^ value [1, 2] := by
    rw [v1, v2, Nat.one_mul]
    exact Nat.pos_pow_of_pos _ (by decide)
  refine ⟨by rfl, by rfl, by rfl, by rfl, hdouble, ne_of_double_eq _ _ hdouble hpos,
    by rfl, by rfl, by rfl, by rfl, ?_⟩
  intro increm base r
  by_cases h : r.getLastD 0 % 2 = 1
  · simp only [powBody, h, if_true]
  · simp only [powBody, h, if_false]

/-- C24: the multiplications never overflow the 64-bit accumulator.  For operands `a`, `b` with
all limbs below `RADIX` and a native factor `m < RADIX`: every value held in the accumulator of
the schoolbook loop of `a * b` (`result[i + j] + first[i] * second[j] + carry`, and the flush of
the carry) and of the single-limb loop of `a *= m` (`limb * m + carry`) is at most
`RADIX * RADIX + RADIX`, which is below `2^64`, and leaves a carry below `RADIX`; the results in
64-bit arithmetic are those of the same loops in the arithmetic of the natural numbers. -/
theorem mul_accumulator_never_overflows (a b : List Nat) (m : Nat) (ha : bounded a)
    (hb : bounded b) (hm : m < RADIX) :
    RADIX * RADIX + RADIX < WORD ∧ WORD = 2 ^ 64 ∧
    (∀ t ∈ mulAcc a b, t ≤ RADIX * RADIX + RADIX ∧ t < WORD ∧ t / RADIX < RADIX) ∧
    (∀ t ∈ mulIntAcc m a 0, t ≤ RADIX * RADIX + RADIX ∧ t < WORD ∧ t / RADIX < RADIX) ∧
    mul a b = mulExact a b ∧ mulAssignInt a m = mulAssignIntExact a m :=
  ⟨radix_bounds.2, by decide, (mul_exact_acc a b ha hb).2,
    (mulIntLoop_exact m (Nat.le_of_lt hm) a 0 RADIX_pos ha).2, (mul_exact_acc a b ha hb).1,
    mulAssignInt_exact a m ha (Nat.le_of_lt hm)⟩

/-- Witness for C24: operands made of the largest limb, with the accumulator values of the two
loops. -/
theorem mul_accumulator_never_overflows_witness :
    bounded [999999999, 999999999] ∧ bounded [999999999, 999999999, 999999999] ∧
    999999999 < RADIX ∧
    mulAcc [999999999, 999999999] [999999999, 999999999, 999999999]
      = [999999998000000001, 999999998999999999, 999999998, 999999999000000000,
          999999999999999998, 999999999, 999999998999999999, 999999999999999998, 999999999] ∧
    mulIntAcc 999999999 [999999999, 999999999] 0 = [999999998000000001, 999999998999999999] ∧
    mul [999999999, 999999999] [999999999, 999999999, 999999999]
      = [1, 0, 999999999, 999999998, 999999999] ∧
    (RADIX * RADIX + RADIX < WORD ∧ WORD = 2 ^ 64 ∧
    (∀ t ∈ mulAcc [999999999, 999999999] [999999999, 999999999, 999999999],
      t ≤ RADIX * RADIX + RADIX ∧ t < WORD ∧ t / RADIX < RADIX) ∧
    (∀ t ∈ mulIntAcc 999999999 [999999999, 999999999] 0,
      t ≤ RADIX * RADIX + RADIX ∧ t < WORD ∧ t / RADIX < RADIX) ∧
    mul [999999999, 999999999] [999999999, 999999999, 999999999]
      = mulExact [999999999, 999999999] [999999999, 999999999, 999999999] ∧
    mulAssignInt [999999999, 999999999] 999999999
      = mulAssignIntExact [999999999, 999999999] 999999999) :=
  ⟨by decide, by decide, by decide, by rfl, by rfl, by rfl,
    mul_accumulator_never_overflows [999999999, 999999999] [999999999, 999999999, 999999999]
      999999999 (by decide) (by decide) (by decide)⟩

/-- C25: the loop of `power_eq` ends with the residue one.  For a base of value at least two and
a canonical exponent `e` of value at least two, with at least `value e` rounds allowed, the loop
ends without an exception in a state whose residue is the single limb `1`, and `power_eq`
returns `base * increm` of that state.  In every round on a canonical residue of value at least
two no exception is thrown and the new residue is canonical, not zero, and smaller. -/
theorem power_loop_ends_at_one (fuel : Nat) (b e : List Nat) (hb : 2 ≤ value b)
    (he : canonical e) (he2 : 2 ≤ value e) (hf : value e ≤ fuel) :
    (∃ st, powLoop fuel { increm := ofNative 1 1, base := b, residue := e } = some (st, none) ∧
      st.residue = [1] ∧ value st.residue = 1 ∧
      power_eq fuel b e = some (Outcome.ok (mulAssign st.base st.increm))) ∧
    (∀ increm base r : List Nat, canonical r → 2 ≤ value r →
      (powBody { increm := increm, base := base, residue := r }).2 = none ∧
      canonical (powBody { increm := increm, base := base, residue := r }).1.residue ∧
      1 ≤ value (powBody { increm := increm, base := base, residue := r }).1.residue ∧
      value (powBody { increm := increm, base := base, residue := r }).1.residue < value r) := by
  obtain ⟨st, h1, h2⟩ := powLoop_terminates (value e) e he rfl he2 fuel hf (ofNative 1 1) b
  refine ⟨⟨st, h1, h2, by rw [h2]; rfl, ?_⟩, ?_⟩
  · exact power_eq_of_powLoop fuel b e st (ne_nil_one_of_value hb).1 (ne_nil_one_of_value hb).2
      (ne_nil_one_of_value he2).1 (ne_nil_one_of_value he2).2 h1
  · intro increm base r hr hr2
    obtain ⟨p1, p2, p3, p4, _, _⟩ := powBody_residue increm base r hr hr2
    exact ⟨p1, p2, p3, p4⟩

/-- Witness for C25: base `2` and the two-limb exponent `2000000001`. -/
theorem power_loop_ends_at_one_witness :
    2 ≤ value [2] ∧ canonical [1, 2] ∧ 2 ≤ value [1, 2] ∧ value [1, 2] ≤ 2000000001 ∧
    ((∃ st, powLoop 2000000001 { increm := ofNative 1 1, base := [2], residue := [1, 2] }
        = some (st, none) ∧
      st.residue = [1] ∧ value st.residue = 1 ∧
      power_eq 2000000001 [2] [1, 2] = some (Outcome.ok (mulAssign st.base st.increm))) ∧
    (∀ increm base r : List Nat, canonical r → 2 ≤ value r →
      (powBody { increm := increm, base := base, residue := r }).2 = none ∧
      canonical (powBody { increm := increm, base := base, residue := r }).1.residue ∧
      1 ≤ value (powBody { increm := increm, base := base, residue := r }).1.residue ∧
      value (powBody { increm := increm, base := base, residue := r }).1.residue
        < value r)) :=
  ⟨by decide, by decide, by decide, by decide,
    power_loop_ends_at_one 2000000001 [2] [1, 2] (by decide) (by decide) (by decide)
      (by decide)⟩

end BigInteger
